import Mathlib

/-!
# EFZ frame-data bot: move resolution, rendering, navigation tokens and extraction

A shallow embedding of the parts of `src/bot/commands/character.js` and
`src/scrapper/parse_efz.js` that the specification speaks about, followed by
theorems about them. The definitions come first, in the order of the source; then the
sample records and the vocabulary of the statements; then the theorems, claim by claim.

Modelling conventions.

* A JavaScript string is a Lean `String`, handled through its list of characters.
  Lengths and positions count characters, which is what JavaScript counts for text
  of the Basic Multilingual Plane. `toLowerCase` and `toUpperCase` map the ASCII
  letters, which is what they do on the move names and inputs of the corpus.
* An optional JSON field is an `Option`; `null` and `undefined` are both `none`. A field
  that is present has the type the extraction writes.
* A JavaScript exception is the `error` case of `Except JSError`.
* The `EmbedBuilder` of discord.js checks every argument when a setter is called and
  raises when it refuses it. The setters are modelled with these checks: the lengths
  of the title, the description, the field names and values and the footer, the
  colour, and the address of an image, which is read by its scheme and host.
* The identity of a move object (`===`) is its position in the character record, kept
  in the `ref` field of a resolver entry: a record read by `JSON.parse` is a tree, so
  two positions never hold the same object.
* Code that reads the page through cheerio is modelled on what it reads: a table is the
  list of its rows and a row the texts the code takes from it.
* An object whose fields are mutated in place (a move of the page walk, with its
  `followUps` and `parentMove`) lives in a graph of nodes and is referred to by its
  position there.
-/

namespace EFZ

/-! ## JavaScript string primitives -/

/-- Models `String.prototype.toLowerCase`, on the ASCII letters. -/
def toLowerCase (s : String) : String :=
  String.mk (s.data.map Char.toLower)

/-- Models `String.prototype.toUpperCase`, on the ASCII letters. -/
def toUpperCase (s : String) : String :=
  String.mk (s.data.map Char.toUpper)

/-- Models `a.startsWith(b)` on character lists. -/
def startsWithL : List Char → List Char → Bool
  | _, [] => true
  | [], _ :: _ => false
  | a :: as, b :: bs => a == b && startsWithL as bs

/-- Models `a.includes(b)` on character lists: `b` starts at some position of `a`. -/
def includesL : List Char → List Char → Bool
  | [], b => startsWithL [] b
  | a :: as, b => startsWithL (a :: as) b || includesL as b

/-- Models `String.prototype.startsWith`. -/
def startsWith (s t : String) : Bool := startsWithL s.data t.data

/-- Models `String.prototype.includes`. -/
def includes (s t : String) : Bool := includesL s.data t.data

/-- White space and line terminators, the characters `String.prototype.trim` removes. -/
def isJSWhitespace (c : Char) : Bool :=
  let n := c.toNat
  n == 9 || n == 10 || n == 11 || n == 12 || n == 13 || n == 32 || n == 0xA0 ||
    n == 0x1680 || (0x2000 ≤ n && n ≤ 0x200A) || n == 0x2028 || n == 0x2029 ||
    n == 0x202F || n == 0x205F || n == 0x3000 || n == 0xFEFF

/-- Models `String.prototype.trim`. -/
def trim (s : String) : String :=
  String.mk ((s.data.dropWhile isJSWhitespace).reverse.dropWhile isJSWhitespace).reverse

/-- Models `text.substring(0, n)`. -/
def substring0 (text : String) (n : Nat) : String := String.mk (text.data.take n)

/-- Models `a.indexOf(b)` on character lists; `none` is the result `-1`. -/
def indexOfL (needle : List Char) : List Char → Option Nat
  | [] => if startsWithL [] needle then some 0 else none
  | c :: cs =>
    if startsWithL (c :: cs) needle then some 0
    else (indexOfL needle cs).map (fun i => i + 1)

/-- Models `String.prototype.indexOf`; `none` is the result `-1`. -/
def indexOf (s t : String) : Option Nat := indexOfL t.data s.data

/-- Models `parts.join(sep)`. -/
def join (sep : String) : List String → String
  | [] => ""
  | [x] => x
  | x :: y :: rest => x ++ sep ++ join sep (y :: rest)

/-- A decimal digit as a character. -/
def digitChar : Nat → Char
  | 0 => '0' | 1 => '1' | 2 => '2' | 3 => '3' | 4 => '4'
  | 5 => '5' | 6 => '6' | 7 => '7' | 8 => '8' | _ => '9'

/-- The decimal digits of `n`, most significant first; the first argument bounds the
number of digits. -/
def decimalDigits : Nat → Nat → List Char
  | 0, _ => []
  | fuel + 1, n =>
    if n < 10 then [digitChar n] else decimalDigits fuel (n / 10) ++ [digitChar (n % 10)]

/-- A non-negative integer inside a template literal: JavaScript prints it in decimal
(for the integers below `10^21`, which covers every index and identifier here). -/
def numberToString (n : Nat) : String := String.mk (decimalDigits (n + 1) n)

/-- Models `s.split(sep)` for a one-character separator, on character lists. -/
def splitL (sep : Char) : List Char → List (List Char)
  | [] => [[]]
  | c :: cs =>
    if c == sep then [] :: splitL sep cs
    else
      match splitL sep cs with
      | [] => [[c]]
      | part :: parts => (c :: part) :: parts

/-- Models `s.split(sep)` for a one-character separator. -/
def split (s : String) (sep : Char) : List String :=
  (splitL sep s.data).map String.mk

/-- The value of a character as a digit in a radix up to 36. -/
def digitValue (c : Char) : Option Nat :=
  if '0' ≤ c && c ≤ '9' then some (c.toNat - 48)
  else if 'a' ≤ c && c ≤ 'z' then some (c.toNat - 87)
  else if 'A' ≤ c && c ≤ 'Z' then some (c.toNat - 55)
  else none

/-- Whether a character is a digit of the radix. -/
def isRadixDigit (radix : Nat) (c : Char) : Bool :=
  match digitValue c with
  | some d => d < radix
  | none => false

/-- Models `parseInt(s, radix)`; radix 0 stands for an absent radix and `none` for `NaN`.
Leading white space is skipped, a sign is read, `0x` switches to radix 16 when the radix
is absent or 16, and the longest run of digits is read. -/
def parseInt (s : String) (radix : Nat) : Option Int :=
  let cs := s.data.dropWhile isJSWhitespace
  let negative := cs.head? == some '-'
  let cs1 := match cs with
    | '-' :: rest => rest
    | '+' :: rest => rest
    | _ => cs
  if radix != 0 && (radix < 2 || radix > 36) then none
  else
    let hexMark := (radix == 0 || radix == 16) &&
      (startsWithL cs1 ['0', 'x'] || startsWithL cs1 ['0', 'X'])
    let r := if hexMark then 16 else if radix == 0 then 10 else radix
    let cs2 := if hexMark then cs1.drop 2 else cs1
    let digits := cs2.takeWhile (isRadixDigit r)
    if digits.isEmpty then none
    else
      let value : Nat := digits.foldl (fun acc c => acc * r + (digitValue c).getD 0) 0
      some (if negative then -(value : Int) else (value : Int))

/-- An optional string inside a template literal; an absent one prints `undefined`. -/
def show_ (o : Option String) : String := o.getD "undefined"

/-- Models `a || b` on optional strings. -/
def orElse (a b : Option String) : Option String :=
  match a with
  | some x => if x != "" then some x else b
  | none => b

/-- Source `truncateText(text, maxLength)` on a string. -/
def truncateText (text : String) (maxLength : Nat) : String :=
  if text == "" || text.length ≤ maxLength then text
  else substring0 text (maxLength - 3) ++ "..."

/-- Truthiness of an optional string: present and not empty. -/
def truthy : Option String → Bool
  | some s => s != ""
  | none => false

/-- Line terminators, the characters that `.` of a regular expression does not match. -/
def isLineTerminator (c : Char) : Bool :=
  c == '\n' || c == '\r' || c.toNat == 0x2028 || c.toNat == 0x2029

/-- Character class `[1-9]`. -/
def isDigit19 (c : Char) : Bool := '1' ≤ c && c ≤ '9'

/-- Character class `\d`. -/
def isDigit (c : Char) : Bool := '0' ≤ c && c ≤ '9'

/-- Character class `\w`. -/
def isWordChar (c : Char) : Bool :=
  ('a' ≤ c && c ≤ 'z') || ('A' ≤ c && c ≤ 'Z') || isDigit c || c == '_'

/-- First alternative `^[1-9]+.*\*?$`: a digit 1-9, then characters that are not line
terminators up to the end (the digits and the star are such characters). -/
def reDigitsAny : List Char → Bool
  | [] => false
  | c :: cs => isDigit19 c && cs.all (fun d => !isLineTerminator d)

/-- Second alternative `^j\..*$`. -/
def reJumpAny : List Char → Bool
  | 'j' :: '.' :: cs => cs.all (fun d => !isLineTerminator d)
  | _ => false

/-- Third alternative `^\d+\w$`: at least one digit, then one word character, then
the end. -/
def reDigitsWord (cs : List Char) : Bool :=
  match cs.reverse with
  | w :: d :: ds => isWordChar w && isDigit d && ds.all isDigit
  | _ => false

/-- The test `/^[1-9]+.*\*?$|^j\..*$|^\d+\w$/.test(searchValue)`. -/
def isInputNotation (searchValue : String) : Bool :=
  reDigitsAny searchValue.data || reJumpAny searchValue.data || reDigitsWord searchValue.data

/-! ## The character record (`bot/characters/*.json`) -/

/-- A JavaScript exception: a `TypeError`, or the error with which the embed builder
refuses an argument. -/
inductive JSError where
  | typeError
  | validationError
  deriving DecidableEq, Repr

deriving instance DecidableEq for Except

/-- One entry of `move.variations`. -/
structure Variation where
  version : Option String := none
  damage : Option String := none
  framedata : Option (List (String × String)) := none
  notes : Option String := none
  image : Option String := none
  deriving DecidableEq, Repr

/-- What the bot reads of another move reached through `parentMove` or `followUps`. -/
structure MoveInfo where
  name : Option String := none
  moveName : Option String := none
  input : Option String := none
  deriving DecidableEq, Repr

/-- A move object, with the fields of the three record shapes. `framedata` and the rows
of `data` are objects, kept as their `Object.entries` list. -/
structure Move where
  moveName : Option String := none
  name : Option String := none
  input : Option String := none
  image : Option String := none
  currentImage : Option String := none
  damage : Option String := none
  framedata : Option (List (String × String)) := none
  properties : Option (List String) := none
  variations : Option (List Variation) := none
  followUps : Option (List MoveInfo) := none
  parentMove : Option MoveInfo := none
  data : Option (List (List (String × String))) := none
  versionNotes : Option (List (String × List String)) := none
  notes : Option (List String) := none
  deriving DecidableEq, Repr

/-- An element of `character.movelists`; an entry of `moves` may be `null`. -/
structure MoveList where
  name : Option String := none
  moves : Option (List (Option Move)) := none
  deriving DecidableEq, Repr

/-- A section of a legacy record. -/
structure Section where
  name : Option String := none
  moves : Option (List (Option Move)) := none
  deriving DecidableEq, Repr

/-- A move-list identifier as it occurs in a record or in a token. -/
inductive IdValue where
  | num (n : Nat)
  | str (s : String)
  deriving DecidableEq, Repr

/-- An element of `character.moveLists.options` (first legacy shape). -/
structure LegacyOption where
  id : Option IdValue := none
  name : Option String := none
  sections : Option (List Section) := none
  deriving DecidableEq, Repr

/-- The object `character.moveLists`. -/
structure LegacyMoveLists where
  options : Option (List LegacyOption) := none
  deriving DecidableEq, Repr

/-- A character record in any of its three shapes: `movelists` (current format),
`moveLists.options` and `sections` (legacy formats). -/
structure Character where
  name : Option String := none
  character : Option String := none
  icon : Option String := none
  movelists : Option (List MoveList) := none
  moveLists : Option LegacyMoveLists := none
  sections : Option (List Section) := none
  deriving DecidableEq, Repr

/-- The `moveList` field of a resolver entry. -/
inductive ListRef where
  | movelist (ml : MoveList)
  | option (o : LegacyOption)
  | null
  deriving DecidableEq, Repr

/-- A resolver entry `{ move, section, moveList, moveListId }`. `ref` is the position of
the move object in the record and stands for its identity. -/
structure MoveMatch where
  ref : List Nat
  move : Move
  section_ : Section
  moveList : ListRef
  moveListId : Option IdValue
  deriving DecidableEq, Repr

/-! ## Query resolver (`findMoveByNameOrInput`, `handleNayukiMoves`,
`findMoveInAllMoveLists`) -/

/-- A position visited by the nested loops over `character.movelists` and
`movelist.moves`. -/
structure Slot where
  mlIndex : Nat
  movelist : MoveList
  idx : Nat
  move : Option Move
  deriving DecidableEq, Repr

/-- The positions of one move-list, in order; none when `movelist.moves` is absent. -/
def slotsOf (mlIndex : Nat) (movelist : MoveList) : List Slot :=
  ((movelist.moves.getD []).enum).map (fun p => Slot.mk mlIndex movelist p.1 p.2)

/-- All positions in the order of
`for (mlIndex ...) { if (movelist.moves) for (const move of movelist.moves) ... }`. -/
def allSlots (movelists : List MoveList) : List Slot :=
  (movelists.enum).flatMap (fun p => slotsOf p.1 p.2)

/-- The entry pushed for the move `m` found at slot `s`. -/
def Slot.entry (s : Slot) (m : Move) : MoveMatch :=
  { ref := [s.mlIndex, s.idx], move := m, section_ := { name := some "Moves" },
    moveList := ListRef.movelist s.movelist, moveListId := some (IdValue.num s.mlIndex) }

/-- Models `results.some(r => r.move === move)`. -/
def alreadyIn (results : List MoveMatch) (s : Slot) : Bool :=
  results.any (fun r => r.ref == [s.mlIndex, s.idx])

/-- Models `move.moveName && move.moveName.startsWith("Costume") && move.input`. -/
def isCostumeWithInput (m : Move) : Bool :=
  truthy m.moveName && startsWith (m.moveName.getD "") "Costume" && truthy m.input

/-- Models `move.input.split(/[*~]/)[0]`: the input up to its first `*` or `~`. -/
def inputBase (input : String) : String :=
  String.mk (input.data.takeWhile (fun c => c != '*' && c != '~'))

/-- Body of the exact-input loop (lines 107-117). -/
def exactInputStep (searchLower : String) (results : List MoveMatch) (s : Slot) :
    List MoveMatch :=
  match s.move with
  | none => results
  | some m =>
    if truthy m.input && toLowerCase (m.input.getD "") == searchLower then
      results ++ [s.entry m]
    else results

/-- Body of the exact-name loop (lines 131-167). -/
def exactNameStep (searchLower : String) (results : List MoveMatch) (s : Slot) :
    List MoveMatch :=
  match s.move with
  | none => results
  | some m =>
    if isCostumeWithInput m && toLowerCase (m.input.getD "") == searchLower then
      results ++ [s.entry m]
    else if isCostumeWithInput m
        && toLowerCase (inputBase (m.input.getD "")) == searchLower then
      results ++ [s.entry m]
    else if truthy m.moveName && toLowerCase (m.moveName.getD "") == searchLower then
      results ++ [s.entry m]
    else results

/-- Body of the substring loop (lines 180-218). -/
def substringStep (searchLower : String) (results : List MoveMatch) (s : Slot) :
    List MoveMatch :=
  match s.move with
  | none => results
  | some m =>
    if isCostumeWithInput m
        && includes (toLowerCase (m.input.getD "")) searchLower then
      if !alreadyIn results s then results ++ [s.entry m] else results
    else if truthy m.moveName
        && includes (toLowerCase (m.moveName.getD "")) searchLower then
      if !alreadyIn results s then results ++ [s.entry m] else results
    else if truthy m.input && includes (toLowerCase (m.input.getD "")) searchLower then
      if !alreadyIn results s then results ++ [s.entry m] else results
    else results

/-- Source `findMoveByNameOrInput(character, searchValue)`. Every access is guarded, so
it raises on no record of the model. -/
def findMoveByNameOrInput (character : Character) (searchValue : String) :
    List MoveMatch :=
  let searchLower := toLowerCase searchValue
  match character.movelists with
  | none => []
  | some movelists =>
    let slots := allSlots movelists
    let byInput :=
      if isInputNotation searchValue then slots.foldl (exactInputStep searchLower) []
      else []
    if byInput.length > 0 then byInput
    else
      let byName := slots.foldl (exactNameStep searchLower) byInput
      if byName.length > 0 then byName
      else slots.foldl (substringStep searchLower) byName

/-- Models `allMoves.find(pred)` where `pred` reads a field of each element: reading a field
of a `null` element raises. Returns the position and the move found. -/
def findFrom (pred : Move → Bool) : Nat → List (Option Move) → Except JSError (Option (Nat × Move))
  | _, [] => Except.ok none
  | _, none :: _ => Except.error JSError.typeError
  | i, some m :: rest => if pred m then Except.ok (some (i, m)) else findFrom pred (i + 1) rest

/-- Models `character.movelists[0].moves.find(pred)` as `handleNayukiMoves` writes it, with no
guard: an absent `movelists`, an empty one, and an absent `moves` raise. -/
def findInFirstMoveList (character : Character) (pred : Move → Bool) :
    Except JSError (Option MoveMatch) :=
  match character.movelists with
  | none => Except.error JSError.typeError
  | some [] => Except.error JSError.typeError
  | some (first :: _) =>
    match first.moves with
    | none => Except.error JSError.typeError
    | some allMoves =>
      match findFrom pred 0 allMoves with
      | Except.error e => Except.error e
      | Except.ok none => Except.ok none
      | Except.ok (some (i, m)) =>
        Except.ok (some { ref := [0, i], move := m, section_ := { name := some "Moves" },
                          moveList := ListRef.movelist first,
                          moveListId := some (IdValue.num 0) })

/-- The alias test for Nayu-chan Kick (lines 234-239). -/
def kickAlias (searchLower : String) : Bool :=
  includes searchLower "nayu-chan" || includes searchLower "kick" ||
    searchLower == "623*" || searchLower == "623c" || searchLower == "623a" ||
    searchLower == "623b"

/-- The alias test for the Zzz~ stance (line 256). -/
def stanceAlias (searchLower : String) : Bool :=
  includes searchLower "zzz" || includes searchLower "214"

/-- The alias test for Rolling~ (line 271). -/
def rollingAlias (searchLower : String) : Bool :=
  includes searchLower "rolling" || includes searchLower "41236"

/-- One alias rule: when the test holds, look the move up in the first move-list and
return it if found; otherwise go on with `next`. -/
def aliasRule (character : Character) (test : Bool) (pred : Move → Bool)
    (next : Except JSError (Option MoveMatch)) : Except JSError (Option MoveMatch) :=
  if test then
    match findInFirstMoveList character pred with
    | Except.error e => Except.error e
    | Except.ok (some r) => Except.ok (some r)
    | Except.ok none => next
  else next

/-- Source `handleNayukiMoves(character, moveName)`; `none` is its `null`. -/
def handleNayukiMoves (character : Character) (moveName : String) :
    Except JSError (Option MoveMatch) :=
  if character.name != some "Nayuki Minase (asleep)" then Except.ok none
  else
    let searchLower := toLowerCase moveName
    aliasRule character (kickAlias searchLower)
      (fun move => move.input == some "623*" || move.moveName == some "Nayu-chan Kick")
      (aliasRule character (stanceAlias searchLower)
        (fun move => move.input == some "214*" || move.moveName == some "Zzz~")
        (aliasRule character (rollingAlias searchLower)
          (fun move => move.input == some "41236*" || move.moveName == some "Rolling~")
          (Except.ok none)))

/-- The predicate of the legacy lookup:
`(m.name && m.name === moveName) || (m.moveName && m.moveName === moveName)`. -/
def legacyNameIs (moveName : String) (m : Move) : Bool :=
  (truthy m.name && m.name == some moveName) ||
    (truthy m.moveName && m.moveName == some moveName)

/-- One legacy section: `if (section.moves) { find; if (move) push }`. -/
def legacySectionStep (moveName : String) (path : List Nat) (moveList : ListRef)
    (moveListId : Option IdValue) (results : List MoveMatch) (p : Nat × Section) :
    Except JSError (List MoveMatch) :=
  match p.2.moves with
  | none => Except.ok results
  | some moves =>
    match findFrom (legacyNameIs moveName) 0 moves with
    | Except.error e => Except.error e
    | Except.ok none => Except.ok results
    | Except.ok (some (i, m)) =>
      Except.ok (results ++ [{ ref := path ++ [p.1, i], move := m, section_ := p.2,
                               moveList := moveList, moveListId := moveListId }])

/-- A `forEach` whose body may raise. -/
def forEachE {α β : Type} (step : β → α → Except JSError β) :
    List α → β → Except JSError β
  | [], acc => Except.ok acc
  | x :: xs, acc =>
    match step acc x with
    | Except.error e => Except.error e
    | Except.ok acc1 => forEachE step xs acc1

/-- One legacy option: `if (option.sections) option.sections.forEach(...)`. -/
def legacyOptionStep (moveName : String) (results : List MoveMatch)
    (p : Nat × LegacyOption) : Except JSError (List MoveMatch) :=
  match p.2.sections with
  | none => Except.ok results
  | some sections =>
    forEachE (legacySectionStep moveName [p.1] (ListRef.option p.2) p.2.id)
      sections.enum results

/-- Source `findMoveInAllMoveLists(character, moveName)`. -/
def findMoveInAllMoveLists (character : Character) (moveName : String) :
    Except JSError (List MoveMatch) :=
  match handleNayukiMoves character moveName with
  | Except.error e => Except.error e
  | Except.ok (some nayukiMove) => Except.ok [nayukiMove]
  | Except.ok none =>
    match character.movelists with
    | some _ => Except.ok (findMoveByNameOrInput character moveName)
    | none =>
      let fromOptions :=
        match character.moveLists with
        | some { options := some options } =>
          forEachE (legacyOptionStep moveName) options.enum []
        | _ => Except.ok []
      match fromOptions with
      | Except.error e => Except.error e
      | Except.ok results =>
        match character.sections with
        | none => Except.ok results
        | some sections =>
          forEachE (legacySectionStep moveName [] ListRef.null none) sections.enum results

/-! ## Rendering (`createMoveEmbed`) -/

/-- A field added with `embed.addFields({ name, value })`; an `undefined` value is
`none`. -/
structure EmbedField where
  name : String
  value : Option String
  deriving DecidableEq, Repr

/-- The state of the `EmbedBuilder` the function fills; `{}` is a new builder. -/
structure Embed where
  title : String := ""
  color : Option Nat := none
  thumbnail : Option String := none
  description : Option String := none
  fields : List EmbedField := []
  image : Option String := none
  footer : String := ""
  deriving DecidableEq, Repr

/-- What `createMoveEmbed` returns, together with the move object as the call leaves it
(`move.currentImage` is assigned). `hasFollowUps` is `none` when `move.followUps` is
absent. -/
structure MoveEmbed where
  embed : Embed
  hasVersions : Bool
  versionCount : Nat
  currentVersion : Int
  versionLabels : List String
  isBaseMove : Bool
  hasFollowUps : Option Bool
  move : Move
  deriving DecidableEq, Repr

/-- Source `hasMultipleMoveLists(character)`. -/
def hasMultipleMoveLists (character : Character) : Bool :=
  (match character.moveLists with
   | some { options := some options } => options.length > 1
   | _ => false) ||
  (match character.movelists with
   | some movelists => movelists.length > 1
   | none => false)

/-- Models `colorMap[version % 4]`; `%` takes the sign of the dividend, and a key that
the map does not have gives `undefined`. -/
def colorOf (version : Int) : Option Nat :=
  match Int.tmod version 4 with
  | 0 => some 0x4287f5
  | 1 => some 0xf54242
  | 2 => some 0x42f54e
  | 3 => some 0xf5d442
  | _ => none

/-! ### The checks of the embed builder

Every setter of the `EmbedBuilder` of discord.js checks its argument when it is called
and raises when it refuses it (`Assertions` of `@discordjs/builders`). -/

/-- The check of a title and of a field name: a text of 1 to 256 characters. -/
def fieldNamePredicate (text : String) : Bool :=
  decide (1 ≤ text.length) && decide (text.length ≤ 256)

/-- The check of a field value: a text of 1 to 1024 characters; `undefined` is
refused. -/
def fieldValuePredicate : Option String → Bool
  | some text => decide (1 ≤ text.length) && decide (text.length ≤ 1024)
  | none => false

/-- The check of a description: a text of 1 to 4096 characters. -/
def descriptionPredicate (text : String) : Bool :=
  decide (1 ≤ text.length) && decide (text.length ≤ 4096)

/-- The check of a footer text: a text of 1 to 2048 characters. -/
def footerTextPredicate (text : String) : Bool :=
  decide (1 ≤ text.length) && decide (text.length ≤ 2048)

/-- The check of a colour: a whole number from 0 to `0xFFFFFF`; `undefined` is
refused. -/
def colorPredicate : Option Nat → Bool
  | some color => decide (color ≤ 0xFFFFFF)
  | none => false

/-- An ASCII letter. -/
def isAsciiLetter (c : Char) : Bool :=
  ('a' ≤ c && c ≤ 'z') || ('A' ≤ c && c ≤ 'Z')

/-- The scheme of an address, in lower case, and the text after its colon; `none` when
the address does not begin with a letter followed by letters, digits, `+`, `-` or `.`
up to a colon, in which case `new URL(address)` raises. -/
def urlScheme (url : List Char) : Option (List Char × List Char) :=
  match url with
  | c :: _ =>
    if isAsciiLetter c then
      match url.dropWhile
          (fun d => isAsciiLetter d || isDigit d || d == '+' || d == '-' || d == '.') with
      | ':' :: rest =>
        some ((url.takeWhile
          (fun d => isAsciiLetter d || isDigit d || d == '+' || d == '-' || d == '.')).map
            Char.toLower, rest)
      | _ => none
    else none
  | [] => none

/-- A character of a plain host name: a letter, a digit, `.`, `-` or `_`. -/
def isHostChar (c : Char) : Bool :=
  isAsciiLetter c || isDigit c || c == '.' || c == '-' || c == '_'

/-- The end of the host in an address: `/`, `\`, `?` or `#`. -/
def isHostEnd (c : Char) : Bool :=
  c == '/' || c == '\\' || c == '?' || c == '#'

/-- A host name of letters, digits, `.`, `-` and `_` whose last label begins with a
letter, so that it is not read as a number. -/
def plainHost (host : List Char) : Bool :=
  host.all isHostChar &&
  (match (splitL '.' host).getLast? with
   | some (c :: _) => isAsciiLetter c
   | _ => false)

/-- The check of the address of an image or thumbnail: `new URL(address)` has to succeed
and give one of the protocols `http:`, `https:` and `attachment:`. The model reads the
scheme and the host of the address. An address without scheme (a relative address such
as `/images/a.png`) or with another scheme is refused; after `http:` and `https:` the
slashes are skipped and the host that follows must not be empty; after `attachment:` a
host is read only behind `//`. Hosts are taken to be plain names, as in the addresses
the extraction writes: white space around the address, credentials, ports, address
literals and names outside ASCII are not modelled and count as refused. -/
def imageURLPredicate (url : String) : Bool :=
  match urlScheme url.data with
  | some (scheme, rest) =>
    if scheme == "http".data || scheme == "https".data then
      plainHost ((rest.dropWhile (fun c => c == '/' || c == '\\')).takeWhile
        (fun c => !isHostEnd c))
    else if scheme == "attachment".data then
      match rest with
      | '/' :: '/' :: host =>
        (host.takeWhile (fun c => !(c == '/' || c == '?' || c == '#'))).all isHostChar
      | _ => true
    else false
  | none => false

/-- Models `embed.setTitle(title)`. -/
def Embed.setTitle (e : Embed) (title : String) : Except JSError Embed :=
  if fieldNamePredicate title then Except.ok { e with title := title }
  else Except.error JSError.validationError

/-- Models `embed.setColor(color)`. -/
def Embed.setColor (e : Embed) (color : Option Nat) : Except JSError Embed :=
  if colorPredicate color then Except.ok { e with color := color }
  else Except.error JSError.validationError

/-- Models `embed.setThumbnail(url)`. -/
def Embed.setThumbnail (e : Embed) (url : String) : Except JSError Embed :=
  if imageURLPredicate url then Except.ok { e with thumbnail := some url }
  else Except.error JSError.validationError

/-- Models `embed.setDescription(description)`. -/
def Embed.setDescription (e : Embed) (description : String) : Except JSError Embed :=
  if descriptionPredicate description then Except.ok { e with description := some description }
  else Except.error JSError.validationError

/-- Models `embed.setImage(url)`. -/
def Embed.setImage (e : Embed) (url : String) : Except JSError Embed :=
  if imageURLPredicate url then Except.ok { e with image := some url }
  else Except.error JSError.validationError

/-- Models `embed.setFooter({ text })`. -/
def Embed.setFooter (e : Embed) (text : String) : Except JSError Embed :=
  if footerTextPredicate text then Except.ok { e with footer := text }
  else Except.error JSError.validationError

/-- The embed after `addFields` has accepted the field. -/
def Embed.addField (e : Embed) (name : String) (value : Option String) : Embed :=
  { e with fields := e.fields ++ [{ name := name, value := value }] }

/-- Models `embed.addFields({ name, value })`: an embed holds at most 25 fields, and
the name and the value of the field are checked. -/
def Embed.addFields (e : Embed) (name : String) (value : Option String) :
    Except JSError Embed :=
  if decide (e.fields.length + 1 ≤ 25) && fieldNamePredicate name && fieldValuePredicate value
  then Except.ok (e.addField name value)
  else Except.error JSError.validationError

/-- The loop that builds `frameDataText` from `Object.entries(framedata)`. -/
def frameDataText (entries : List (String × String)) : String :=
  entries.foldl (fun text kv =>
    if kv.2 == "" || kv.2 == "/" || kv.2 == "-" then text
    else text ++ "**" ++ kv.1 ++ "**: " ++ kv.2 ++ "\n") ""

/-- The same loop over a row of `move.data`, which also skips `Damage` and `Version`. -/
def rowDataText (entries : List (String × String)) : String :=
  entries.foldl (fun text kv =>
    if kv.1 == "Damage" || kv.1 == "Version" || kv.2 == "" || kv.2 == "/" || kv.2 == "-"
    then text
    else text ++ "**" ++ kv.1 ++ "**: " ++ kv.2 ++ "\n") ""

/-- Property lookup `row[key]` on an object kept as its entries. -/
def lookup (key : String) (entries : List (String × String)) : Option String :=
  (entries.find? (fun kv => kv.1 == key)).map (fun kv => kv.2)

/-- Models `array[i]` for a number `i`. -/
def index {α : Type} (xs : List α) (i : Int) : Option α :=
  if i < 0 then none else xs.get? i.toNat

/-- The `Frame Data` field, added when the text is not empty. -/
def Embed.addFrameData (e : Embed) (text : String) : Except JSError Embed :=
  if text != "" then e.addFields "Frame Data" (some text) else Except.ok e

/-- Lines 385-416: version 0 of a move that has variations shows the base move. -/
def baseMoveFields (e : Embed) (move : Move) : Except JSError Embed :=
  (match move.damage with
   | some d => if d != "" && d != "/" then e.addFields "Damage" (some d) else Except.ok e
   | none => Except.ok e).bind fun e1 =>
  (match move.framedata with
   | some fd => e1.addFrameData (frameDataText fd)
   | none => Except.ok e1).bind fun e2 =>
  match move.properties with
  | some props =>
    if props.length > 0 then
      e2.addFields "Notes"
        (some (if (join "\n\n" props).length > 1000 then truncateText (join "\n\n" props) 1000
               else join "\n\n" props))
    else Except.ok e2
  | none => Except.ok e2

/-- Lines 423-452: the fields of a variation. -/
def variationFields (e : Embed) (v : Variation) : Except JSError Embed :=
  (if truthy v.damage then e.addFields "Damage" v.damage else Except.ok e).bind fun e1 =>
  (match v.framedata with
   | some fd => e1.addFrameData (frameDataText fd)
   | none => Except.ok e1).bind fun e2 =>
  match v.notes with
  | some n => if n != "" then e2.addFields "Notes" (some (truncateText n 1000)) else Except.ok e2
  | none => Except.ok e2

/-- The label of row `idx` of `move.data` (lines 462-466). -/
def dataLabel (row : List (String × String)) (idx : Nat) : String :=
  if truthy (lookup "Version" row) then (lookup "Version" row).getD ""
  else if idx < 3 then ["A", "B", "C"].getD idx ""
  else "Version " ++ numberToString (idx + 1)

/-- Lines 457-494: a legacy move with several rows in `move.data`. Reading a field of
`move.data[version]` raises when that row does not exist. -/
def dataRowFields (e : Embed) (move : Move) (rows : List (List (String × String)))
    (versionLabels : List String) (version : Int) : Except JSError Embed :=
  match index rows (if version < (rows.length : Int) then version else 0) with
  | none => Except.error JSError.typeError
  | some dataToUse =>
    (if truthy (lookup "Damage" dataToUse)
     then e.addFields "Damage" (lookup "Damage" dataToUse)
     else Except.ok e).bind fun e1 =>
    (e1.addFrameData (rowDataText dataToUse)).bind fun e2 =>
    let byLabel : Option (List String) :=
      match move.versionNotes, index versionLabels version with
      | some vn, some l => (vn.find? (fun kv => kv.1 == l)).map (fun kv => kv.2)
      | _, _ => none
    match byLabel with
    | some notes => e2.addFields "Notes" (notes.head?.map (fun n => truncateText n 1000))
    | none =>
      match move.notes with
      | some (n :: _) => e2.addFields "Notes" (some (truncateText n 1000))
      | _ => Except.ok e2

/-- Lines 496-520: a move without variations. -/
def plainMoveFields (e : Embed) (move : Move) : Except JSError Embed :=
  (if truthy move.damage then e.addFields "Damage" move.damage else Except.ok e).bind fun e1 =>
  (match move.framedata with
   | some fd => e1.addFrameData (frameDataText fd)
   | none => Except.ok e1).bind fun e2 =>
  match move.properties with
  | some (p :: _) => e2.addFields "Notes" (some (truncateText p 1000))
  | _ => Except.ok e2

/-- One line of the `Follow-ups` field (line 544). -/
def followUpLine (f : MoveInfo) : String :=
  "• " ++ show_ (orElse f.name f.moveName) ++
    (if truthy f.input then " (" ++ f.input.getD "" ++ ")" else "")

/-- Lines 343-368: title, colour, thumbnail, description and the `Input` field. -/
def headerEmbed (character : Character) (move : Move) (moveListName : Option String)
    (version : Int) : Except JSError Embed :=
  (Embed.setTitle {} (show_ (orElse character.character character.name) ++ " - " ++
    show_ (orElse move.name move.moveName))).bind fun e0 =>
  (e0.setColor (colorOf version)).bind fun e1 =>
  (if truthy character.icon then e1.setThumbnail (character.icon.getD "")
   else Except.ok e1).bind fun e2 =>
  (match move.parentMove with
   | some parent =>
     e2.setDescription ("*Follow-up of: " ++ show_ (orElse parent.name parent.moveName) ++
       (if (orElse parent.input (some "")).getD "" != ""
        then " (" ++ (orElse parent.input (some "")).getD "" ++ ")" else "") ++ "*")
   | none =>
     if truthy moveListName && hasMultipleMoveLists character then
       e2.setDescription ("**" ++ moveListName.getD "" ++ "**")
     else Except.ok e2).bind fun e3 =>
  match move.input with
  | some i => if i != "" && trim i != "" then e3.addFields "Input" (some (trim i))
              else Except.ok e3
  | none => Except.ok e3

/-- The local state after the version-dependent part (lines 370-522). -/
structure VersionView where
  embed : Embed
  hasVersions : Bool
  versionCount : Nat
  versionLabels : List String
  isBaseMove : Bool
  move : Move
  deriving DecidableEq, Repr

/-- Lines 370-522: the fields that depend on the version, and the assignment to
`move.currentImage`. -/
def versionView (e : Embed) (move : Move) (version : Int) : Except JSError VersionView :=
  match move.variations with
  | some (v :: vs) =>
    if version = 0 then
      (baseMoveFields e move).bind fun e1 =>
      Except.ok { embed := e1, hasVersions := true,
                  versionCount := (v :: vs).length + 1,
                  versionLabels :=
                    "Base Move" :: (v :: vs).map (fun w => (orElse w.version (some "")).getD ""),
                  isBaseMove := true, move := { move with currentImage := move.image } }
    else
      match index (v :: vs) (version - 1) with
      | some currentVersionObj =>
        (variationFields e currentVersionObj).bind fun e1 =>
        Except.ok { embed := e1, hasVersions := true,
                    versionCount := (v :: vs).length + 1,
                    versionLabels :=
                      "Base Move" ::
                        (v :: vs).map (fun w => (orElse w.version (some "")).getD ""),
                    isBaseMove := false,
                    move := if truthy currentVersionObj.image
                      then { move with currentImage := currentVersionObj.image } else move }
      | none =>
        Except.ok { embed := e, hasVersions := true, versionCount := (v :: vs).length + 1,
                    versionLabels :=
                      "Base Move" ::
                        (v :: vs).map (fun w => (orElse w.version (some "")).getD ""),
                    isBaseMove := false, move := move }
  | _ =>
    match move.data with
    | some (r0 :: r1 :: rs) =>
      (dataRowFields e move (r0 :: r1 :: rs)
        ((r0 :: r1 :: rs).enum.map (fun p => dataLabel p.2 p.1)) version).bind fun e3 =>
      Except.ok { embed := e3, hasVersions := true, versionCount := (r0 :: r1 :: rs).length,
                  versionLabels := (r0 :: r1 :: rs).enum.map (fun p => dataLabel p.2 p.1),
                  isBaseMove := true, move := move }
    | _ =>
      (plainMoveFields e move).bind fun e3 =>
      Except.ok { embed := e3, hasVersions := false, versionCount := 1,
                  versionLabels := [], isBaseMove := true, move := move }

/-- The text of the version in the footer (lines 529-538). -/
def footerVersionLabel (version : Int) (w : VersionView) : String :=
  if w.hasVersions then
    if w.isBaseMove then "Base Move"
    else if truthy (index w.versionLabels version) then
      (index w.versionLabels version).getD ""
    else if version < 3 then (index ["A", "B", "C"] version).getD ""
    else "Version " ++ numberToString (version + 1).toNat
  else ""

/-- Lines 524-556: the image, the `Follow-ups` field and the footer. -/
def footerEmbed (character : Character) (move : Move) (version : Int) (w : VersionView) :
    Except JSError Embed :=
  (match orElse w.move.currentImage w.move.image with
   | some img => if img != "" then w.embed.setImage img else Except.ok w.embed
   | none => Except.ok w.embed).bind fun e4 =>
  (match w.move.followUps with
   | some (f :: fs) =>
     e4.addFields "Follow-ups"
       (some (if (join "\n" ((f :: fs).map followUpLine)).length > 1024
              then substring0 (join "\n" ((f :: fs).map followUpLine)) 1020 ++ "..."
              else join "\n" ((f :: fs).map followUpLine)))
   | _ => Except.ok e4).bind fun e5 =>
  e5.setFooter (show_ (orElse character.character character.name) ++ " | Move: " ++
    show_ (orElse move.name move.moveName) ++
    (if footerVersionLabel version w != "" then " | Version: " ++ footerVersionLabel version w
     else ""))

/-- Lines 524-566: image, `Follow-ups` field, footer and the returned object. -/
def finishEmbed (character : Character) (move : Move) (version : Int) (w : VersionView) :
    Except JSError MoveEmbed :=
  (footerEmbed character move version w).bind fun e =>
  Except.ok { embed := e
              hasVersions := w.hasVersions
              versionCount := w.versionCount
              currentVersion := version
              versionLabels := w.versionLabels
              isBaseMove := w.isBaseMove
              hasFollowUps := w.move.followUps.map (fun fs => decide (fs.length > 0))
              move := w.move }

/-- Source `createMoveEmbed(character, move, section, moveListName, version)`; the
function does not read `section`. -/
def createMoveEmbed (character : Character) (move : Move) (_section : Section)
    (moveListName : Option String) (version : Int) : Except JSError MoveEmbed :=
  (headerEmbed character move moveListName version).bind fun e =>
  (versionView e move version).bind fun w =>
  finishEmbed character move version w

/-! ## Navigation tokens (`createUniqueId` and the button handlers) -/

/-- Source `createUniqueId(baseId)`: `now` is the value of `Date.now()` and `rand` the
string `Math.random().toString(36).substring(2, 8)`. -/
def createUniqueId (baseId : String) (now : Nat) (rand : String) : String :=
  baseId ++ ":" ++ numberToString now ++ ":" ++ rand

/-- The base identifier of a version button (lines 1076 and 1089):
`version:${characterName}:${moveData.moveListId}:${moveName}:${vIdx}`. -/
def versionBaseId (characterName : String) (moveListId : Nat) (moveName : String)
    (vIdx : Nat) : String :=
  "version:" ++ characterName ++ ":" ++ numberToString moveListId ++ ":" ++ moveName ++
    ":" ++ numberToString vIdx

/-- What the version button handler reads from `interaction.customId`
(lines 1537-1543). An absent part is `none`. -/
structure VersionRequest where
  characterName : Option String
  moveListIdStr : Option String
  moveListId : Option Int
  moveName : Option String
  version : Option Int
  deriving DecidableEq, Repr

/-- The decoding done by the version button handler. -/
def decodeVersion (customId : String) : VersionRequest :=
  let parts := split customId ':'
  { characterName := parts.get? 1
    moveListIdStr := parts.get? 2
    moveListId := parseInt (show_ (parts.get? 2)) 10
    moveName := parts.get? 3
    version := parseInt ((orElse (parts.get? 4) (some "0")).getD "0") 0 }

/-! ## Special-case preprocessing (`preprocessMove`) -/

/-- Models `array.forEach((x, idx) => ...)` when the body rewrites `x` in place: the elements
after the loop, positions counted from `k`. -/
def mapIdxFrom {α : Type} (f : Nat → α → α) : Nat → List α → List α
  | _, [] => []
  | k, x :: xs => f k x :: mapIdxFrom f (k + 1) xs

/-- The guard `!variation.version || variation.version === "-"`. -/
def versionUnclear (v : Variation) : Bool :=
  !truthy v.version || v.version == some "-"

/-- Lines 859-867: a long note of the stance is cut to its first sentence, or
truncated. -/
def summarizeNotes (v : Variation) : Variation :=
  match v.notes with
  | some notes =>
    if notes != "" && notes.length > 500 then
      match indexOf notes ". " with
      | some firstPeriod =>
        if firstPeriod > 0 && firstPeriod < 250 then
          { v with notes := some (substring0 notes (firstPeriod + 1)) }
        else { v with notes := some (truncateText notes 500) }
      | none => { v with notes := some (truncateText notes 500) }
    else v
  | none => v

/-- Lines 904-906 and 926-928: a long note is truncated. -/
def truncateNotes (v : Variation) : Variation :=
  match v.notes with
  | some notes =>
    if notes != "" && notes.length > 500 then { v with notes := some (truncateText notes 500) }
    else v
  | none => v

/-- Lines 871-882: the names given to the unnamed variations of `214*`. -/
def stanceLabel : Nat → String
  | 0 => "214*~A"
  | 1 => "214*~B"
  | 2 => "214*~C"
  | 3 => "214*~623A"
  | 4 => "214*~236A"
  | 5 => "214*~2C"
  | 6 => "214*~j.2C"
  | 7 => "214*~5S"
  | 8 => "214*~2S"
  | 9 => "214*~8S"
  | 10 => "214*~4/6S"
  | idx => "214*~Option " ++ numberToString (idx + 1)

/-- Lines 894-901: the names given to the unnamed variations of `41236*`. -/
def rollingLabel : Nat → String
  | 0 => "41236A"
  | 1 => "41236A (Final Hit)"
  | 2 => "41236B"
  | 3 => "41236B (Final Hit)"
  | 4 => "41236C"
  | 5 => "41236C (Middle)"
  | 6 => "41236C (Final Hit)"
  | idx => "41236* Option " ++ numberToString (idx + 1)

/-- Lines 917-923: the names given to the unnamed variations of `623*`. -/
def kickLabel : Nat → String
  | 0 => "623A"
  | 1 => "623B"
  | 2 => "623B (Jam Level 5+)"
  | 3 => "623B (Jam Level 7+)"
  | 4 => "623C"
  | 5 => "623C (Final Hit)"
  | idx => "623* Option " ++ numberToString (idx + 1)

/-- Models `if (!variation.version || variation.version === "-") variation.version = label`. -/
def nameVersion (label : String) (v : Variation) : Variation :=
  if versionUnclear v then { v with version := some label } else v

/-- The loop body for a variation of `214*` (lines 858-884). -/
def stanceVariation (idx : Nat) (v : Variation) : Variation :=
  nameVersion (stanceLabel idx) (summarizeNotes v)

/-- The loop body for a variation of `41236*` (lines 891-907). -/
def rollingVariation (idx : Nat) (v : Variation) : Variation :=
  truncateNotes (nameVersion (rollingLabel idx) v)

/-- The loop body for a variation of `623*` (lines 914-929). -/
def kickVariation (idx : Nat) (v : Variation) : Variation :=
  truncateNotes (nameVersion (kickLabel idx) v)

/-- Models `if (move.variations && Array.isArray(move.variations)) move.variations.forEach(body)`. -/
def forEachVariation (body : Nat → Variation → Variation) (move : Move) : Move :=
  match move.variations with
  | some variations => { move with variations := some (mapIdxFrom body 0 variations) }
  | none => move

/-- The description that replaces the properties of `214*` (lines 848-852). -/
def stanceProperties : List String :=
  ["Nayuki lies down on Keropi, entering her sleep stance.",
   "Has some invincibility frames, making it useful for baiting wakeups and countering.",
   "Multiple follow-ups are available from this stance. While in this stance, Nayuki is low to the ground and able to low profile some projectiles."]

/-- Lines 844-886: the block for `214*` / `Zzz~`. -/
def stanceBlock (move : Move) : Move :=
  if move.input == some "214*" || move.moveName == some "Zzz~" then
    let move1 :=
      match move.properties with
      | some (_ :: _) => { move with properties := some stanceProperties }
      | _ => move
    forEachVariation stanceVariation move1
  else move

/-- Lines 889-909: the block for `41236*` / `Rolling~`. -/
def rollingBlock (move : Move) : Move :=
  if move.input == some "41236*" || move.moveName == some "Rolling~" then
    forEachVariation rollingVariation move
  else move

/-- Lines 912-931: the block for `623*` / `Nayu-chan Kick`. -/
def kickBlock (move : Move) : Move :=
  if move.input == some "623*" || move.moveName == some "Nayu-chan Kick" then
    forEachVariation kickVariation move
  else move

/-- Source `preprocessMove(move, characterName)`; a `null` move is `none`. The function
rewrites the move object in place and returns it. -/
def preprocessMove (move : Option Move) (characterName : String) : Option Move :=
  match move with
  | none => none
  | some m =>
    if characterName == "Nayuki Minase (asleep)" then
      some (kickBlock (rollingBlock (stanceBlock m)))
    else some m

/-! ## Extraction: notes and variations (`parse_efz.js`) -/

/-- A data row of a move table: the object built by `processDataTable`, as its
entries. -/
abbrev Row := List (String × String)

/-- The move object the page walk builds (lines 279-287), without its links to other
moves. `versionNotes` is an object, kept as its entries in insertion order;
`additionalImages` is set by `processTable` only. -/
structure RawMove where
  name : String
  input : Option String := none
  image : Option String := none
  additionalImages : List String := []
  data : List Row := []
  notes : List String := []
  versionNotes : List (String × List String) := []
  deriving DecidableEq, Repr

/-- Models `a.startsWith(b)` ignoring the case of ASCII letters, as a regular expression with
the flag `i` compares the characters of these patterns. -/
def startsWithCI (a b : List Char) : Bool :=
  startsWithL (a.map Char.toLower) (b.map Char.toLower)

/-- The alternatives of `/^(A:|B:|C:|Version A:|Version B:|Version C:)/i`, in order; the
pattern `/^(A:|B:|C:|Version [ABC]:)/i` of line 393 matches the same texts. -/
def versionMarks : List String :=
  ["A:", "B:", "C:", "Version A:", "Version B:", "Version C:"]

/-- Models `note.match(/^(A:|B:|C:|Version A:|Version B:|Version C:)/i)`: the matched text
`versionMatch[0]`, or `none`. -/
def versionMatch (note : String) : Option String :=
  (versionMarks.find? (fun mark => startsWithCI note.data mark.data)).map
    (fun mark => String.mk (note.data.take mark.length))

/-- Models `note.replace(/^(A:|B:|C:|Version A:|Version B:|Version C:)/i, '')`. -/
def removeVersionMark (note : String) : String :=
  match versionMatch note with
  | some matched => String.mk (note.data.drop matched.length)
  | none => note

/-- Models `versionNotes[version].push(text)`, creating the array when the key is new. -/
def pushUnder (version text : String) :
    List (String × List String) → List (String × List String)
  | [] => [(version, [text])]
  | (k, notes) :: rest =>
    if k == version then (k, notes ++ [text]) :: rest
    else (k, notes) :: pushUnder version text rest

/-- Property lookup `versionNotes[version]`. -/
def notesUnder (version : String) (versionNotes : List (String × List String)) :
    Option (List String) :=
  (versionNotes.find? (fun kv => kv.1 == version)).map (fun kv => kv.2)

/-- The two arrays the classifier loop fills (lines 877-887). -/
structure Classified where
  versionNotes : List (String × List String) := []
  generalNotes : List String := []
  deriving DecidableEq, Repr

/-- Body of `allNotes.forEach(note => ...)` (lines 878-886). -/
def classifyNote (acc : Classified) (note : String) : Classified :=
  match versionMatch note with
  | some matched =>
    let version := toUpperCase (String.mk (matched.data.take 1))
    { acc with versionNotes := pushUnder version (trim (removeVersionMark note)) acc.versionNotes }
  | none => { acc with generalNotes := acc.generalNotes ++ [note] }

/-- The classifier loop of `extractVersionNotes` over the collected notes. -/
def classifyNotes (allNotes : List String) : Classified :=
  allNotes.foldl classifyNote {}

/-- Models `note.replace(/\n+/g, ' ').replace(/\s+/g, ' ')` on characters: every run of white
space becomes one space. The flag tells whether the previous character was white
space. -/
def collapseSpacesFrom : Bool → List Char → List Char
  | _, [] => []
  | inRun, c :: cs =>
    if isJSWhitespace c then
      if inRun then collapseSpacesFrom true cs else ' ' :: collapseSpacesFrom true cs
    else c :: collapseSpacesFrom false cs

/-- The two replacements of line 891 on a string. -/
def collapseSpaces (note : String) : String :=
  String.mk (collapseSpacesFrom false note.data)

/-- Models `[...new Set(notes)]`: the notes in the order in which they were first added to the
set. -/
def newSet (notes : List String) : List String :=
  notes.foldl (fun set note => if set.contains note then set else set ++ [note]) []

/-- The result of `extractVersionNotes`, from the notes collected from the page
(lines 877-896). -/
structure ExtractedNotes where
  cleanedNotes : List String
  versionNotes : List (String × List String)
  deriving DecidableEq, Repr

/-- Source `extractVersionNotes`, after the notes have been collected from the table rows
and list items: classification, then `[...new Set(generalNotes)]`, white-space cleaning
and removal of empty notes. -/
def extractVersionNotes (allNotes : List String) : ExtractedNotes :=
  let c := classifyNotes allNotes
  { cleanedNotes :=
      ((newSet c.generalNotes).map
        (fun note => trim (collapseSpaces note))).filter
        (fun note => note.length > 0)
    versionNotes := c.versionNotes }

/-- Models `row?.[key]`. -/
def cell (row : Option Row) (key : String) : Option String :=
  row.bind (lookup key)

/-- Models `x || ""`. -/
def orEmpty (x : Option String) : String :=
  match x with
  | some v => v
  | none => ""

/-- The `framedata` object built from a data row (lines 348-356, 370-378, 410-418 and
433-441). -/
def frameDataOf (row : Option Row) : List (String × String) :=
  [("guard", orEmpty (cell row "Guard")),
   ("startup", orEmpty (orElse (cell row "Startup ¹ ²") (cell row "Startup"))),
   ("active", orEmpty (cell row "Active")),
   ("recovery", orEmpty (cell row "Recovery")),
   ("advHit", orEmpty (cell row "Adv Hit")),
   ("advBlock", orEmpty (cell row "Adv Block")),
   ("cancel", orEmpty (cell row "Cancel"))]

/-- Lines 336-340: the label of the variation built from row `idx`. -/
def rowVersionLabel (row : Row) (idx : Nat) : String :=
  if truthy (lookup "Version" row) then orEmpty (lookup "Version" row)
  else if idx < 3 then ["A", "B", "C"].getD idx ""
  else "Version " ++ numberToString (idx + 1)

/-- Lines 335-359: the variation built from row `idx` of a move with several rows. -/
def rowVariation (move : RawMove) (idx : Nat) (row : Row) : Variation :=
  let versionLabel := rowVersionLabel row idx
  let versionNote : Option String :=
    match notesUnder versionLabel move.versionNotes with
    | some notes => notes.head?
    | none => none
  { version := some versionLabel
    damage := some (orEmpty (lookup "Damage" row))
    framedata := some (frameDataOf (some row))
    notes := some (orEmpty (orElse versionNote
      (if truthy move.notes.head? then move.notes.head? else some ""))) }

/-- Lines 364-380: the variation built from one entry of `versionNotes`. -/
def noteVariation (move : RawMove) (entry : String × List String) : Variation :=
  { version := some entry.1
    damage := some (orEmpty (cell move.data.head? "Damage"))
    framedata := some (frameDataOf move.data.head?)
    notes := some (orEmpty entry.2.head?) }

/-- Lines 387-405: the note of a default variation `A`, `B` or `C`. -/
def defaultVersionNote (move : RawMove) (version : String) : String :=
  match move.notes with
  | [] => ""
  | first :: rest =>
    let found := (first :: rest).find? (fun note =>
      startsWith note (version ++ ":") || startsWith note ("Version " ++ version ++ ":"))
    let versionNote :=
      match found with
      | some note => trim (removeVersionMark note)
      | none => ""
    if versionNote != "" then versionNote else first

/-- Lines 385-420: a default variation `A`, `B` or `C`. -/
def defaultVariation (move : RawMove) (version : String) : Variation :=
  { version := some version
    damage := some (orEmpty (cell move.data.head? "Damage"))
    framedata := some (frameDataOf move.data.head?)
    notes := some (defaultVersionNote move version) }

/-- Models `move.input && (move.input.includes('*') || move.input.includes('/'))`. -/
def inputSignalsVersions (move : RawMove) : Bool :=
  truthy move.input && (includes (orEmpty move.input) "*" || includes (orEmpty move.input) "/")

/-- Lines 325-423: `moveVariations`. -/
def moveVariations (move : RawMove) : List Variation :=
  let versionCount := move.data.length
  let hasVariations :=
    inputSignalsVersions move || versionCount > 1 || move.versionNotes.length > 0
  if hasVariations then
    if versionCount > 1 then move.data.enum.map (fun p => rowVariation move p.1 p.2)
    else if move.versionNotes.length > 0 then move.versionNotes.map (noteVariation move)
    else if inputSignalsVersions move then ["A", "B", "C"].map (defaultVariation move)
    else []
  else []

/-- The callback of `section.moves.map` in `botFormatOutput` (lines 323-449): the move
as it is written to the character file. -/
def botFormatMove (move : RawMove) : Move :=
  { moveName := some move.name
    input := some (orEmpty move.input)
    image := some (orEmpty move.image)
    damage := some (orEmpty (cell move.data.head? "Damage"))
    framedata := some (frameDataOf move.data.head?)
    properties := some move.notes
    variations := if (moveVariations move).length > 0 then some (moveVariations move) else none }

/-! ## Extraction: follow-up tables (`processFollowUpTable`) -/

/-- A move object of the page walk together with its links: `followUps` and
`parentMove` hold references to other move objects, here their positions in the
graph. -/
structure MoveNode where
  move : RawMove
  followUps : List Nat := []
  parentMove : Option Nat := none
  deriving DecidableEq, Repr

/-- The move objects built so far, and the array `currentSection.moves` of top-level
moves of the current section. -/
structure MoveGraph where
  nodes : List MoveNode := []
  sectionMoves : List Nat := []
  deriving DecidableEq, Repr

/-- What `processFollowUpTable` reads of a `tr` of the table. `tdCount` is
`$(row).find('td').length`; `nameElement`, `inputElement` and `imageSrc` are the texts of
`big, b, strong`, of `small` and the `src` of the image in the first cell, when present;
`textNode` is the text of the first text node of that cell; `cells` holds, for each
further cell, the header text and the cell text; `colspanCell` is the text of
`td[colspan]` of the row and of its list items, when there is such a cell. -/
structure FollowUpRow where
  tdCount : Nat
  nameElement : Option String := none
  textNode : String := ""
  inputElement : Option String := none
  imageSrc : Option String := none
  cells : List (String × String) := []
  colspanCell : Option (String × List String) := none
  deriving DecidableEq, Repr

/-- A `table` element of the page: the text of its first `big`, its rows, and the
position in `$("table")` of the table that follows it as next sibling, if one does. -/
structure PageTable where
  big : String := ""
  rows : List FollowUpRow := []
  next : Option Nat := none
  deriving DecidableEq, Repr

/-- The tables of the page in document order, `$("table")`. -/
abbrev Page := List PageTable

/-- The site address prepended to image sources. -/
def BASE_URL : String := "https://wiki.gbl.gg"

/-- Lines 724-742: the name of the follow-up of a row. -/
def followUpName (row : FollowUpRow) : String :=
  match row.nameElement with
  | some text => trim text
  | none => trim row.textNode

/-- Line 745: `inputElement.length ? inputElement.text().trim() : ''`. -/
def followUpInput (row : FollowUpRow) : String :=
  match row.inputElement with
  | some text => trim text
  | none => ""

/-- Models `frameData[headerText] = cellText`. -/
def setKey (key value : String) : Row → Row
  | [] => [(key, value)]
  | (k, v) :: rest => if k == key then (k, value) :: rest else (k, v) :: setKey key value rest

/-- Lines 759-770: the frame data read from the further cells of the row. -/
def followUpFrameData (row : FollowUpRow) : Row :=
  row.cells.foldl (fun frameData hc =>
    if trim hc.1 != "" && trim hc.2 != "" then setKey (trim hc.1) (trim hc.2) frameData
    else frameData) []

/-- Lines 773-786: the notes read from the row below. -/
def followUpNotes (nextRow : Option FollowUpRow) : List String :=
  match nextRow.bind (fun row => row.colspanCell) with
  | some (text, items) => trim text :: items.map trim
  | none => []

/-- Lines 789-798: the follow-up move object of a row. -/
def followUpMove (row : FollowUpRow) (nextRow : Option FollowUpRow) (parentMove : Nat) :
    MoveNode :=
  { move := { name := followUpName row
              input := some (followUpInput row)
              image := row.imageSrc.map (fun src => BASE_URL ++ src)
              data := [followUpFrameData row]
              notes := followUpNotes nextRow
              versionNotes := [] }
    followUps := []
    parentMove := some parentMove }

/-- Replaces the element at a position. -/
def updateAt {α : Type} (f : α → α) : Nat → List α → List α
  | _, [] => []
  | 0, x :: xs => f x :: xs
  | k + 1, x :: xs => x :: updateAt f k xs

/-- Line 801, `parentMove.followUps.push(followUpMove)`, for a freshly built move
object: the object joins the graph and its reference is appended to the follow-ups of
the parent. -/
def MoveGraph.pushFollowUp (g : MoveGraph) (parentMove : Nat) (node : MoveNode) :
    MoveGraph :=
  let followUp := g.nodes.length
  let pushed := updateAt (fun p => { p with followUps := p.followUps ++ [followUp] })
    parentMove g.nodes
  { g with nodes := pushed ++ [node] }

/-- A loop whose body may fail to finish: `none` stands for a call that did not return
within the allowed recursion depth. -/
def forEachO {α β : Type} (step : β → α → Option β) : List α → β → Option β
  | [], acc => some acc
  | x :: xs, acc =>
    match step acc x with
    | none => none
    | some acc1 => forEachO step xs acc1

/-- The test of line 807 on a table of the page. -/
def relatedTable (name : String) (otherTable : PageTable) : Bool :=
  includes (trim otherTable.big) name && includes (trim otherTable.big) "Follow-up"

/-- Lines 805-811, the body of `$("table").each(...)`: a table whose heading names the
follow-up and contains `Follow-up` sends the table after it through the function again,
with the follow-up as parent. `recur` is that recursive call. -/
def relatedStep (recur : Option Nat → Option Nat → MoveGraph → Option MoveGraph)
    (name : String) (followUp : Nat) (g : MoveGraph) (otherTable : PageTable) :
    Option MoveGraph :=
  if relatedTable name otherTable then recur otherTable.next (some followUp) g
  else some g

/-- Lines 713-811, the body of `rows.each(...)` for the row at position `ir.1` of the
table `t`. -/
def rowStep (recur : Option Nat → Option Nat → MoveGraph → Option MoveGraph) (page : Page)
    (t : PageTable) (parentMove : Nat) (g : MoveGraph) (ir : Nat × FollowUpRow) :
    Option MoveGraph :=
  if ir.2.tdCount == 0 then some g
  else if followUpName ir.2 == "" then some g
  else
    forEachO (relatedStep recur (followUpName ir.2) g.nodes.length) page
      (g.pushFollowUp parentMove (followUpMove ir.2 (t.rows.get? (ir.1 + 1)) parentMove))

/-- Source `processFollowUpTable($, table, currentSection, parentMove)`. The first
argument bounds the depth of the recursion of line 809; `table` is the position of the
table in the page, `none` for an empty selection; `currentSection` is the graph field
`sectionMoves`, which the function only passes on. -/
def processFollowUpTable : Nat → Page → Option Nat → Option Nat → MoveGraph → Option MoveGraph
  | 0, _, _, _, _ => none
  | depth + 1, page, table, parentMove, g =>
    match table.bind page.get?, parentMove with
    | some t, some parent =>
      forEachO (rowStep (processFollowUpTable depth page) page t parent) t.rows.enum g
    | _, _ => some g

/-! ## Structured queries, further tokens and dispatch (`execute`, `autocomplete`, `start.js`) -/

/-- What `execute` reads from the `move` option (lines 969-984). `moveListId` is `none`
for `null`; a parsed number is `none` for `NaN`. -/
structure ParsedQuery where
  moveName : String
  moveListId : Option (Option Int)
  version : Option Int
  deriving DecidableEq, Repr

/-- The parsing of the `move` option in `execute` (lines 969-984): the option is split at
every `-`. -/
def parseMoveInput (moveInput : String) : ParsedQuery :=
  if includes moveInput "-" then
    let parts := split moveInput '-'
    { moveName := show_ (parts.get? 0)
      moveListId :=
        if parts.length > 1 then some (parseInt (show_ (parts.get? 1)) 0) else none
      version := if parts.length > 2 then parseInt (show_ (parts.get? 2)) 0 else some 0 }
  else { moveName := moveInput, moveListId := none, version := some 0 }

/-- The value `autocomplete` offers for a move of the move-list at `mlIndex` in the
movelists format (lines 1288 and 1312-1314); a move without a name is not offered. -/
def moveValue (move : Move) (mlIndex : Nat) : Option String :=
  if truthy move.moveName then
    some
      (if startsWith (show_ move.moveName) "Costume" && truthy move.input then
        show_ move.input ++ "-" ++ numberToString mlIndex
      else show_ move.moveName ++ "-" ++ numberToString mlIndex)
  else none

/-- The base identifier of a move-list button (line 1053):
`character:${characterName}:${result.moveListId}:${moveName}:${version}`, with the
move-list id and the version in their printed form. -/
def characterBaseId (characterName moveListId moveName version : String) : String :=
  "character:" ++ characterName ++ ":" ++ moveListId ++ ":" ++ moveName ++ ":" ++ version

/-- The base identifier of a follow-up button (line 1126):
`followup:${characterName}:${moveData.moveListId}:${index}:0`. -/
def followupBaseId (characterName moveListId : String) (index : Nat) : String :=
  "followup:" ++ characterName ++ ":" ++ moveListId ++ ":" ++ numberToString index ++ ":0"

/-- The base identifier of the parent button (line 1144):
`parent:${characterName}:${moveData.moveListId}:${parentName}`. -/
def parentBaseId (characterName moveListId parentName : String) : String :=
  "parent:" ++ characterName ++ ":" ++ moveListId ++ ":" ++ parentName

/-- What the parent button handler reads from `interaction.customId`
(lines 1788-1792). -/
structure ParentRequest where
  characterName : Option String
  moveListIdStr : Option String
  moveListId : Option Int
  parentMoveName : String
  deriving DecidableEq, Repr

/-- The decoding done by the parent button handler: the name is
`parts.slice(3).join(':')`. -/
def decodeParent (customId : String) : ParentRequest :=
  let parts := split customId ':'
  { characterName := parts.get? 1
    moveListIdStr := parts.get? 2
    moveListId := parseInt (show_ (parts.get? 2)) 10
    parentMoveName := join ":" (parts.drop 3) }

/-- The button branch of the `interactionCreate` listener in `start.js` (lines 99-117):
whether the interaction is passed to `characterCommand.buttonHandler`. -/
def dispatchesToButtonHandler (customId : String) : Bool :=
  if includes customId "character:" then true
  else if includes customId "swap_movelist:" then true
  else if includes customId "version:" then true
  else false

/-! ## The character cache (`loadCharacterData`) -/

/-- The name key of a parsed file (line 31):
`(data.character || data.name || '').toLowerCase()`. -/
def characterKey (data : Character) : String :=
  toLowerCase ((orElse (orElse data.character data.name) (some "")).getD "")

/-- The two collections `loadCharacterData` fills: the set `loadedCharacters`, in
insertion order, and the array `allCharacterData`. -/
structure LoadState where
  loadedCharacters : List String := []
  allCharacterData : List Character := []
  deriving DecidableEq, Repr

/-- The body of the loop over the files of a directory (lines 27-40), for a file that
was read and parsed. -/
def loadFile (st : LoadState) (data : Character) : LoadState :=
  let characterName := characterKey data
  if characterName == "" || st.loadedCharacters.contains characterName then st
  else
    { loadedCharacters := st.loadedCharacters ++ [characterName]
      allCharacterData := st.allCharacterData ++ [data] }

/-- Source `loadFromDir(dirPath)`, over the parsed files of the directory in the order
of `readdir`. -/
def loadFromDir (st : LoadState) (files : List Character) : LoadState :=
  files.foldl loadFile st

/-- Source `loadCharacterData()`: the main directory is loaded first, then the test
directory; the result is the array `allCharacterData`. -/
def loadCharacterData (mainFiles testFiles : List Character) : List Character :=
  (loadFromDir (loadFromDir {} mainFiles) testFiles).allCharacterData

/-- Models `result.moveListId === moveListId` in `execute` (line 1020), where `moveListId`
is the number read from the query, `none` for `NaN`: a strict comparison holds for a
numeric id of the same value only. -/
def executeIdMatches (moveListId : Option Int) (result : MoveMatch) : Bool :=
  match result.moveListId, moveListId with
  | some (IdValue.num n), some k => (n : Int) == k
  | _, _ => false

/-- The selection of `execute` among the resolver results (lines 1019-1024):
`specificMoveData || moveResults[0]`; `none` when there is no result. -/
def selectDisplayed (moveResults : List MoveMatch) (moveListId : Option (Option Int)) :
    Option MoveMatch :=
  let specificMoveData :=
    match moveListId with
    | some id => moveResults.find? (executeIdMatches id)
    | none => none
  match specificMoveData with
  | some r => some r
  | none => moveResults.head?

/-- The entry `execute` displays for the `move` option (lines 969-1030): the query is
parsed, the sleeping Nayuki's kick is looked up directly in the first move-list, and
otherwise the entry is selected among the resolver results. The resolver is called on
both paths. -/
def executeSelect (character : Character) (moveInput : String) :
    Except JSError (Option MoveMatch) :=
  let parsed := parseMoveInput moveInput
  let direct :=
    if character.name == some "Nayuki Minase (asleep)"
        && kickAlias (toLowerCase parsed.moveName) then
      findInFirstMoveList character
        (fun move => move.input == some "623*" || move.moveName == some "Nayu-chan Kick")
    else Except.ok none
  match direct with
  | Except.error e => Except.error e
  | Except.ok (some moveData) =>
    match findMoveInAllMoveLists character parsed.moveName with
    | Except.error e => Except.error e
    | Except.ok _ => Except.ok (some moveData)
  | Except.ok none =>
    match findMoveInAllMoveLists character parsed.moveName with
    | Except.error e => Except.error e
    | Except.ok moveResults => Except.ok (selectDisplayed moveResults parsed.moveListId)

/-- Models the text `${moveData.moveListId}` of an entry: a number or a string as it
is, `null` for an entry of direct sections and `undefined` for an option without id. -/
def printId (entry : MoveMatch) : String :=
  match entry.moveListId with
  | some (IdValue.num n) => numberToString n
  | some (IdValue.str s) => s
  | none =>
    match entry.moveList with
    | ListRef.null => "null"
    | _ => "undefined"

/-- The base identifier of a version button for a displayed entry (lines 1077, 1090 and
1104): `version:${characterName}:${moveData.moveListId}:${moveName}:${vIdx}`. -/
def versionBaseIdOf (characterName : String) (moveData : MoveMatch) (moveName : String)
    (vIdx : Nat) : String :=
  "version:" ++ characterName ++ ":" ++ printId moveData ++ ":" ++ moveName ++ ":" ++
    numberToString vIdx

/-- The fallback of the version handler (lines 1555-1583): the entries of all named
moves whose name contains the move name, ignoring letter case. -/
def partialMatches (character : Character) (moveName : String) : List MoveMatch :=
  match character.movelists with
  | none => []
  | some movelists =>
    (allSlots movelists).filterMap (fun s =>
      match s.move with
      | some m =>
        if truthy m.moveName
            && includes (toLowerCase (m.moveName.getD "")) (toLowerCase moveName) then
          some (s.entry m)
        else none
      | none => none)

/-- The test of `moveResults.find` in the version handler (lines 1587-1591):
`result.moveListId === moveListId || result.moveListId === moveListIdStr ||
result.moveListId?.toString() === moveListIdStr`. An absent id compares equal to an
absent part of the token only. -/
def versionIdMatches (moveListId : Option Int) (moveListIdStr : Option String)
    (result : MoveMatch) : Bool :=
  (match result.moveListId, moveListId with
   | some (IdValue.num n), some k => (n : Int) == k
   | _, _ => false) ||
  (match result.moveListId with
   | some (IdValue.str s) => moveListIdStr == some s
   | _ => false) ||
  (match result.moveListId with
   | some (IdValue.num n) => moveListIdStr == some (numberToString n)
   | some (IdValue.str s) => moveListIdStr == some s
   | none => moveListIdStr == none)

/-- The entry the version button handler selects (lines 1551-1591) for a decoded
token whose fourth part is `moveName`: the resolver is run again, the fallback is
consulted when it finds nothing, and the entry is found by its move-list id. -/
def versionHandlerSelect (character : Character) (req : VersionRequest)
    (moveName : String) : Except JSError (Option MoveMatch) :=
  match findMoveInAllMoveLists character moveName with
  | Except.error e => Except.error e
  | Except.ok found =>
    let moveResults :=
      if found.length == 0 then found ++ partialMatches character moveName else found
    Except.ok (moveResults.find? (versionIdMatches req.moveListId req.moveListIdStr))

/-! ## Extraction: move tables (`processTable`) and the persisted moves -/

/-- An element that follows a table as a sibling, as `processTable` reads it: a list
with the texts of its items, a table with the text of its `big` elements and its
position in `$("table")`, a heading `h3`, `h4` or `h5` with its text and the position of
the table right after it, or any other element. -/
inductive Sibling where
  | ul (items : List String)
  | table (bigText : String) (position : Nat)
  | heading (text : String) (nextTable : Option Nat)
  | other
  deriving DecidableEq, Repr

/-- What `processTable` reads of its `table`: the text of all `big` elements, their
number and the text of the first; the text of the last `small` of the first `th`, when
there is one, and the text of that `th`; the `src` of the images; the rows found by
`processDataTable` and the notes collected by `extractVersionNotes`; the table that
follows as next sibling; and the siblings that follow, in order. -/
structure MoveTable where
  bigText : String := ""
  bigCount : Nat := 0
  firstBig : String := ""
  small : Option String := none
  thText : String := ""
  images : List (Option String) := []
  rows : List Row := []
  allNotes : List String := []
  nextTable : Option Nat := none
  siblings : List Sibling := []
  deriving DecidableEq, Repr

/-- A match of `\d+\*?~\d+[ABC]` that begins with the first character of the text: the
matched text. Each run of digits is followed by a character that is not a digit, so the
runs are maximal. -/
def sequenceAt (text : List Char) : Option (List Char) :=
  let ds := text.takeWhile isDigit
  if ds.isEmpty then none
  else
    let star := (text.drop ds.length).takeWhile (fun c => c == '*') |>.take 1
    match text.drop (ds.length + star.length) with
    | '~' :: rest =>
      let ds2 := rest.takeWhile isDigit
      if ds2.isEmpty then none
      else
        match rest.drop ds2.length with
        | c :: _ =>
          if c == 'A' || c == 'B' || c == 'C' then some (ds ++ star ++ '~' :: ds2 ++ [c])
          else none
        | [] => none
    | _ => none

/-- Models `moveText.match(/(\d+\*?~\d+[ABC])/)`: the leftmost match. -/
def findSequence : List Char → Option (List Char)
  | [] => none
  | c :: cs =>
    match sequenceAt (c :: cs) with
    | some m => some m
    | none => findSequence cs

/-- Lines 547-549: the test for a follow-up move on its name. -/
def isNewFollowUpName (moveName : String) : Bool :=
  startsWith moveName "→" || includes moveName "Follow-up" || includes moveName "~"

/-- Lines 556-573: the input of the move of a table, after the removal of the first
`*`. -/
def tableInput (t : MoveTable) : Option String :=
  let moveText := trim t.thText
  let fromSmall := t.small.map trim
  let moveInput :=
    if !truthy fromSmall && includes moveText "~" then
      match findSequence moveText.data with
      | some m => some (String.mk m)
      | none => fromSmall
    else fromSmall
  if truthy moveInput && includes (moveInput.getD "") "*" then
    moveInput.map (fun s => String.mk (s.data.erase '*'))
  else moveInput

/-- Lines 576-584: the addresses of the images of the table. -/
def tableImages (t : MoveTable) : List String :=
  t.images.filterMap (fun src => if truthy src then some (BASE_URL ++ src.getD "") else none)

/-- Lines 587-613: the move object of a table. -/
def tableMove (t : MoveTable) (parentMove : Option Nat) : MoveNode :=
  { move := { name := trim t.firstBig
              input := tableInput t
              image := (tableImages t).head?
              additionalImages := (tableImages t).drop 1
              data := t.rows
              notes := (extractVersionNotes t.allNotes).cleanedNotes
              versionNotes := (extractVersionNotes t.allNotes).versionNotes }
    followUps := []
    parentMove := parentMove }

/-- Lines 510-526, the body of the sibling loop after a follow-up header table. -/
def headerSiblingStep (depth : Nat) (page : Page) (currentMove : Option Nat)
    (g : MoveGraph) (s : Sibling) : Option MoveGraph :=
  match s with
  | Sibling.table bigText position =>
    if !includes bigText "Follow-ups" then
      processFollowUpTable depth page (some position) currentMove g
    else some g
  | Sibling.heading text nextTable =>
    if includes text "Follow-up" then processFollowUpTable depth page nextTable currentMove g
    else some g
  | _ => some g

/-- Lines 531-537, the body of `$("table").each(...)` after a follow-up header table.
The raw move objects have no field `moveName`, so `includes(currentMove.moveName)`
searches for the text `undefined`. -/
def headerRelatedStep (depth : Nat) (page : Page) (currentMove : Option Nat)
    (g : MoveGraph) (otherTable : PageTable) : Option MoveGraph :=
  if currentMove.isSome && relatedTable "undefined" otherTable then
    processFollowUpTable depth page otherTable.next currentMove g
  else some g

/-- Lines 633-655, the body of the sibling loop after a move table, for the move object
at position `move`. -/
def moveSiblingStep (depth : Nat) (page : Page) (move : Nat) (g : MoveGraph)
    (s : Sibling) : Option MoveGraph :=
  match s with
  | Sibling.ul items =>
    let additionalNotes := (items.map trim).filter (fun noteText => noteText != "")
    if additionalNotes.length > 0 then
      let concat := fun (node : MoveNode) =>
        let noted : RawMove := { node.move with notes := node.move.notes ++ additionalNotes }
        { node with move := noted }
      some { g with nodes := updateAt concat move g.nodes }
    else some g
  | Sibling.table bigText position =>
    let name := ((g.nodes.get? move).map (fun node => node.move.name)).getD ""
    if includes bigText name || includes bigText "Follow-up" then
      processFollowUpTable depth page (some position) (some move) g
    else some g
  | _ => some g

/-- The test of lines 672-673 and 681-682 on the move object at a position:
`m.input === parentInputBase || (m.input && m.input.startsWith(parentInputBase))`. -/
def inputStartsWith (g : MoveGraph) (parentInputBase : String) (m : Nat) : Bool :=
  match g.nodes.get? m with
  | some node =>
    node.move.input == some parentInputBase ||
      (truthy node.move.input && startsWith (node.move.input.getD "") parentInputBase)
  | none => false

/-- Lines 670-690: the search for a parent among the moves of the section and, one
level down, among their follow-ups. -/
def findPossibleParent (g : MoveGraph) (parentInputBase : String) : List Nat → Option Nat
  | [] => none
  | potentialParent :: rest =>
    if inputStartsWith g parentInputBase potentialParent then some potentialParent
    else
      match (((g.nodes.get? potentialParent).map (fun node => node.followUps)).getD []).find?
          (inputStartsWith g parentInputBase) with
      | some followUp => some followUp
      | none => findPossibleParent g parentInputBase rest

/-- Lines 659-700: the attachment of a move whose input contains `~` to the move found
by its first part. -/
def attachSequence (hasSection isNewFollowUp : Bool) (move : Nat) (g : MoveGraph) :
    MoveGraph :=
  let moveInput := (g.nodes.get? move).bind (fun node => node.move.input)
  if truthy moveInput && includes (moveInput.getD "") "~" then
    let parentInputBase := ((split (moveInput.getD "") '~').get? 0).getD ""
    let possibleParent :=
      if hasSection then findPossibleParent g parentInputBase g.sectionMoves else none
    match possibleParent with
    | some parent =>
      if !isNewFollowUp then
        let pushed := updateAt (fun p => { p with followUps := p.followUps ++ [move] })
          parent g.nodes
        { nodes := updateAt (fun node => { node with parentMove := some parent }) move pushed
          sectionMoves := g.sectionMoves.filter (fun m => m != move) }
      else g
    | none => g
  else g

/-- Source `processTable($, table, currentSection, currentMove, isFollowUp,
currentMovelist)`. The first argument bounds the depth of the recursion of
`processFollowUpTable`; `hasSection` tells whether `currentSection` is an object, whose
`moves` are the graph field `sectionMoves`. The assignments to the parameters
`currentMove` and `isFollowUp` are local to the call. -/
def processTable (depth : Nat) (page : Page) (t : MoveTable) (hasSection : Bool)
    (currentMove : Option Nat) (isFollowUp : Bool) (g : MoveGraph) : Option MoveGraph :=
  if includes (trim t.bigText) "Follow-ups" then
    match (if t.nextTable.isSome then processFollowUpTable depth page t.nextTable currentMove g
           else some g) with
    | none => none
    | some g1 =>
      match forEachO (headerSiblingStep depth page currentMove) (t.siblings.take 10) g1 with
      | none => none
      | some g2 => forEachO (headerRelatedStep depth page currentMove) page g2
  else if t.bigCount > 0 then
    let isNewFollowUp := isNewFollowUpName (trim t.firstBig)
    let currentMove1 := if !isNewFollowUp && !isFollowUp then none else currentMove
    let parentMove := if isNewFollowUp then currentMove1 else none
    let move := g.nodes.length
    let g1 : MoveGraph :=
      match parentMove with
      | some parent => g.pushFollowUp parent (tableMove t parentMove)
      | none =>
        if hasSection then
          { nodes := g.nodes ++ [tableMove t parentMove]
            sectionMoves := g.sectionMoves ++ [move] }
        else { g with nodes := g.nodes ++ [tableMove t parentMove] }
    match forEachO (moveSiblingStep depth page move) (t.siblings.take 10) g1 with
    | none => none
    | some g2 => some (attachSequence hasSection isNewFollowUp move g2)
  else some g

/-- The moves of a section as `botFormatOutput` writes them (lines 321-449):
`section.moves.map(move => baseMoveData)`, where `baseMoveData` holds the fields
`botFormatMove` builds. -/
def botFormatSection (g : MoveGraph) : List Move :=
  g.sectionMoves.filterMap (fun m => (g.nodes.get? m).map (fun node => botFormatMove node.move))

/-! ## Extraction: the page walks of `parseCharacter` -/

/-- An element of `$("h2, h3, table.wikitable")`: a heading with its text, or a table as
the walks read it. -/
inductive PageElement where
  | heading (text : String)
  | table (t : MoveTable)
  deriving DecidableEq, Repr

/-- A section object `{ name, moves }`; the moves are positions of move objects. -/
structure WalkSection where
  name : String
  moves : List Nat := []
  deriving DecidableEq, Repr

/-- An element of `movelistData`: `{ name, sections }`; the sections are positions in
the list of section objects. -/
structure WalkMovelist where
  name : String
  sections : List Nat := []
  deriving DecidableEq, Repr

/-- The variables of a page walk: the move objects and section objects created so far,
`movelistData`, and the cursors `currentSection`, `currentMove`, `isFollowUp` and
`currentMovelistIdx`. -/
structure WalkState where
  nodes : List MoveNode := []
  sections : List WalkSection := []
  movelistData : List WalkMovelist := []
  currentSection : Option Nat := none
  currentMove : Option Nat := none
  isFollowUp : Bool := false
  currentMovelistIdx : Nat := 0
  deriving DecidableEq, Repr

/-- The move objects and the moves of the current section, as the functions that work
on one section see them. -/
def WalkState.graph (st : WalkState) : MoveGraph :=
  { nodes := st.nodes
    sectionMoves := ((st.currentSection.bind st.sections.get?).map (fun s => s.moves)).getD [] }

/-- Writes the move objects and the moves of the current section back. -/
def WalkState.withGraph (st : WalkState) (g : MoveGraph) : WalkState :=
  { st with
    nodes := g.nodes
    sections :=
      match st.currentSection with
      | some i => updateAt (fun s => { s with moves := g.sectionMoves }) i st.sections
      | none => st.sections }

/-- Models the loop `movelistHeaders.each((idx, header) => { if ($(header).text() === text)
currentMovelistIdx = idx })`: the last position that holds the text, or the index as it
was. -/
def lastHeaderIdx (movelistHeaders : List String) (text : String) (current : Nat) : Nat :=
  movelistHeaders.enum.foldl (fun idx p => if p.2 == text then p.1 else idx) current

/-- Models `movelistData[idx].sections.push(currentSection)`. -/
def pushSection (movelistData : List WalkMovelist) (idx sec : Nat) : List WalkMovelist :=
  updateAt (fun ml => { ml with sections := ml.sections ++ [sec] }) idx movelistData

/-- Lines 150-178: a heading in the toggle-based walk. A heading without text is
skipped. -/
def toggleHeading (movelistHeaders : List String) (raw : String) (st : WalkState) :
    WalkState :=
  let text := trim raw
  if text == "" then st
  else
    let sec := st.sections.length
    let isNewMovelist := movelistHeaders.any (fun header => header == text)
    let idx :=
      if isNewMovelist && movelistHeaders.length > 1 then
        lastHeaderIdx movelistHeaders text st.currentMovelistIdx
      else st.currentMovelistIdx
    { st with
      sections := st.sections ++ [{ name := text, moves := [] }]
      movelistData := pushSection st.movelistData idx sec
      currentSection := some sec
      currentMove := none
      isFollowUp := false
      currentMovelistIdx := idx }

/-- Lines 147-183, the body of the loop of the toggle-based walk. The call of
`processTable` assigns nothing to the variables `currentMove` and `isFollowUp` of the
walk. -/
def toggleStep (depth : Nat) (page : Page) (movelistHeaders : List String) (st : WalkState)
    (el : PageElement) : Option WalkState :=
  match el with
  | PageElement.heading raw => some (toggleHeading movelistHeaders raw st)
  | PageElement.table t =>
    (processTable depth page t st.currentSection.isSome st.currentMove st.isFollowUp
      st.graph).map st.withGraph

/-- Lines 195-227: a heading in the header-based walk. A move-list header among several
moves the move-list cursor and creates no section. -/
def headerHeading (movelistHeaders : List String) (raw : String) (st : WalkState) :
    WalkState :=
  let text := trim raw
  if text == "" then st
  else
    let isMovelist := movelistHeaders.any (fun header => header == text)
    if isMovelist && movelistHeaders.length > 1 then
      { st with currentMovelistIdx := lastHeaderIdx movelistHeaders text st.currentMovelistIdx }
    else
      let sec := st.sections.length
      { st with
        sections := st.sections ++ [{ name := text, moves := [] }]
        movelistData :=
          if st.currentMovelistIdx < st.movelistData.length then
            pushSection st.movelistData st.currentMovelistIdx sec
          else pushSection st.movelistData 0 sec
        currentSection := some sec
        currentMove := none
        isFollowUp := false }

/-- Lines 257-287: the move object the header-based walk builds for a table. The image
is the first `img`, whose `src` is appended to the site address as it is. -/
def headerTableMove (t : MoveTable) : MoveNode :=
  let fromSmall := t.small.map trim
  let moveInput :=
    if truthy fromSmall && includes (fromSmall.getD "") "*" then
      fromSmall.map (fun s => String.mk (s.data.erase '*'))
    else fromSmall
  { move := { name := trim t.firstBig
              input := moveInput
              image := t.images.head?.map (fun src => BASE_URL ++ show_ src)
              data := t.rows
              notes := (extractVersionNotes t.allNotes).cleanedNotes
              versionNotes := (extractVersionNotes t.allNotes).versionNotes }
    followUps := []
    parentMove := none }

/-- Lines 229-302: a table in the header-based walk. -/
def headerTable (depth : Nat) (page : Page) (t : MoveTable) (st : WalkState) :
    Option WalkState :=
  if includes (trim t.bigText) "Follow-ups" then
    if t.nextTable.isSome then
      (processFollowUpTable depth page t.nextTable st.currentMove st.graph).map st.withGraph
    else some st
  else if t.bigCount > 0 then
    let isNewFollowUp := startsWith (trim t.firstBig) "→"
    let currentMove := if !isNewFollowUp && !st.isFollowUp then none else st.currentMove
    let move := st.nodes.length
    match (if isNewFollowUp then currentMove else none) with
    | some parent =>
      some { (st.withGraph (st.graph.pushFollowUp parent (headerTableMove t))) with
             currentMove := currentMove, isFollowUp := true }
    | none =>
      match st.currentSection with
      | some sec =>
        some { st with
               nodes := st.nodes ++ [headerTableMove t]
               sections := updateAt (fun s => { s with moves := s.moves ++ [move] }) sec
                 st.sections
               currentMove := some move
               isFollowUp := false }
      | none => some { st with currentMove := currentMove }
  else some st

/-- Lines 192-303, the body of the loop of the header-based walk. -/
def headerStep (depth : Nat) (page : Page) (movelistHeaders : List String) (st : WalkState)
    (el : PageElement) : Option WalkState :=
  match el with
  | PageElement.heading raw => some (headerHeading movelistHeaders raw st)
  | PageElement.table t => headerTable depth page t st

/-- Lines 102-125: the initial `movelistData`: one move-list per toggle button, or per
move-list header when there are several, or the single move-list `Moves`. -/
def initialMovelists (toggleButtons : Option (List String)) (movelistHeaders : List String) :
    List WalkMovelist :=
  match toggleButtons with
  | some buttons =>
    buttons.enum.map (fun p =>
      { name := if trim p.2 != "" then trim p.2 else "Movelist " ++ numberToString (p.1 + 1) })
  | none =>
    if movelistHeaders.length > 1 then movelistHeaders.map (fun h => { name := trim h })
    else [{ name := "Moves" }]

/-- Lines 128-304 of `parseCharacter`: the walk over the elements of the page.
`toggleButtons` holds the texts of the toggle buttons when the page has the element
`.movelist-toggles`, and `activeToggle` the position of the last button that is on;
`movelistHeaders` holds the texts of the move-list headings. The first argument bounds
the depth of the recursion of `processFollowUpTable`. -/
def walkPage (depth : Nat) (page : Page) (toggleButtons : Option (List String))
    (activeToggle : Nat) (movelistHeaders : List String) (elements : List PageElement) :
    Option WalkState :=
  match toggleButtons with
  | some _ =>
    forEachO (toggleStep depth page movelistHeaders) elements
      { movelistData := initialMovelists toggleButtons movelistHeaders
        currentMovelistIdx := activeToggle }
  | none =>
    forEachO (headerStep depth page movelistHeaders) elements
      { movelistData := initialMovelists toggleButtons movelistHeaders }

/-- Lines 306-311: the move-lists with their sections that have moves, without the
move-lists left with no section. -/
def filteredMovelists (st : WalkState) : List (String × List WalkSection) :=
  (st.movelistData.map (fun ml =>
    (ml.name, (ml.sections.filterMap st.sections.get?).filter (fun s => s.moves.length > 0)))).filter
    (fun p => p.2.length > 0)

/-- Lines 317-452: the field `movelists` of `botFormatOutput`, the record written to the
character file. -/
def botFormatOutput (st : WalkState) : List MoveList :=
  (filteredMovelists st).map (fun p =>
    { name := some p.1
      moves := some (p.2.flatMap (fun s =>
        s.moves.filterMap (fun m =>
          (st.nodes.get? m).map (fun node => some (botFormatMove node.move))))) })

/-! ## Extraction: data tables (`processDataTable`) -/

/-- A cell of a row: whether it is a `td` (and not a `th`), its text and its `colspan`
attribute. -/
structure TableCell where
  isTd : Bool := true
  text : String := ""
  colspan : Option String := none
  deriving DecidableEq, Repr

/-- A `tr` of a data table: its cells `td, th` in document order and its text. -/
structure TableRow where
  cells : List TableCell := []
  text : String := ""
  deriving DecidableEq, Repr

/-- What `processDataTable` returns. -/
structure DataTable where
  headers : List String := []
  rows : List Row := []
  notes : List String := []
  deriving DecidableEq, Repr

/-- Line 823, `parseInt($(row).find("td").attr("colspan")) || 0`: `attr` reads the
attribute of the first `td` of the row. -/
def rowColSpan (row : TableRow) : Int :=
  match parseInt (show_ ((row.cells.find? (fun c => c.isTd)).bind (fun c => c.colspan))) 0 with
  | some n => n
  | none => 0

/-- Line 825: the test for a notes row. -/
def isNotesRow (row : TableRow) : Bool :=
  decide (rowColSpan row ≥ 5) || row.cells.length == 1

/-- Lines 832-836: the texts of the cells, trimmed, with every line feed replaced by a
space. -/
def cellTexts (row : TableRow) : List String :=
  row.cells.map (fun c =>
    String.mk ((trim c.text).data.map (fun ch => if ch == '\n' then ' ' else ch)))

/-- Line 843: `headers[idx] || "col" + idx`. -/
def headerKey (headers : List String) (idx : Nat) : String :=
  if truthy (headers.get? idx) then (headers.get? idx).getD ""
  else "col" ++ numberToString idx

/-- Lines 841-847: the object built from the cells of a data row. -/
def rowData (headers : List String) (row : TableRow) : Row :=
  (cellTexts row).enum.foldl (fun data p =>
    setKey (headerKey headers p.1) (trim (collapseSpaces p.2)) data) []

/-- Lines 821-849, the body of `table.find("tr").each((i, row) => ...)`. -/
def dataRowStep (acc : DataTable) (ir : Nat × TableRow) : DataTable :=
  if isNotesRow ir.2 then
    if trim ir.2.text != "" then { acc with notes := acc.notes ++ [trim ir.2.text] } else acc
  else if ir.1 == 0 then { acc with headers := acc.headers ++ cellTexts ir.2 }
  else { acc with rows := acc.rows ++ [rowData acc.headers ir.2] }

/-- Source `processDataTable($, table)` over the rows `table.find("tr")`. -/
def processDataTable (table : List TableRow) : DataTable :=
  table.enum.foldl dataRowStep {}

/-! ## Sample records used by the concrete statements -/

/-- A move-list with a grab whose input `AB` is not recognised as input notation, and a
move whose name contains `ab`. -/
def grabList : MoveList :=
  { name := some "Moves",
    moves := some [some { moveName := some "Grab", input := some "AB" },
                   some { moveName := some "Cabbage", input := some "5A" }] }

/-- A character in the movelists format holding `grabList`. -/
def grabCharacter : Character :=
  { name := some "Test", movelists := some [grabList] }

/-- The first move-list of a sleeping Nayuki: the stance `214*` and a move whose own
input `214B` contains the alias token `214`. -/
def nayukiList : MoveList :=
  { name := some "Moves",
    moves := some [some { moveName := some "Zzz~", input := some "214*" },
                   some { moveName := some "Dream", input := some "214B" }] }

/-- A character named as the alias rules expect. -/
def nayukiCharacter : Character :=
  { name := some "Nayuki Minase (asleep)", movelists := some [nayukiList] }

/-- A move with base data and two variations whose data differ from the base. -/
def variedMove : Move :=
  { moveName := some "Example Move", input := some "236*", damage := some "500",
    framedata := some [("startup", "7"), ("guard", "-")],
    properties := some ["Base note"],
    variations := some [{ version := some "A", damage := some "700",
                          framedata := some [("startup", "9")], notes := some "A note" },
                        { version := some "B", damage := some "900" }] }

/-- A section of a legacy record. -/
def legacySection : Section :=
  { name := some "Normals", moves := some [some { name := some "Jab", damage := some "200" }] }

/-- A record of the legacy shape with direct sections. -/
def legacyCharacter : Character :=
  { character := some "Legacy", sections := some [legacySection] }

/-- A page with a heading table `Example Move Follow-ups` followed by a follow-up table:
a header row, a row named `→ Example` without input element, and a notes row. -/
def followUpPage : Page :=
  [{ big := "Example Move Follow-ups", next := some 1 },
   { rows := [{ tdCount := 0 },
              { tdCount := 3, nameElement := some "→ Example" },
              { tdCount := 1, textNode := "Knocks down.",
                colspanCell := some ("Knocks down.", []) }] }]

/-- A graph holding the top-level move `Example Move` of the current section. -/
def parentGraph : MoveGraph :=
  { nodes := [{ move := { name := "Example Move", input := some "236A" } }],
    sectionMoves := [0] }

/-- The stance of the sleeping Nayuki as the extraction writes it: a description and two
variations without a usable version name. -/
def stanceMove : Move :=
  { moveName := some "Zzz~", input := some "214*", properties := some ["Long description."],
    variations := some [{ version := some "-", notes := some "Short note." },
                        { damage := some "300" }] }

/-- A move-list with the move Dash and a move whose name contains `Dash`. -/
def dashList : MoveList :=
  { name := some "Moves",
    moves := some [some { moveName := some "Dash", input := some "66" },
                   some { moveName := some "Dash Attack", input := some "66A" }] }

/-- A character in the movelists format holding `dashList`. -/
def dashCharacter : Character :=
  { name := some "Test", movelists := some [dashList] }

/-- A move-list with the move Dash. -/
def normalList : MoveList :=
  { name := some "Normal", moves := some [some { moveName := some "Dash", input := some "66" }] }

/-- A second move-list with a move Dash of another input. -/
def alternateList : MoveList :=
  { name := some "Alternate",
    moves := some [some { moveName := some "Dash", input := some "44" }] }

/-- A character in the movelists format with two move-lists that both hold a move
named Dash. -/
def twoListCharacter : Character :=
  { name := some "Test", movelists := some [normalList, alternateList] }

/-- The resolver entry of the move Dash of the second move-list of
`twoListCharacter`. -/
def alternateDash : MoveMatch :=
  { ref := [1, 0], move := { moveName := some "Dash", input := some "44" },
    section_ := { name := some "Moves" }, moveList := ListRef.movelist alternateList,
    moveListId := some (IdValue.num 1) }

/-- A character in the movelists format with a move named `a` and a move named
`a:b`. -/
def colonCharacter : Character :=
  { name := some "Test",
    movelists := some [{ name := some "Moves",
                         moves := some [some { moveName := some "a" },
                                        some { moveName := some "a:b" }] }] }

/-- A move table named `Rolling Attack` whose input `41236*~236A` contains `~`, with no
sibling after it. -/
def sequenceTable : MoveTable :=
  { bigText := "Rolling Attack", bigCount := 1, firstBig := "Rolling Attack",
    small := some "41236*~236A", thText := "Rolling Attack 41236*~236A" }

/-- A graph whose section holds one move, with the input `41236`. -/
def rollingGraph : MoveGraph :=
  { nodes := [{ move := { name := "Rolling", input := some "41236" } }], sectionMoves := [0] }

/-- A graph whose section holds one move, with the input `214`. -/
def stanceGraph : MoveGraph :=
  { nodes := [{ move := { name := "Stance", input := some "214" } }], sectionMoves := [0] }

/-- A graph whose section holds the move `Example Move` with one follow-up. -/
def attachedGraph : MoveGraph :=
  { nodes := [{ move := { name := "Example Move", input := some "236A" }, followUps := [1] },
              { move := { name := "→ Example", input := some "236A~A" }, parentMove := some 0 }],
    sectionMoves := [0] }

/-- A legacy move with two data rows, which `createMoveEmbed` shows as two versions. -/
def versionedJab : Move :=
  { name := some "Jab", data := some [[("Damage", "200")], [("Damage", "300")]] }

/-- A section of a legacy record holding `versionedJab`. -/
def versionedSection : Section :=
  { name := some "Normals", moves := some [some versionedJab] }

/-- A record of the legacy shape with direct sections whose move has versions. -/
def versionedCharacter : Character :=
  { character := some "Legacy", sections := some [versionedSection] }

/-- The resolver entry of `versionedJab`: the fields `moveList` and `moveListId` are
`null`. -/
def versionedJabEntry : MoveMatch :=
  { ref := [0, 0], move := versionedJab, section_ := versionedSection,
    moveList := ListRef.null, moveListId := none }

/-- A character in the movelists format with two air moves whose inputs begin with
`j.`. -/
def jumpCharacter : Character :=
  { name := some "Test",
    movelists := some [{ name := some "Moves",
                         moves := some [some { moveName := some "Jump A", input := some "j.A" },
                                        some { moveName := some "Jump AB",
                                               input := some "j.AB" }] }] }

/-- A move with an image and one variation that has an image of its own. -/
def picturedMove : Move :=
  { moveName := some "Example Move", image := some "https://wiki.gbl.gg/images/base.png",
    variations := some [{ version := some "A",
                          image := some "https://wiki.gbl.gg/images/a.png" }] }

/-- What `createMoveEmbed` returns for version 0 of `picturedMove`. -/
def picturedResult : MoveEmbed :=
  { embed := { title := "Test - Example Move", color := some 0x4287f5,
               image := some "https://wiki.gbl.gg/images/base.png",
               footer := "Test | Move: Example Move | Version: Base Move" },
    hasVersions := true, versionCount := 2, currentVersion := 0,
    versionLabels := ["Base Move", "A"], isBaseMove := true, hasFollowUps := none,
    move := { picturedMove with
              currentImage := some "https://wiki.gbl.gg/images/base.png" } }

/-- The tables `$("table")` of a page with the table of the move `Rolling` directly
followed by the table of the move `→ Slash`. -/
def arrowPage : Page :=
  [{ big := "Rolling", next := some 1 }, { big := "→ Slash" }]

/-- The table of a top-level move, followed by the table of the arrow move as its next
sibling. -/
def topTable : MoveTable :=
  { bigText := "Rolling", bigCount := 1, firstBig := "Rolling", small := some "41236",
    thText := "Rolling 41236", nextTable := some 1,
    siblings := [Sibling.table "→ Slash" 1] }

/-- The table of a move whose display name starts with the arrow, the last element of
the page. -/
def arrowTable : MoveTable :=
  { bigText := "→ Slash", bigCount := 1, firstBig := "→ Slash", small := some "A",
    thText := "→ Slash A" }

/-- A section heading followed by the table of a top-level move and the table of an
arrow move. -/
def arrowElements : List PageElement :=
  [PageElement.heading "Specials", PageElement.table topTable, PageElement.table arrowTable]

/-- The table of a move whose input on the page is `236*`, with one data row and no
notes. -/
def starTable : MoveTable :=
  { bigText := "Fireball", bigCount := 1, firstBig := "Fireball", small := some "236*",
    thText := "Fireball 236*", rows := [[("Damage", "500"), ("Startup", "12")]] }

/-- The table of a move whose input on the page is `236*/214*`. -/
def slashTable : MoveTable :=
  { bigText := "Fireball", bigCount := 1, firstBig := "Fireball", small := some "236*/214*",
    thText := "Fireball 236*/214*", rows := [[("Damage", "500"), ("Startup", "12")]] }

/-- A section heading followed by the table `starTable`. -/
def starElements : List PageElement :=
  [PageElement.heading "Specials", PageElement.table starTable]

/-- A follow-up table whose notes row holds a list only: the row has no name element and
no text of its own. -/
def bulletsPage : Page :=
  [{ big := "Example Move Follow-ups", next := some 1 },
   { rows := [{ tdCount := 0 },
              { tdCount := 3, nameElement := some "→ Example" },
              { tdCount := 1, colspanCell := some ("Knocks down.", ["Knocks down."]) }] }]

/-- A page whose heading table contains `Follow-up` and the name of the one row of the
follow-up table that comes after it. -/
def loopPage : Page :=
  [{ big := "→ Example Follow-up", next := some 1 },
   { rows := [{ tdCount := 0 }, { tdCount := 3, nameElement := some "→ Example" }] }]

/-- A data table with a header row, a data row, a row whose second cell spans five
columns, a row with one cell, and a row whose first `td` spans five columns. -/
def wideCellTable : List TableRow :=
  [{ cells := [{ isTd := false, text := "Damage" }, { isTd := false, text := "" }],
     text := "Damage" },
   { cells := [{ text := "500" }, { text := "7" }], text := "500 7" },
   { cells := [{ text := "a" }, { text := "wide", colspan := some "5" }], text := "a wide" },
   { cells := [{ text := "Only one." }], text := "Only one." },
   { cells := [{ text := "Notes here.", colspan := some "6" }, { text := "x" }],
     text := "Notes here. x" }]

/-- What `createMoveEmbed` returns for version 0 of `variedMove`. -/
def variedResult : MoveEmbed :=
  { embed := { title := "Test - Example Move", color := some 0x4287f5,
               fields := [{ name := "Input", value := some "236*" },
                          { name := "Damage", value := some "500" },
                          { name := "Frame Data", value := some "**startup**: 7\n" },
                          { name := "Notes", value := some "Base note" }],
               footer := "Test | Move: Example Move | Version: Base Move" },
    hasVersions := true, versionCount := 3, currentVersion := 0,
    versionLabels := ["Base Move", "A", "B"], isBaseMove := true, hasFollowUps := none,
    move := variedMove }

/-- What `createMoveEmbed` returns for version 1 of `variedMove`. -/
def variedResultA : MoveEmbed :=
  { embed := { title := "Test - Example Move", color := some 0xf54242,
               fields := [{ name := "Input", value := some "236*" },
                          { name := "Damage", value := some "700" },
                          { name := "Frame Data", value := some "**startup**: 9\n" },
                          { name := "Notes", value := some "A note" }],
               footer := "Test | Move: Example Move | Version: A" },
    hasVersions := true, versionCount := 3, currentVersion := 1,
    versionLabels := ["Base Move", "A", "B"], isBaseMove := false, hasFollowUps := none,
    move := variedMove }

/-- What `createMoveEmbed` returns for version 2 of `variedMove`. -/
def variedResultB : MoveEmbed :=
  { embed := { title := "Test - Example Move", color := some 0x42f54e,
               fields := [{ name := "Input", value := some "236*" },
                          { name := "Damage", value := some "900" }],
               footer := "Test | Move: Example Move | Version: B" },
    hasVersions := true, versionCount := 3, currentVersion := 2,
    versionLabels := ["Base Move", "A", "B"], isBaseMove := false, hasFollowUps := none,
    move := variedMove }

/-- A page on which the row `→ Example` of the follow-up table of `Example Move` has a
follow-up table of its own: the heading table `→ Example Follow-ups` is followed by the
table of the row `→→ Finish`. -/
def chainPage : Page :=
  [{ big := "Example Move Follow-ups", next := some 1 },
   { rows := [{ tdCount := 0 }, { tdCount := 3, nameElement := some "→ Example" }],
     next := some 2 },
   { big := "→ Example Follow-ups", next := some 3 },
   { rows := [{ tdCount := 0 },
              { tdCount := 2, nameElement := some "→→ Finish",
                inputElement := some "236A" }] }]

/-- The ranks of the tables of `chainPage`: the follow-up table of `Example Move` above
the others. -/
def chainRank (table : Nat) : Nat :=
  if table = 1 then 1 else 0

/-! ## Vocabulary of the statements and proofs -/

/-- The entry the exact-input loop pushes at a slot, if any. -/
def exactInputHit (searchLower : String) (s : Slot) : Option MoveMatch :=
  match s.move with
  | none => none
  | some m =>
    if truthy m.input && toLowerCase (m.input.getD "") == searchLower then some (s.entry m)
    else none

/-- The fields of an embed that carry the given name. -/
def fieldsNamed (name : String) (e : Embed) : List EmbedField :=
  e.fields.filter (fun f => f.name == name)

/-- The ten decimal digit characters. -/
def digitChars : List Char := ['0', '1', '2', '3', '4', '5', '6', '7', '8', '9']

/-- A variation that the loops leave alone: its version is named and its note is not
longer than 500 characters. -/
def Settled (v : Variation) : Prop :=
  versionUnclear v = false ∧ ∀ n, v.notes = some n → n.length ≤ 500

/-- What the three blocks together do to the variation at position `idx`, given which
of the three tests the move passes. -/
def allBlocksVariation (c1 c2 c3 : Bool) (idx : Nat) (v : Variation) : Variation :=
  let v1 := if c1 then stanceVariation idx v else v
  let v2 := if c2 then rollingVariation idx v1 else v1
  if c3 then kickVariation idx v2 else v2

/-- The properties after the three blocks. -/
def allBlocksProperties (m : Move) : Option (List String) :=
  if m.input == some "214*" || m.moveName == some "Zzz~" then
    match m.properties with
    | some (_ :: _) => some stanceProperties
    | other => other
  else m.properties

/-- The label and the text under which the classifier files a note, if it does. -/
def filing (note : String) : Option (String × String) :=
  (versionMatch note).map (fun matched =>
    (toUpperCase (String.mk (matched.data.take 1)), trim (removeVersionMark note)))

/-- A note that starts with the letter `L` in either case followed by a colon. -/
def startsWithLetterMark (L : Char) (note : String) : Bool :=
  match note.data with
  | c :: ':' :: _ => c == L || c == L.toLower
  | _ => false

/-- The number of texts filed under all labels. -/
def filedCount (vn : List (String × List String)) : Nat :=
  (vn.map (fun kv => kv.2.length)).sum

/-- The identity of the move object at a slot. -/
def Slot.ref (s : Slot) : List Nat := [s.mlIndex, s.idx]

/-- The entry the exact-name loop pushes at a slot, if any. -/
def exactNameHit (searchLower : String) (s : Slot) : Option MoveMatch :=
  match s.move with
  | none => none
  | some m =>
    if (isCostumeWithInput m && toLowerCase (m.input.getD "") == searchLower) ||
        (isCostumeWithInput m && toLowerCase (inputBase (m.input.getD "")) == searchLower) ||
        (truthy m.moveName && toLowerCase (m.moveName.getD "") == searchLower)
    then some (s.entry m) else none

/-- The entry the substring loop pushes at a slot when the move is not yet among the
results. -/
def substringHit (searchLower : String) (s : Slot) : Option MoveMatch :=
  match s.move with
  | none => none
  | some m =>
    if (isCostumeWithInput m && includes (toLowerCase (m.input.getD "")) searchLower) ||
        (truthy m.moveName && includes (toLowerCase (m.moveName.getD "")) searchLower) ||
        (truthy m.input && includes (toLowerCase (m.input.getD "")) searchLower)
    then some (s.entry m) else none

/-- The name or the input of the move contains the query as a substring, ignoring
letter case. -/
def containsQuery (m : Move) (q : String) : Bool :=
  (match m.moveName with
   | some n => includes (toLowerCase n) (toLowerCase q)
   | none => false) ||
  (match m.input with
   | some i => includes (toLowerCase i) (toLowerCase q)
   | none => false)

/-- No entry of the move lists of a legacy record is `null`. -/
def NoNullMoves (c : Character) : Prop :=
  (∀ lists options, c.moveLists = some lists → lists.options = some options →
    ∀ o ∈ options, ∀ sections, o.sections = some sections →
      ∀ sec ∈ sections, ∀ moves, sec.moves = some moves → none ∉ moves) ∧
  (∀ sections, c.sections = some sections →
    ∀ sec ∈ sections, ∀ moves, sec.moves = some moves → none ∉ moves)

/-- The graph `g1` is the graph `g` with more move objects and longer `followUps`
arrays: the section's moves, and the data and parent of every existing move, are
unchanged. -/
def Grows (g g1 : MoveGraph) : Prop :=
  g1.sectionMoves = g.sectionMoves ∧
  ∀ i node, g.nodes.get? i = some node →
    ∃ extra, g1.nodes.get? i = some { node with followUps := node.followUps ++ extra }

/-- Every move object at position `k` or later has a parent and is listed among the
follow-ups of that parent. -/
def AttachedFrom (k : Nat) (g : MoveGraph) : Prop :=
  ∀ i node, k ≤ i → g.nodes.get? i = some node →
    ∃ q pn, node.parentMove = some q ∧ g.nodes.get? q = some pn ∧ i ∈ pn.followUps

/-- A step of the extraction: the graph grows and every new move object is attached to
its parent. -/
def Attaches (g g1 : MoveGraph) : Prop :=
  Grows g g1 ∧ AttachedFrom g.nodes.length g1

/-- The recursive call attaches what it creates, when its parent is a move of the
graph. -/
def RecurAttaches (recur : Option Nat → Option Nat → MoveGraph → Option MoveGraph) : Prop :=
  ∀ tbl q g g1, q < g.nodes.length → recur tbl (some q) g = some g1 → Attaches g g1

/-- The move is an exact match of the query: its non-empty name equals the query
ignoring letter case, or it is a Costume move with an input, and the input or the input
base equals the query ignoring letter case. -/
def exactMatch (m : Move) (q : String) : Bool :=
  (match m.moveName with
   | some n => n != "" && toLowerCase n == toLowerCase q
   | none => false) ||
  (isCostumeWithInput m &&
    (toLowerCase (m.input.getD "") == toLowerCase q ||
      toLowerCase (inputBase (m.input.getD "")) == toLowerCase q))

/-- Some move object of the graph is its own `parentMove` or a member of its own
`followUps`. -/
def MoveGraph.selfLinked (g : MoveGraph) : Bool :=
  g.nodes.enum.any (fun p => p.2.parentMove == some p.1 || p.2.followUps.contains p.1)

/-- The value of `move.currentImage` after `createMoveEmbed` has returned: the image of
the move for version 0 of a move with variations, the image of the variation shown when
it has one, and the value before the call otherwise. -/
def currentImageAfter (move : Move) (version : Int) : Option String :=
  match move.variations with
  | some (v :: vs) =>
    if version = 0 then move.image
    else
      match index (v :: vs) (version - 1) with
      | some cv => if truthy cv.image then cv.image else move.currentImage
      | none => move.currentImage
  | _ => move.currentImage

/-- The position `a` comes before the position `b`: in an earlier move-list, or earlier
in the same move-list. -/
def refBefore (a b : List Nat) : Prop :=
  ∃ ka ia kb ib, a = [ka, ia] ∧ b = [kb, ib] ∧ (ka < kb ∨ (ka = kb ∧ ia < ib))

/-- The entry names its place in the record: `moveListId` is a position of
`character.movelists`, `moveList` is the move-list there, and `move` is the entry of
`moveList.moves` at the position that `ref` names. -/
def EntryOf (movelists : List MoveList) (r : MoveMatch) : Prop :=
  ∃ k ml moves i, r.ref = [k, i] ∧ r.moveListId = some (IdValue.num k) ∧
    movelists.get? k = some ml ∧ r.moveList = ListRef.movelist ml ∧
    ml.moves = some moves ∧ moves.get? i = some (some r.move)

/-- The headers `processDataTable` keeps: the cell texts of the first row, unless that
row is a notes row or the table has no row. -/
def headersOf (table : List TableRow) : List String :=
  match table with
  | first :: _ => if isNotesRow first then [] else cellTexts first
  | [] => []

/-- The rank of the table a call of `processFollowUpTable` is given; an empty selection
has rank 0. -/
def rankOf (rank : Nat → Nat) : Option Nat → Nat
  | none => 0
  | some table => rank table

/-- The recursion of `processFollowUpTable` runs down the ranks of the tables of the
page: whenever a row of a table yields a follow-up and the first `big` of some table of
the page holds the name of that follow-up and `Follow-up`, the table that comes after
the latter has a smaller rank than the table of the row. -/
def RankedPage (page : Page) (rank : Nat → Nat) : Prop :=
  ∀ jt ∈ page.enum, ∀ row ∈ jt.2.rows, row.tdCount ≠ 0 → followUpName row ≠ "" →
    ∀ otherTable ∈ page, relatedTable (followUpName row) otherTable = true →
      rankOf rank otherTable.next < rank jt.1

/-! ## Resolver: general facts -/

/-- A loop whose body appends at most one entry that does not depend on the entries
pushed so far computes a `filterMap`. -/
theorem foldl_append_hits {σ β : Type} (step : List β → σ → List β) (hit : σ → Option β)
    (h : ∀ acc s, step acc s = acc ++ (hit s).toList) (slots : List σ) (acc : List β) :
    slots.foldl step acc = acc ++ slots.filterMap hit := by
  induction slots generalizing acc with
  | nil => simp
  | cons s rest ih =>
    rw [List.foldl_cons, ih, h, List.filterMap_cons]
    cases hit s <;> simp

theorem exactInputStep_eq (q : String) (acc : List MoveMatch) (s : Slot) :
    exactInputStep q acc s = acc ++ (exactInputHit q s).toList := by
  unfold exactInputStep exactInputHit
  cases s.move with
  | none => simp
  | some m => dsimp only; split <;> simp

theorem foldl_exactInputStep (q : String) (slots : List Slot) (acc : List MoveMatch) :
    slots.foldl (exactInputStep q) acc = acc ++ slots.filterMap (exactInputHit q) :=
  foldl_append_hits _ _ (exactInputStep_eq q) slots acc

theorem mem_exactInput_iff (q : String) (slots : List Slot) (r : MoveMatch) :
    r ∈ slots.foldl (exactInputStep q) [] ↔
      ∃ s ∈ slots, ∃ m, s.move = some m ∧ truthy m.input = true ∧
        toLowerCase (m.input.getD "") = q ∧ r = s.entry m := by
  rw [foldl_exactInputStep, List.nil_append, List.mem_filterMap]
  constructor
  · rintro ⟨s, hs, hr⟩
    refine ⟨s, hs, ?_⟩
    unfold exactInputHit at hr
    cases hm : s.move with
    | none => simp [hm] at hr
    | some m =>
      simp only [hm] at hr
      split at hr
      · rename_i hcond
        simp only [Bool.and_eq_true, beq_iff_eq] at hcond
        exact ⟨m, rfl, hcond.1, hcond.2, by simpa using hr.symm⟩
      · simp at hr
  · rintro ⟨s, hs, m, hm, ht, hl, rfl⟩
    refine ⟨s, hs, ?_⟩
    simp [exactInputHit, hm, ht, hl]

/-- When the alias rules do not answer, a character in the movelists format is resolved
by `findMoveByNameOrInput`. -/
theorem findMoveInAllMoveLists_movelists (c : Character) (mls : List MoveList)
    (q : String) (hc : c.movelists = some mls)
    (hn : handleNayukiMoves c q = Except.ok none) :
    findMoveInAllMoveLists c q = Except.ok (findMoveByNameOrInput c q) := by
  simp [findMoveInAllMoveLists, hn, hc]

theorem mem_enum_snd {α : Type} (xs : List α) (p : Nat × α) (h : p ∈ xs.enum) : p.2 ∈ xs := by
  obtain ⟨i, x⟩ := p
  exact List.getElem?_mem (List.mk_mem_enum_iff_getElem?.mp h)

/-! ## C1: resolving a move by its own input -/

/-- C1, as stated, fails. Resolving the input `AB` of the move Grab returns also the
move Cabbage, present through a substring match of its name and with input `5A`; and for
the sleeping Nayuki the input `214B` of the move Dream is answered by the alias rule with
the stance `214*` alone. -/
theorem findMove_own_input_counterexample :
    (¬ ∃ rs, findMoveInAllMoveLists grabCharacter "AB" = Except.ok rs ∧ rs ≠ [] ∧
        (∃ r ∈ rs, r.move = { moveName := some "Grab", input := some "AB" }) ∧
        ∀ r ∈ rs, ∃ j, r.move.input = some j ∧ toLowerCase j = toLowerCase "AB") ∧
    (¬ ∃ rs, findMoveInAllMoveLists nayukiCharacter "214B" = Except.ok rs ∧ rs ≠ [] ∧
        (∃ r ∈ rs, r.move = { moveName := some "Dream", input := some "214B" }) ∧
        ∀ r ∈ rs, ∃ j, r.move.input = some j ∧ toLowerCase j = toLowerCase "214B") := by
  constructor
  · rintro ⟨rs, h, -, -, hall⟩
    have hrun : findMoveInAllMoveLists grabCharacter "AB" =
        Except.ok [(Slot.mk 0 grabList 0 none).entry { moveName := some "Grab", input := some "AB" },
                   (Slot.mk 0 grabList 1 none).entry { moveName := some "Cabbage", input := some "5A" }] := by
      decide
    rw [hrun] at h
    injection h with h
    subst h
    obtain ⟨j, hj, hl⟩ := hall _ (List.mem_cons_of_mem _ (List.mem_singleton.mpr rfl))
    simp only [Slot.entry, Option.some.injEq] at hj
    subst hj
    revert hl
    decide
  · rintro ⟨rs, h, -, -, hall⟩
    have hrun : findMoveInAllMoveLists nayukiCharacter "214B" =
        Except.ok [(Slot.mk 0 nayukiList 0 none).entry { moveName := some "Zzz~", input := some "214*" }] := by
      decide
    rw [hrun] at h
    injection h with h
    subst h
    obtain ⟨j, hj, hl⟩ := hall _ (List.mem_singleton.mpr rfl)
    simp only [Slot.entry, Option.some.injEq] at hj
    subst hj
    revert hl
    decide

/-- C1, amended. For a character in the movelists format and a move `m` of one of its
move-lists whose non-empty input passes the input-notation test, when no alias rule
answers the query, `findMoveInAllMoveLists(character, m.input)` returns a non-empty list
that contains the entry of `m` and in which every entry's move has an input equal to
`m.input` ignoring letter case. -/
theorem findMove_own_input_notation (c : Character) (mls : List MoveList)
    (hc : c.movelists = some mls) (s : Slot) (hs : s ∈ allSlots mls) (m : Move)
    (hm : s.move = some m) (i : String) (hi : m.input = some i) (hne : i ≠ "")
    (hnot : isInputNotation i = true) (hn : handleNayukiMoves c i = Except.ok none) :
    ∃ rs, findMoveInAllMoveLists c i = Except.ok rs ∧ rs ≠ [] ∧ s.entry m ∈ rs ∧
      ∀ r ∈ rs, ∃ j, r.move.input = some j ∧ toLowerCase j = toLowerCase i := by
  have hmem : s.entry m ∈ (allSlots mls).foldl (exactInputStep (toLowerCase i)) [] := by
    rw [mem_exactInput_iff]
    exact ⟨s, hs, m, hm, by simp [truthy, hi, hne], by simp [hi], rfl⟩
  have hlen : ((allSlots mls).foldl (exactInputStep (toLowerCase i)) []).length > 0 :=
    List.length_pos_of_mem hmem
  refine ⟨(allSlots mls).foldl (exactInputStep (toLowerCase i)) [], ?_,
    List.ne_nil_of_length_pos hlen, hmem, ?_⟩
  · rw [findMoveInAllMoveLists_movelists c mls i hc hn]
    simp only [findMoveByNameOrInput, hc, hnot, if_true, hlen]
  · intro r hr
    rw [mem_exactInput_iff] at hr
    obtain ⟨s1, -, m1, -, ht, hl, rfl⟩ := hr
    cases hin : m1.input with
    | none => simp [truthy, hin] at ht
    | some j => exact ⟨j, by simp [Slot.entry, hin], by simpa [hin] using hl⟩

/-- C1, amended, at the move Cabbage of `grabCharacter`, whose input is `5A`. -/
theorem findMove_own_input_notation_witness :
    ∃ rs, findMoveInAllMoveLists grabCharacter "5A" = Except.ok rs ∧ rs ≠ [] ∧
      (Slot.mk 0 grabList 1 (some { moveName := some "Cabbage", input := some "5A" })).entry
        { moveName := some "Cabbage", input := some "5A" } ∈ rs ∧
      ∀ r ∈ rs, ∃ j, r.move.input = some j ∧ toLowerCase j = toLowerCase "5A" :=
  findMove_own_input_notation grabCharacter [grabList] rfl
    (Slot.mk 0 grabList 1 (some { moveName := some "Cabbage", input := some "5A" }))
    (by decide) { moveName := some "Cabbage", input := some "5A" } rfl "5A" rfl
    (by decide) (by decide) (by decide)

/-! ## C2: version 0 shows the base move -/

theorem bind_ok {α β : Type} (x : Except JSError α) (f : α → Except JSError β) (b : β) :
    x.bind f = Except.ok b ↔ ∃ a, x = Except.ok a ∧ f a = Except.ok b := by
  cases x <;> simp [Except.bind]

theorem setTitle_ok (e e1 : Embed) (title : String)
    (h : e.setTitle title = Except.ok e1) : e1 = { e with title := title } := by
  unfold Embed.setTitle at h
  split at h
  · exact (Except.ok.inj h).symm
  · cases h

theorem setColor_ok (e e1 : Embed) (color : Option Nat)
    (h : e.setColor color = Except.ok e1) :
    colorPredicate color = true ∧ e1 = { e with color := color } := by
  unfold Embed.setColor at h
  split at h
  · rename_i hc
    exact ⟨hc, (Except.ok.inj h).symm⟩
  · cases h

theorem setThumbnail_ok (e e1 : Embed) (url : String)
    (h : e.setThumbnail url = Except.ok e1) : e1 = { e with thumbnail := some url } := by
  unfold Embed.setThumbnail at h
  split at h
  · exact (Except.ok.inj h).symm
  · cases h

theorem setDescription_ok (e e1 : Embed) (text : String)
    (h : e.setDescription text = Except.ok e1) : e1 = { e with description := some text } := by
  unfold Embed.setDescription at h
  split at h
  · exact (Except.ok.inj h).symm
  · cases h

theorem setImage_ok (e e1 : Embed) (url : String)
    (h : e.setImage url = Except.ok e1) : e1 = { e with image := some url } := by
  unfold Embed.setImage at h
  split at h
  · exact (Except.ok.inj h).symm
  · cases h

theorem setFooter_ok (e e1 : Embed) (text : String)
    (h : e.setFooter text = Except.ok e1) : e1 = { e with footer := text } := by
  unfold Embed.setFooter at h
  split at h
  · exact (Except.ok.inj h).symm
  · cases h

theorem addFields_ok (e e1 : Embed) (name : String) (value : Option String)
    (h : e.addFields name value = Except.ok e1) : e1 = e.addField name value := by
  unfold Embed.addFields at h
  split at h
  · exact (Except.ok.inj h).symm
  · cases h

theorem fieldsNamed_addField (e : Embed) (n name : String) (value : Option String) :
    fieldsNamed n (e.addField name value) =
      fieldsNamed n e ++ (if name = n then [{ name := name, value := value }] else []) := by
  unfold fieldsNamed Embed.addField
  by_cases h : name = n <;> simp [List.filter_append, List.filter_cons, h]

theorem fieldsNamed_addFields (e e1 : Embed) (n name : String) (value : Option String)
    (h : e.addFields name value = Except.ok e1) :
    fieldsNamed n e1 =
      fieldsNamed n e ++ (if name = n then [{ name := name, value := value }] else []) := by
  rw [addFields_ok e e1 name value h, fieldsNamed_addField]

theorem fieldsNamed_addFrameData (e e1 : Embed) (n text : String)
    (h : e.addFrameData text = Except.ok e1) :
    fieldsNamed n e1 =
      fieldsNamed n e ++
        (if text ≠ "" ∧ "Frame Data" = n then [{ name := "Frame Data", value := some text }]
         else []) := by
  unfold Embed.addFrameData at h
  by_cases ht : text = ""
  · simp only [ht, bne_self_eq_false, Bool.false_eq_true, if_false, Except.ok.injEq] at h
    subst h
    simp [ht]
  · rw [if_pos (by simpa using ht)] at h
    rw [fieldsNamed_addFields e e1 n _ _ h]
    by_cases hn : "Frame Data" = n <;> simp [ht, hn]

/-- The header part adds the `Input` field and no other. -/
theorem headerEmbed_fields (c : Character) (move : Move) (mln : Option String)
    (version : Int) (e : Embed) (h : headerEmbed c move mln version = Except.ok e) :
    e.fields =
      match move.input with
      | some i =>
        if (i != "" && trim i != "") = true then [{ name := "Input", value := some (trim i) }]
        else []
      | none => [] := by
  unfold headerEmbed at h
  simp only [bind_ok] at h
  obtain ⟨e0, h0, e1, h1, e2, h2, e3, h3, h4⟩ := h
  have f0 : e0.fields = [] := by rw [setTitle_ok _ _ _ h0]
  have f1 : e1.fields = [] := by rw [(setColor_ok _ _ _ h1).2]; exact f0
  have f2 : e2.fields = [] := by
    split at h2
    · rw [setThumbnail_ok _ _ _ h2]; exact f1
    · cases h2; exact f1
  have f3 : e3.fields = [] := by
    split at h3
    · rw [setDescription_ok _ _ _ h3]; exact f2
    · split at h3
      · rw [setDescription_ok _ _ _ h3]; exact f2
      · cases h3; exact f2
  cases hi : move.input with
  | none =>
    simp only [hi, Except.ok.injEq] at h4
    subst h4
    exact f3
  | some i =>
    simp only [hi] at h4
    by_cases hc : (i != "" && trim i != "") = true
    · rw [if_pos hc] at h4
      rw [addFields_ok _ _ _ _ h4]
      simp [Embed.addField, f3, hc]
    · rw [if_neg hc] at h4
      cases h4
      simp [f3, hc]

theorem fieldsNamed_headerEmbed (c : Character) (move : Move) (mln : Option String)
    (version : Int) (e : Embed) (h : headerEmbed c move mln version = Except.ok e)
    (n : String) (hn : "Input" ≠ n) :
    fieldsNamed n e = [] := by
  unfold fieldsNamed
  rw [headerEmbed_fields c move mln version e h]
  split
  · split <;> simp [hn]
  · rfl

/-- The colour check: the call returns only for a version whose remainder by 4 is not
negative. -/
theorem headerEmbed_color (c : Character) (move : Move) (mln : Option String)
    (version : Int) (e : Embed) (h : headerEmbed c move mln version = Except.ok e) :
    colorPredicate (colorOf version) = true := by
  unfold headerEmbed at h
  simp only [bind_ok] at h
  obtain ⟨e0, _, e1, h1, _⟩ := h
  exact (setColor_ok _ _ _ h1).1

theorem footerEmbed_fields (c : Character) (move : Move) (version : Int)
    (w : VersionView) (e : Embed) (h : footerEmbed c move version w = Except.ok e) :
    e.fields =
      w.embed.fields ++
        match w.move.followUps with
        | some (f :: fs) =>
          [{ name := "Follow-ups",
             value := some (if (join "\n" ((f :: fs).map followUpLine)).length > 1024
                            then substring0 (join "\n" ((f :: fs).map followUpLine)) 1020 ++ "..."
                            else join "\n" ((f :: fs).map followUpLine)) }]
        | _ => [] := by
  unfold footerEmbed at h
  simp only [bind_ok] at h
  obtain ⟨e4, h4, e5, h5, h6⟩ := h
  have f4 : e4.fields = w.embed.fields := by
    split at h4
    · split at h4
      · rw [setImage_ok _ _ _ h4]
      · cases h4; rfl
    · cases h4; rfl
  rw [setFooter_ok _ _ _ h6]
  cases hfu : w.move.followUps with
  | none =>
    simp only [hfu, Except.ok.injEq] at h5
    subst h5
    simp [f4]
  | some fus =>
    cases fus with
    | nil =>
      simp only [hfu, Except.ok.injEq] at h5
      subst h5
      simp [f4]
    | cons f fs =>
      simp only [hfu] at h5
      rw [addFields_ok _ _ _ _ h5]
      simp [Embed.addField, f4]

/-- What the last part of the function returns when it returns. -/
theorem finishEmbed_ok (c : Character) (move : Move) (version : Int) (w : VersionView)
    (r : MoveEmbed) (h : finishEmbed c move version w = Except.ok r) :
    footerEmbed c move version w = Except.ok r.embed ∧ r.hasVersions = w.hasVersions ∧
      r.versionCount = w.versionCount ∧ r.versionLabels = w.versionLabels ∧
      r.isBaseMove = w.isBaseMove ∧ r.move = w.move := by
  unfold finishEmbed at h
  simp only [bind_ok] at h
  obtain ⟨e, he, hr⟩ := h
  cases hr
  exact ⟨he, rfl, rfl, rfl, rfl, rfl⟩

theorem fieldsNamed_finishEmbed (c : Character) (move : Move) (version : Int)
    (w : VersionView) (r : MoveEmbed) (h : finishEmbed c move version w = Except.ok r)
    (n : String) (hn : "Follow-ups" ≠ n) :
    fieldsNamed n r.embed = fieldsNamed n w.embed := by
  unfold fieldsNamed
  rw [footerEmbed_fields c move version w r.embed (finishEmbed_ok c move version w r h).1]
  split <;> simp [hn]

theorem fieldsNamed_baseMoveFields (e e1 : Embed) (move : Move) (n : String)
    (h : baseMoveFields e move = Except.ok e1) :
    fieldsNamed n e1 =
      fieldsNamed n e ++
      (match move.damage with
       | some d => if d ≠ "" ∧ d ≠ "/" ∧ "Damage" = n
                   then [{ name := "Damage", value := some d }] else []
       | none => []) ++
      (match move.framedata with
       | some fd => if frameDataText fd ≠ "" ∧ "Frame Data" = n
                    then [{ name := "Frame Data", value := some (frameDataText fd) }] else []
       | none => []) ++
      (match move.properties with
       | some (p :: ps) =>
         if "Notes" = n then
           [{ name := "Notes",
              value := some (if (join "\n\n" (p :: ps)).length > 1000
                             then truncateText (join "\n\n" (p :: ps)) 1000
                             else join "\n\n" (p :: ps)) }]
         else []
       | _ => []) := by
  unfold baseMoveFields at h
  simp only [bind_ok] at h
  obtain ⟨a, ha, b, hb, hc⟩ := h
  have fa : fieldsNamed n a = fieldsNamed n e ++
      (match move.damage with
       | some d => if d ≠ "" ∧ d ≠ "/" ∧ "Damage" = n
                   then [{ name := "Damage", value := some d }] else []
       | none => []) := by
    cases hd : move.damage with
    | none =>
      simp only [hd, Except.ok.injEq] at ha
      subst ha
      simp
    | some d =>
      simp only [hd] at ha
      by_cases hcond : (d != "" && d != "/") = true
      · rw [if_pos hcond] at ha
        rw [fieldsNamed_addFields _ _ n _ _ ha]
        simp only [Bool.and_eq_true, bne_iff_ne, ne_eq] at hcond
        by_cases hn : "Damage" = n <;> simp [hcond.1, hcond.2, hn]
      · rw [if_neg hcond] at ha
        cases ha
        simp only [Bool.and_eq_true, bne_iff_ne, ne_eq, not_and, not_not] at hcond
        by_cases h1 : d = ""
        · simp [h1]
        · simp [h1, hcond h1]
  have fb : fieldsNamed n b = fieldsNamed n a ++
      (match move.framedata with
       | some fd => if frameDataText fd ≠ "" ∧ "Frame Data" = n
                    then [{ name := "Frame Data", value := some (frameDataText fd) }] else []
       | none => []) := by
    cases hf : move.framedata with
    | none =>
      simp only [hf, Except.ok.injEq] at hb
      subst hb
      simp
    | some fd =>
      simp only [hf] at hb
      exact fieldsNamed_addFrameData _ _ n _ hb
  have fc : fieldsNamed n e1 = fieldsNamed n b ++
      (match move.properties with
       | some (p :: ps) =>
         if "Notes" = n then
           [{ name := "Notes",
              value := some (if (join "\n\n" (p :: ps)).length > 1000
                             then truncateText (join "\n\n" (p :: ps)) 1000
                             else join "\n\n" (p :: ps)) }]
         else []
       | _ => []) := by
    cases hp : move.properties with
    | none =>
      simp only [hp, Except.ok.injEq] at hc
      subst hc
      simp
    | some props =>
      simp only [hp] at hc
      cases props with
      | nil =>
        simp only [List.length_nil, gt_iff_lt, Nat.lt_irrefl, if_false, Except.ok.injEq] at hc
        subst hc
        simp
      | cons p ps =>
        rw [if_pos (by simp)] at hc
        rw [fieldsNamed_addFields _ _ n _ _ hc]
  rw [fc, fb, fa]

/-- How a call that returns is put together. -/
theorem createMoveEmbed_ok (c : Character) (move : Move) (sec : Section)
    (mln : Option String) (version : Int) (r : MoveEmbed) :
    createMoveEmbed c move sec mln version = Except.ok r ↔
      ∃ e w, headerEmbed c move mln version = Except.ok e ∧
        versionView e move version = Except.ok w ∧
        finishEmbed c move version w = Except.ok r := by
  unfold createMoveEmbed
  simp only [bind_ok]
  constructor
  · rintro ⟨e, he, w, hw, hr⟩
    exact ⟨e, w, he, hw, hr⟩
  · rintro ⟨e, w, he, hw, hr⟩
    exact ⟨e, he, w, hw, hr⟩

/-- Version 0 of a move with variations: the version-dependent part is the base move. -/
theorem versionView_zero (e : Embed) (move : Move) (v : Variation) (vs : List Variation)
    (hv : move.variations = some (v :: vs)) :
    versionView e move 0 =
      (baseMoveFields e move).bind (fun e1 =>
        Except.ok { embed := e1, hasVersions := true,
                    versionCount := (v :: vs).length + 1,
                    versionLabels :=
                      "Base Move" ::
                        (v :: vs).map (fun w => (orElse w.version (some "")).getD ""),
                    isBaseMove := true, move := { move with currentImage := move.image } }) := by
  unfold versionView
  simp [hv]

/-- For version 0 the outcome of the call, the embed it builds or the error it raises,
is the same for every non-empty list of variations in `move.variations`. -/
theorem createMoveEmbed_zero_any_variations (c : Character) (move : Move) (sec : Section)
    (mln : Option String) (v : Variation) (vs : List Variation)
    (hv : move.variations = some (v :: vs)) (w : Variation) (ws : List Variation) :
    (createMoveEmbed c { move with variations := some (w :: ws) } sec mln 0).map
        (fun r => (r.embed, r.isBaseMove)) =
      (createMoveEmbed c move sec mln 0).map (fun r => (r.embed, r.isBaseMove)) := by
  unfold createMoveEmbed
  have hh : headerEmbed c { move with variations := some (w :: ws) } mln 0 =
      headerEmbed c move mln 0 := rfl
  rw [hh]
  cases headerEmbed c move mln 0 with
  | error err => rfl
  | ok e =>
    simp only [Except.bind]
    rw [versionView_zero e move v vs hv,
      versionView_zero e { move with variations := some (w :: ws) } w ws rfl]
    have hb : baseMoveFields e { move with variations := some (w :: ws) } =
        baseMoveFields e move := rfl
    rw [hb]
    cases baseMoveFields e move with
    | error err => rfl
    | ok e1 =>
      simp only [Except.bind, finishEmbed]
      have hf : footerEmbed c { move with variations := some (w :: ws) } 0
          { embed := e1, hasVersions := true, versionCount := (w :: ws).length + 1,
            versionLabels :=
              "Base Move" :: (w :: ws).map (fun x => (orElse x.version (some "")).getD ""),
            isBaseMove := true,
            move := { move with variations := some (w :: ws), currentImage := move.image } } =
          footerEmbed c move 0
          { embed := e1, hasVersions := true, versionCount := (v :: vs).length + 1,
            versionLabels :=
              "Base Move" :: (v :: vs).map (fun x => (orElse x.version (some "")).getD ""),
            isBaseMove := true, move := { move with currentImage := move.image } } := rfl
      rw [hf]
      cases footerEmbed c move 0
          { embed := e1, hasVersions := true, versionCount := (v :: vs).length + 1,
            versionLabels :=
              "Base Move" :: (v :: vs).map (fun x => (orElse x.version (some "")).getD ""),
            isBaseMove := true, move := { move with currentImage := move.image } } with
      | error err => rfl
      | ok e2 => rfl

/-- C2. For a move with at least one variation, every call of `createMoveEmbed` with
version 0 that returns reports `isBaseMove = true` and has as `Damage`, `Frame Data` and
`Notes` fields exactly those built from the move's own `damage`, `framedata` and
`properties`; and with any other non-empty list in `move.variations` the call returns
as well, with the same embed. -/
theorem createMoveEmbed_version_zero (c : Character) (move : Move) (sec : Section)
    (mln : Option String) (v : Variation) (vs : List Variation)
    (hv : move.variations = some (v :: vs)) (r : MoveEmbed)
    (h : createMoveEmbed c move sec mln 0 = Except.ok r) :
    r.isBaseMove = true ∧
      fieldsNamed "Damage" r.embed =
        (match move.damage with
         | some d => if d ≠ "" ∧ d ≠ "/" then [{ name := "Damage", value := some d }] else []
         | none => []) ∧
      fieldsNamed "Frame Data" r.embed =
        (match move.framedata with
         | some fd =>
           if frameDataText fd ≠ "" then
             [{ name := "Frame Data", value := some (frameDataText fd) }]
           else []
         | none => []) ∧
      fieldsNamed "Notes" r.embed =
        (match move.properties with
         | some (p :: ps) =>
           [{ name := "Notes",
              value := some (if (join "\n\n" (p :: ps)).length > 1000
                             then truncateText (join "\n\n" (p :: ps)) 1000
                             else join "\n\n" (p :: ps)) }]
         | _ => []) ∧
      ∀ (w : Variation) (ws : List Variation),
        ∃ r1, createMoveEmbed c { move with variations := some (w :: ws) } sec mln 0 =
            Except.ok r1 ∧ r1.embed = r.embed ∧ r1.isBaseMove = true := by
  obtain ⟨e, w, he, hw, hr⟩ := (createMoveEmbed_ok c move sec mln 0 r).mp h
  rw [versionView_zero e move v vs hv, bind_ok] at hw
  obtain ⟨e1, he1, hw1⟩ := hw
  have hfin := finishEmbed_ok c move 0 w r hr
  have hwe : w.embed = e1 := by cases hw1; rfl
  have hbase : r.isBaseMove = true := by rw [hfin.2.2.2.2.1]; cases hw1; rfl
  have hnamed : ∀ n, "Input" ≠ n → "Follow-ups" ≠ n → fieldsNamed n r.embed =
      [] ++
      (match move.damage with
       | some d => if d ≠ "" ∧ d ≠ "/" ∧ "Damage" = n
                   then [{ name := "Damage", value := some d }] else []
       | none => []) ++
      (match move.framedata with
       | some fd => if frameDataText fd ≠ "" ∧ "Frame Data" = n
                    then [{ name := "Frame Data", value := some (frameDataText fd) }] else []
       | none => []) ++
      (match move.properties with
       | some (p :: ps) =>
         if "Notes" = n then
           [{ name := "Notes",
              value := some (if (join "\n\n" (p :: ps)).length > 1000
                             then truncateText (join "\n\n" (p :: ps)) 1000
                             else join "\n\n" (p :: ps)) }]
         else []
       | _ => []) := by
    intro n h1 h2
    rw [fieldsNamed_finishEmbed c move 0 w r hr n h2, hwe,
      fieldsNamed_baseMoveFields e e1 move n he1, fieldsNamed_headerEmbed c move mln 0 e he n h1]
  refine ⟨hbase, ?_, ?_, ?_, ?_⟩
  · rw [hnamed _ (by decide) (by decide)]
    cases move.damage <;> cases move.framedata <;> cases move.properties with
    | none => simp
    | some props => cases props <;> simp
  · rw [hnamed _ (by decide) (by decide)]
    cases move.damage <;> cases move.framedata <;> cases move.properties with
    | none => simp
    | some props => cases props <;> simp
  · rw [hnamed _ (by decide) (by decide)]
    cases move.damage <;> cases move.framedata <;> cases move.properties with
    | none => simp
    | some props => cases props <;> simp
  · intro w0 ws
    have hany := createMoveEmbed_zero_any_variations c move sec mln v vs hv w0 ws
    rw [h] at hany
    cases hr1 : createMoveEmbed c { move with variations := some (w0 :: ws) } sec mln 0 with
    | error err =>
      rw [hr1] at hany
      cases hany
    | ok r1 =>
      rw [hr1] at hany
      simp only [Except.map, Except.ok.injEq, Prod.mk.injEq] at hany
      exact ⟨r1, rfl, hany.1, hany.2.trans hbase⟩

/-- C2 at `variedMove`: version 0 shows the damage 500 of the move itself, not the 700
of its first variation. -/
theorem createMoveEmbed_version_zero_witness :
    createMoveEmbed grabCharacter variedMove {} none 0 = Except.ok variedResult ∧
      variedResult.isBaseMove = true ∧
      fieldsNamed "Damage" variedResult.embed = [{ name := "Damage", value := some "500" }] ∧
      fieldsNamed "Frame Data" variedResult.embed =
        [{ name := "Frame Data", value := some "**startup**: 7\n" }] ∧
      fieldsNamed "Notes" variedResult.embed =
        [{ name := "Notes", value := some "Base note" }] ∧
      ∀ (w : Variation) (ws : List Variation),
        ∃ r1, createMoveEmbed grabCharacter { variedMove with variations := some (w :: ws) }
            {} none 0 = Except.ok r1 ∧ r1.embed = variedResult.embed ∧ r1.isBaseMove = true :=
  ⟨by decide,
    createMoveEmbed_version_zero grabCharacter variedMove {} none _ _ rfl variedResult
      (by decide)⟩

/-! ## C3: the version token round trip -/

theorem splitL_append_sep (sep : Char) (a rest : List Char) (ha : sep ∉ a) :
    splitL sep (a ++ sep :: rest) = a :: splitL sep rest := by
  induction a with
  | nil => simp [splitL]
  | cons c cs ih =>
    have hc : c ≠ sep := fun h => ha (by simp [h])
    have hcs : sep ∉ cs := fun h => ha (List.mem_cons_of_mem _ h)
    simp [splitL, hc, ih hcs]

theorem digitChar_mem (d : Nat) : digitChar d ∈ digitChars := by
  unfold digitChar
  split <;> decide

theorem digitValue_digitChar (d : Nat) (hd : d < 10) : digitValue (digitChar d) = some d := by
  interval_cases d <;> decide

theorem decimalDigits_mem (fuel n : Nat) :
    ∀ c ∈ decimalDigits fuel n, c ∈ digitChars := by
  induction fuel generalizing n with
  | zero => simp [decimalDigits]
  | succ f ih =>
    intro c hc
    unfold decimalDigits at hc
    split at hc
    · rw [List.mem_singleton] at hc
      exact hc ▸ digitChar_mem n
    · rw [List.mem_append, List.mem_singleton] at hc
      rcases hc with hc | hc
      · exact ih _ c hc
      · exact hc ▸ digitChar_mem _

theorem decimalDigits_ne_nil (fuel n : Nat) : decimalDigits (fuel + 1) n ≠ [] := by
  unfold decimalDigits
  split <;> simp

/-- Reading the digits of `n` back, after `acc`, gives `acc` shifted followed by `n`. -/
theorem foldl_decimalDigits (fuel n : Nat) (hn : n < fuel) :
    ∃ k, ∀ acc : Nat,
      (decimalDigits fuel n).foldl (fun a c => a * 10 + (digitValue c).getD 0) acc =
        acc * 10 ^ k + n := by
  induction fuel generalizing n with
  | zero => omega
  | succ f ih =>
    unfold decimalDigits
    by_cases h : n < 10
    · refine ⟨1, fun acc => ?_⟩
      simp [h, digitValue_digitChar n h]
    · obtain ⟨k, hk⟩ := ih (n / 10) (by omega)
      refine ⟨k + 1, fun acc => ?_⟩
      rw [if_neg h, List.foldl_append, hk]
      simp only [List.foldl_cons, List.foldl_nil,
        digitValue_digitChar (n % 10) (Nat.mod_lt _ (by decide)), Option.getD_some]
      rw [pow_succ]
      have := Nat.div_add_mod n 10
      nlinarith [this]

theorem digit_not_whitespace (c : Char) (hc : c ∈ digitChars) : isJSWhitespace c = false := by
  simp only [digitChars, List.mem_cons, List.mem_singleton, List.not_mem_nil, or_false] at hc
  rcases hc with rfl | rfl | rfl | rfl | rfl | rfl | rfl | rfl | rfl | rfl <;> decide

theorem digit_isRadixDigit (c : Char) (hc : c ∈ digitChars) : isRadixDigit 10 c = true := by
  simp only [digitChars, List.mem_cons, List.mem_singleton, List.not_mem_nil, or_false] at hc
  rcases hc with rfl | rfl | rfl | rfl | rfl | rfl | rfl | rfl | rfl | rfl <;> decide

theorem digit_not_mark (c : Char) (hc : c ∈ digitChars) :
    c ≠ '-' ∧ c ≠ '+' ∧ c ≠ 'x' ∧ c ≠ 'X' ∧ c ≠ ':' := by
  simp only [digitChars, List.mem_cons, List.mem_singleton, List.not_mem_nil, or_false] at hc
  rcases hc with rfl | rfl | rfl | rfl | rfl | rfl | rfl | rfl | rfl | rfl <;> decide

theorem takeWhile_eq_self {α : Type} (p : α → Bool) (xs : List α)
    (h : ∀ x ∈ xs, p x = true) : xs.takeWhile p = xs := by
  induction xs with
  | nil => rfl
  | cons x rest ih =>
    rw [List.takeWhile_cons, h x (List.mem_cons_self _ _), if_pos rfl,
      ih (fun y hy => h y (List.mem_cons_of_mem _ hy))]

/-- Function `parseInt` reads a non-empty run of decimal digits as its decimal value, with radix
10 and with no radix. -/
theorem parseInt_digits (ds : List Char) (hne : ds ≠ []) (hds : ∀ c ∈ ds, c ∈ digitChars)
    (radix : Nat) (hr : radix = 0 ∨ radix = 10) :
    parseInt (String.mk ds) radix =
      some ((ds.foldl (fun a c => a * 10 + (digitValue c).getD 0) 0 : Nat) : Int) := by
  cases ds with
  | nil => exact absurd rfl hne
  | cons c cs =>
    have hc := hds c (List.mem_cons_self _ _)
    have hws := digit_not_whitespace c hc
    obtain ⟨hm1, hm2, -, -, -⟩ := digit_not_mark c hc
    have hdrop : (c :: cs).dropWhile isJSWhitespace = c :: cs := by
      simp [List.dropWhile_cons, hws]
    have hhex : (startsWithL (c :: cs) ['0', 'x'] || startsWithL (c :: cs) ['0', 'X']) = false := by
      cases cs with
      | nil => simp [startsWithL]
      | cons d ds1 =>
        have hd := hds d (List.mem_cons_of_mem _ (List.mem_cons_self _ _))
        obtain ⟨-, -, hx1, hx2, -⟩ := digit_not_mark d hd
        simp [startsWithL, hx1, hx2]
    have htake : (c :: cs).takeWhile (isRadixDigit 10) = c :: cs :=
      takeWhile_eq_self _ _ (fun x hx => digit_isRadixDigit x (hds x hx))
    have hsign : (match c :: cs with
        | '-' :: rest => rest
        | '+' :: rest => rest
        | _ => c :: cs) = c :: cs := by
      split
      · rename_i h; exact absurd (List.cons.inj h).1 hm1
      · rename_i h; exact absurd (List.cons.inj h).1 hm2
      · rfl
    have hneg : ((c :: cs).head? == some '-') = false := by
      simp [hm1]
    unfold parseInt
    simp only [hdrop, hsign, hneg, hhex, Bool.and_false]
    rcases hr with rfl | rfl <;> simp [htake]

theorem parseInt_numberToString (n radix : Nat) (hr : radix = 0 ∨ radix = 10) :
    parseInt (numberToString n) radix = some (n : Int) := by
  unfold numberToString
  rw [parseInt_digits _ (decimalDigits_ne_nil n n) (decimalDigits_mem _ _) radix hr]
  obtain ⟨k, hk⟩ := foldl_decimalDigits (n + 1) n (Nat.lt_succ_self n)
  rw [hk 0]
  simp

theorem numberToString_no_colon (n : Nat) : ':' ∉ (numberToString n).data := by
  intro h
  exact (digit_not_mark ':' (decimalDigits_mem _ _ _ h)).2.2.2.2 rfl

theorem numberToString_ne_empty (n : Nat) : numberToString n ≠ "" := by
  intro h
  have : (numberToString n).data = [] := by rw [h]
  exact decimalDigits_ne_nil n n this

/-- The parts of a version token: the five semantic fields come first, whatever the
uniqueness suffix is. -/
theorem split_version_token (c m rand : String) (l v now : Nat)
    (hc : ':' ∉ c.data) (hm : ':' ∉ m.data) :
    ∃ suffix, split (createUniqueId (versionBaseId c l m v) now rand) ':' =
      "version" :: c :: numberToString l :: m :: numberToString v :: suffix := by
  have hdata : (createUniqueId (versionBaseId c l m v) now rand).data =
      "version".data ++ ':' :: (c.data ++ ':' :: ((numberToString l).data ++ ':' ::
        (m.data ++ ':' :: ((numberToString v).data ++ ':' ::
          ((numberToString now).data ++ ':' :: rand.data))))) := by
    simp [createUniqueId, versionBaseId, String.data_append]
  refine ⟨(splitL ':' ((numberToString now).data ++ ':' :: rand.data)).map String.mk, ?_⟩
  unfold split
  rw [hdata, splitL_append_sep _ _ _ (by decide), splitL_append_sep _ _ _ hc,
    splitL_append_sep _ _ _ (numberToString_no_colon l), splitL_append_sep _ _ _ hm,
    splitL_append_sep _ _ _ (numberToString_no_colon v)]
  simp

/-- C3. For a character name `c` and a move name `m` without `:`, natural numbers `l`
and `v`, and any timestamp and random string, the version button handler decodes the
token `createUniqueId("version:c:l:m:v")` to `characterName = c`, `moveListId = l`,
`moveName = m` and `version = v`. -/
theorem decodeVersion_createUniqueId (c m rand : String) (l v now : Nat)
    (hc : ':' ∉ c.data) (hm : ':' ∉ m.data) :
    decodeVersion (createUniqueId (versionBaseId c l m v) now rand) =
      { characterName := some c, moveListIdStr := some (numberToString l),
        moveListId := some (l : Int), moveName := some m, version := some (v : Int) } := by
  obtain ⟨suffix, hs⟩ := split_version_token c m rand l v now hc hm
  unfold decodeVersion
  simp only [hs, List.get?_cons_succ, List.get?_cons_zero, show_, Option.getD_some]
  have hor : orElse (some (numberToString v)) (some "0") = some (numberToString v) := by
    simp [orElse, numberToString_ne_empty]
  rw [hor]
  simp [parseInt_numberToString]

/-- C3 at the token of the specification: character `X`, move-list 1, move `Y`,
version 2. -/
theorem decodeVersion_createUniqueId_witness :
    decodeVersion (createUniqueId (versionBaseId "X" 1 "Y" 2) 1700000000000 "k3j9x1") =
      { characterName := some "X", moveListIdStr := some (numberToString 1),
        moveListId := some 1, moveName := some "Y", version := some 2 } :=
  decodeVersion_createUniqueId "X" "Y" "k3j9x1" 1 2 1700000000000 (by decide) (by decide)

/-! ## C4: preprocessing is idempotent -/

theorem truncateText_long (n : String) (k : Nat) (h : k < n.length) :
    truncateText n k = substring0 n (k - 3) ++ "..." := by
  have hne : (n == "") = false := by
    rw [beq_eq_false_iff_ne]
    intro h0
    rw [h0] at h
    exact absurd h (Nat.not_lt_zero _)
  have hle : ¬ n.length ≤ k := by omega
  unfold truncateText
  rw [hne, Bool.false_or, if_neg (by simpa using hle)]

theorem truncateText_length (n : String) (h : 500 < n.length) :
    (truncateText n 500).length = 500 := by
  rw [truncateText_long n 500 h, String.length_append]
  have h3 : "...".length = 3 := by decide
  have ht : (substring0 n (500 - 3)).length = 497 := by
    show (List.take (500 - 3) n.data).length = 497
    rw [List.length_take]
    have : n.data.length = n.length := rfl
    omega
  omega

theorem substring0_length_le (n : String) (k : Nat) : (substring0 n k).length ≤ k := by
  show (List.take k n.data).length ≤ k
  rw [List.length_take]
  exact Nat.min_le_left _ _

theorem label_clear_of_length (label : String) (h : 2 ≤ label.length) :
    label ≠ "" ∧ label ≠ "-" := by
  constructor <;> intro h0 <;> rw [h0] at h <;> exact absurd h (by decide)

theorem stanceLabel_clear (idx : Nat) : stanceLabel idx ≠ "" ∧ stanceLabel idx ≠ "-" := by
  apply label_clear_of_length
  unfold stanceLabel
  split <;> first | decide | (rw [String.length_append]; exact le_trans (by decide) (Nat.le_add_right _ _))

theorem rollingLabel_clear (idx : Nat) : rollingLabel idx ≠ "" ∧ rollingLabel idx ≠ "-" := by
  apply label_clear_of_length
  unfold rollingLabel
  split <;> first | decide | (rw [String.length_append]; exact le_trans (by decide) (Nat.le_add_right _ _))

theorem kickLabel_clear (idx : Nat) : kickLabel idx ≠ "" ∧ kickLabel idx ≠ "-" := by
  apply label_clear_of_length
  unfold kickLabel
  split <;> first | decide | (rw [String.length_append]; exact le_trans (by decide) (Nat.le_add_right _ _))

theorem nameVersion_notes (label : String) (v : Variation) :
    (nameVersion label v).notes = v.notes := by
  unfold nameVersion
  split <;> rfl

theorem nameVersion_clear (label : String) (v : Variation)
    (hl : label ≠ "" ∧ label ≠ "-") : versionUnclear (nameVersion label v) = false := by
  unfold nameVersion
  by_cases h : versionUnclear v = true
  · rw [if_pos h]
    simp [versionUnclear, truthy, hl.1, hl.2]
  · rw [if_neg h]
    simpa using h

theorem nameVersion_of_clear (label : String) (v : Variation)
    (h : versionUnclear v = false) : nameVersion label v = v := by
  simp [nameVersion, h]

theorem summarizeNotes_version (v : Variation) :
    versionUnclear (summarizeNotes v) = versionUnclear v := by
  unfold summarizeNotes
  split
  · split
    · split
      · split <;> rfl
      · rfl
    · rfl
  · rfl

theorem truncateNotes_version (v : Variation) :
    versionUnclear (truncateNotes v) = versionUnclear v := by
  unfold truncateNotes
  split
  · split <;> rfl
  · rfl

theorem summarizeNotes_short (v : Variation) :
    ∀ n, (summarizeNotes v).notes = some n → n.length ≤ 500 := by
  intro n hn
  unfold summarizeNotes at hn
  split at hn
  · rename_i notes hnotes
    split at hn
    · rename_i hlong
      simp only [Bool.and_eq_true, decide_eq_true_eq] at hlong
      split at hn
      · rename_i firstPeriod _
        split at hn
        · rename_i hfp
          simp only [Bool.and_eq_true, decide_eq_true_eq] at hfp
          simp only [Option.some.injEq] at hn
          rw [← hn]
          exact le_trans (substring0_length_le _ _) (by omega)
        · simp only [Option.some.injEq] at hn
          rw [← hn, truncateText_length _ hlong.2]
      · simp only [Option.some.injEq] at hn
        rw [← hn, truncateText_length _ hlong.2]
    · rename_i hshort
      rw [hnotes] at hn
      simp only [Option.some.injEq] at hn
      subst hn
      by_cases h0 : notes = ""
      · rw [h0]; decide
      · simp only [Bool.and_eq_true, decide_eq_true_eq, not_and, not_lt] at hshort
        exact hshort (by simpa using h0)
  · rename_i hnone
    rw [hnone] at hn
    exact absurd hn (by simp)

theorem truncateNotes_short (v : Variation) :
    ∀ n, (truncateNotes v).notes = some n → n.length ≤ 500 := by
  intro n hn
  unfold truncateNotes at hn
  split at hn
  · rename_i notes hnotes
    split at hn
    · rename_i hlong
      simp only [Bool.and_eq_true, decide_eq_true_eq] at hlong
      simp only [Option.some.injEq] at hn
      rw [← hn, truncateText_length _ hlong.2]
    · rename_i hshort
      rw [hnotes] at hn
      simp only [Option.some.injEq] at hn
      subst hn
      by_cases h0 : notes = ""
      · rw [h0]; decide
      · simp only [Bool.and_eq_true, decide_eq_true_eq, not_and, not_lt] at hshort
        exact hshort (by simpa using h0)
  · rename_i hnone
    rw [hnone] at hn
    exact absurd hn (by simp)

theorem summarizeNotes_of_short (v : Variation) (h : ∀ n, v.notes = some n → n.length ≤ 500) :
    summarizeNotes v = v := by
  unfold summarizeNotes
  split
  · rename_i notes hnotes
    have := h notes hnotes
    have hle : ¬ 500 < notes.length := by omega
    simp [hle]
  · rfl

theorem truncateNotes_of_short (v : Variation) (h : ∀ n, v.notes = some n → n.length ≤ 500) :
    truncateNotes v = v := by
  unfold truncateNotes
  split
  · rename_i notes hnotes
    have := h notes hnotes
    have hle : ¬ 500 < notes.length := by omega
    simp [hle]
  · rfl

theorem stanceVariation_settled (idx : Nat) (v : Variation) :
    Settled (stanceVariation idx v) := by
  constructor
  · exact nameVersion_clear _ _ (stanceLabel_clear idx)
  · intro n hn
    rw [stanceVariation, nameVersion_notes] at hn
    exact summarizeNotes_short v n hn

theorem rollingVariation_settled (idx : Nat) (v : Variation) :
    Settled (rollingVariation idx v) := by
  constructor
  · rw [rollingVariation, truncateNotes_version]
    exact nameVersion_clear _ _ (rollingLabel_clear idx)
  · exact truncateNotes_short _

theorem kickVariation_settled (idx : Nat) (v : Variation) :
    Settled (kickVariation idx v) := by
  constructor
  · rw [kickVariation, truncateNotes_version]
    exact nameVersion_clear _ _ (kickLabel_clear idx)
  · exact truncateNotes_short _

theorem stanceVariation_of_settled (idx : Nat) (v : Variation) (h : Settled v) :
    stanceVariation idx v = v := by
  rw [stanceVariation, summarizeNotes_of_short v h.2, nameVersion_of_clear _ _ h.1]

theorem rollingVariation_of_settled (idx : Nat) (v : Variation) (h : Settled v) :
    rollingVariation idx v = v := by
  rw [rollingVariation, nameVersion_of_clear _ _ h.1, truncateNotes_of_short v h.2]

theorem kickVariation_of_settled (idx : Nat) (v : Variation) (h : Settled v) :
    kickVariation idx v = v := by
  rw [kickVariation, nameVersion_of_clear _ _ h.1, truncateNotes_of_short v h.2]

theorem allBlocksVariation_idem (c1 c2 c3 : Bool) (idx : Nat) (v : Variation) :
    allBlocksVariation c1 c2 c3 idx (allBlocksVariation c1 c2 c3 idx v) =
      allBlocksVariation c1 c2 c3 idx v := by
  have hfix : ∀ w, Settled w → allBlocksVariation c1 c2 c3 idx w = w := by
    intro w hw
    cases c1 <;> cases c2 <;> cases c3 <;>
      simp [allBlocksVariation, stanceVariation_of_settled _ _ hw,
        rollingVariation_of_settled _ _ hw, kickVariation_of_settled _ _ hw]
  cases c3 with
  | true =>
    exact hfix _ (by simp only [allBlocksVariation, if_true]; exact kickVariation_settled _ _)
  | false =>
    cases c2 with
    | true =>
      exact hfix _ (by
        simp only [allBlocksVariation, if_true, Bool.false_eq_true, if_false]
        exact rollingVariation_settled _ _)
    | false =>
      cases c1 with
      | true =>
        exact hfix _ (by
          simp only [allBlocksVariation, if_true, Bool.false_eq_true, if_false]
          exact stanceVariation_settled _ _)
      | false => simp [allBlocksVariation]

theorem mapIdxFrom_comp {α : Type} (f g : Nat → α → α) (k : Nat) (xs : List α) :
    mapIdxFrom f k (mapIdxFrom g k xs) = mapIdxFrom (fun i x => f i (g i x)) k xs := by
  induction xs generalizing k with
  | nil => rfl
  | cons x rest ih => simp [mapIdxFrom, ih]

theorem mapIdxFrom_id {α : Type} (k : Nat) (xs : List α) :
    mapIdxFrom (fun _ x => x) k xs = xs := by
  induction xs generalizing k with
  | nil => rfl
  | cons x rest ih => simp [mapIdxFrom, ih]

/-- The three blocks in one step: they rewrite `properties` and each variation, and
nothing else. -/
theorem allBlocks_eq (m : Move) :
    kickBlock (rollingBlock (stanceBlock m)) =
      { m with
        properties := allBlocksProperties m
        variations := m.variations.map (mapIdxFrom
          (allBlocksVariation (m.input == some "214*" || m.moveName == some "Zzz~")
            (m.input == some "41236*" || m.moveName == some "Rolling~")
            (m.input == some "623*" || m.moveName == some "Nayu-chan Kick")) 0) } := by
  obtain ⟨moveName, name, input, image, currentImage, damage, framedata, properties,
    variations, followUps, parentMove, data, versionNotes, notes⟩ := m
  have hfun : ∀ c1 c2 c3 : Bool, allBlocksVariation c1 c2 c3 = fun idx v =>
      if c3 then kickVariation idx
        (if c2 then rollingVariation idx (if c1 then stanceVariation idx v else v)
         else if c1 then stanceVariation idx v else v)
      else if c2 then rollingVariation idx (if c1 then stanceVariation idx v else v)
      else if c1 then stanceVariation idx v else v := fun _ _ _ => rfl
  cases h1 : (input == some "214*" || moveName == some "Zzz~") <;>
  cases h2 : (input == some "41236*" || moveName == some "Rolling~") <;>
  cases h3 : (input == some "623*" || moveName == some "Nayu-chan Kick") <;>
  cases variations <;>
  rcases properties with _ | _ | ⟨p, ps⟩ <;>
  simp [kickBlock, rollingBlock, stanceBlock, forEachVariation, allBlocksProperties,
    hfun, h1, h2, h3, mapIdxFrom_comp, mapIdxFrom_id]

theorem mapIdxFrom_allBlocks_idem (c1 c2 c3 : Bool) (vs : List Variation) :
    mapIdxFrom (allBlocksVariation c1 c2 c3) 0 (mapIdxFrom (allBlocksVariation c1 c2 c3) 0 vs) =
      mapIdxFrom (allBlocksVariation c1 c2 c3) 0 vs := by
  rw [mapIdxFrom_comp]
  congr 1
  funext idx v
  exact allBlocksVariation_idem c1 c2 c3 idx v

theorem allBlocks_idem (m : Move) :
    kickBlock (rollingBlock (stanceBlock (kickBlock (rollingBlock (stanceBlock m))))) =
      kickBlock (rollingBlock (stanceBlock m)) := by
  rw [allBlocks_eq m, allBlocks_eq]
  obtain ⟨moveName, name, input, image, currentImage, damage, framedata, properties,
    variations, followUps, parentMove, data, versionNotes, notes⟩ := m
  simp only [Move.mk.injEq, true_and, and_true]
  constructor
  · cases h1 : (input == some "214*" || moveName == some "Zzz~") <;>
      rcases properties with _ | _ | ⟨p, ps⟩ <;>
      simp [allBlocksProperties, h1, stanceProperties]
  · cases variations with
    | none => rfl
    | some vs => simp [mapIdxFrom_allBlocks_idem]

/-- C4. `preprocessMove` is idempotent: applying it a second time with the same character
name returns the move the first application returned, equal in every field. -/
theorem preprocessMove_idempotent (move : Option Move) (n : String) :
    preprocessMove (preprocessMove move n) n = preprocessMove move n := by
  cases move with
  | none => rfl
  | some m =>
    by_cases hn : (n == "Nayuki Minase (asleep)") = true
    · simp only [preprocessMove, hn, if_true, allBlocks_idem]
    · simp only [preprocessMove, hn, if_false, Bool.false_eq_true]

/-- The preprocessing at work on `stanceMove`: the description is replaced and the two
variations are named `214*~A` and `214*~B`. -/
theorem preprocessMove_stanceMove :
    preprocessMove (some stanceMove) "Nayuki Minase (asleep)" =
      some { stanceMove with
             properties := some stanceProperties
             variations := some [{ version := some "214*~A", notes := some "Short note." },
                                 { version := some "214*~B", damage := some "300" }] } := by
  decide

/-! ## C5: one variation per data row -/

theorem get?_enum_map {α β : Type} (f : Nat × α → β) (xs : List α) (i : Nat) :
    (xs.enum.map f).get? i = (xs.get? i).map (fun x => f (i, x)) := by
  simp [List.get?_eq_getElem?, List.getElem?_map, List.getElem?_enum]
  cases xs[i]? <;> rfl

/-- C5. A move whose data table yielded `n >= 2` rows is written with exactly `n`
variations, in row order; variation `i` has the `Damage` of row `i` (or the empty string)
and the `Version` of row `i` when that is not empty, otherwise `A`, `B`, `C` for
`i = 0, 1, 2` and `Version i+1` after that. -/
theorem botFormatMove_variations_of_rows (move : RawMove) (h : 2 ≤ move.data.length) :
    ∃ variations, (botFormatMove move).variations = some variations ∧
      variations.length = move.data.length ∧
      ∀ (i : Nat) (row : Row), move.data.get? i = some row →
        ∃ v, variations.get? i = some v ∧
          v.damage = some (match lookup "Damage" row with
                           | some d => d
                           | none => "") ∧
          v.version = some (match lookup "Version" row with
                            | some x =>
                              if x ≠ "" then x
                              else if i = 0 then "A" else if i = 1 then "B"
                              else if i = 2 then "C"
                              else "Version " ++ numberToString (i + 1)
                            | none =>
                              if i = 0 then "A" else if i = 1 then "B"
                              else if i = 2 then "C"
                              else "Version " ++ numberToString (i + 1)) := by
  have hcount : move.data.length > 1 := h
  have hvars : moveVariations move = move.data.enum.map (fun p => rowVariation move p.1 p.2) := by
    simp [moveVariations, hcount]
  have hlen : (moveVariations move).length = move.data.length := by
    rw [hvars]; simp
  refine ⟨moveVariations move, ?_, hlen, ?_⟩
  · have hpos : (moveVariations move).length > 0 := by omega
    simp [botFormatMove, hpos]
  · intro i row hrow
    refine ⟨rowVariation move i row, ?_, rfl, ?_⟩
    · rw [hvars, get?_enum_map, hrow]; rfl
    · simp only [rowVariation, rowVersionLabel]
      cases hver : lookup "Version" row with
      | none =>
        simp only [truthy, Bool.false_eq_true, if_false]
        rcases i with _ | _ | _ | i <;> simp
      | some x =>
        by_cases hx : x = ""
        · simp only [truthy, hx, bne_self_eq_false, Bool.false_eq_true, if_false, ne_eq,
            not_true_eq_false]
          rcases i with _ | _ | _ | i <;> simp
        · simp [truthy, hx, orEmpty]

/-- C5 at the table of the specification: rows `A`/500 and `B`/700. -/
theorem botFormatMove_variations_of_rows_witness :
    ∃ variations,
      (botFormatMove { name := "Example Move",
                       data := [[("Version", "A"), ("Damage", "500")],
                                [("Version", "B"), ("Damage", "700")]] }).variations =
        some variations ∧
      variations.length = 2 ∧
      ∀ (i : Nat) (row : Row),
        [[("Version", "A"), ("Damage", "500")], [("Version", "B"), ("Damage", "700")]].get? i =
          some row →
        ∃ v, variations.get? i = some v ∧
          v.damage = some (match lookup "Damage" row with
                           | some d => d
                           | none => "") ∧
          v.version = some (match lookup "Version" row with
                            | some x =>
                              if x ≠ "" then x
                              else if i = 0 then "A" else if i = 1 then "B"
                              else if i = 2 then "C"
                              else "Version " ++ numberToString (i + 1)
                            | none =>
                              if i = 0 then "A" else if i = 1 then "B"
                              else if i = 2 then "C"
                              else "Version " ++ numberToString (i + 1)) :=
  botFormatMove_variations_of_rows
    { name := "Example Move",
      data := [[("Version", "A"), ("Damage", "500")], [("Version", "B"), ("Damage", "700")]] }
    (by decide)

/-! ## C6: the note classifier -/

theorem char_eq_of_toNat (c d : Char) (h : c.toNat = d.toNat) : c = d := by
  apply Char.ext
  apply UInt32.ext
  exact h

theorem toLower_eq_a (c : Char) (h : c.toLower = 'a') : c = 'A' ∨ c = 'a' := by
  unfold Char.toLower at h
  by_cases hr : c.toNat ≥ 65 ∧ c.toNat ≤ 90
  · simp only [hr, and_self, if_true] at h
    left
    apply char_eq_of_toNat
    obtain ⟨h1, h2⟩ := hr
    generalize c.toNat = n at *
    interval_cases n <;> first | rfl | (exfalso; revert h; decide)
  · simp only [hr, if_false] at h
    right; exact h

theorem toLower_eq_b (c : Char) (h : c.toLower = 'b') : c = 'B' ∨ c = 'b' := by
  unfold Char.toLower at h
  by_cases hr : c.toNat ≥ 65 ∧ c.toNat ≤ 90
  · simp only [hr, and_self, if_true] at h
    left
    apply char_eq_of_toNat
    obtain ⟨h1, h2⟩ := hr
    generalize c.toNat = n at *
    interval_cases n <;> first | rfl | (exfalso; revert h; decide)
  · simp only [hr, if_false] at h
    right; exact h

theorem toLower_eq_c (c : Char) (h : c.toLower = 'c') : c = 'C' ∨ c = 'c' := by
  unfold Char.toLower at h
  by_cases hr : c.toNat ≥ 65 ∧ c.toNat ≤ 90
  · simp only [hr, and_self, if_true] at h
    left
    apply char_eq_of_toNat
    obtain ⟨h1, h2⟩ := hr
    generalize c.toNat = n at *
    interval_cases n <;> first | rfl | (exfalso; revert h; decide)
  · simp only [hr, if_false] at h
    right; exact h

theorem toLower_eq_v (c : Char) (h : c.toLower = 'v') : c = 'V' ∨ c = 'v' := by
  unfold Char.toLower at h
  by_cases hr : c.toNat ≥ 65 ∧ c.toNat ≤ 90
  · simp only [hr, and_self, if_true] at h
    left
    apply char_eq_of_toNat
    obtain ⟨h1, h2⟩ := hr
    generalize c.toNat = n at *
    interval_cases n <;> first | rfl | (exfalso; revert h; decide)
  · simp only [hr, if_false] at h
    right; exact h

theorem toLower_eq_colon (c : Char) (h : c.toLower = ':') : c = ':' := by
  unfold Char.toLower at h
  by_cases hr : c.toNat ≥ 65 ∧ c.toNat ≤ 90
  · simp only [hr, and_self, if_true] at h
    exfalso
    obtain ⟨h1, h2⟩ := hr
    generalize c.toNat = n at *
    interval_cases n <;> (revert h; decide)
  · simp only [hr, if_false] at h
    exact h

theorem classifyNote_eq (acc : Classified) (note : String) :
    classifyNote acc note =
      match filing note with
      | some (version, text) =>
        { acc with versionNotes := pushUnder version text acc.versionNotes }
      | none => { acc with generalNotes := acc.generalNotes ++ [note] } := by
  unfold classifyNote filing
  cases versionMatch note <;> rfl

/-- The first character of a note decides which alternatives can match: it is one of
the eight letters below, or no alternative matches. -/
theorem first_char_cases (c : Char) :
    (c = 'A' ∨ c = 'a' ∨ c = 'B' ∨ c = 'b' ∨ c = 'C' ∨ c = 'c' ∨ c = 'V' ∨ c = 'v') ∨
    (c.toLower ≠ 'a' ∧ c.toLower ≠ 'b' ∧ c.toLower ≠ 'c' ∧ c.toLower ≠ 'v') := by
  by_cases ha : c.toLower = 'a'
  · rcases toLower_eq_a c ha with h | h <;> simp [h]
  by_cases hb : c.toLower = 'b'
  · rcases toLower_eq_b c hb with h | h <;> simp [h]
  by_cases hc : c.toLower = 'c'
  · rcases toLower_eq_c c hc with h | h <;> simp [h]
  by_cases hv : c.toLower = 'v'
  · rcases toLower_eq_v c hv with h | h <;> simp [h]
  exact Or.inr ⟨ha, hb, hc, hv⟩

theorem startsWithCI_cons (c p : Char) (rest ps : List Char) :
    startsWithCI (c :: rest) (p :: ps) =
      (c.toLower == p.toLower && startsWithCI rest ps) := by
  simp [startsWithCI, startsWithL]

theorem startsWithCI_nil_left (p : Char) (ps : List Char) :
    startsWithCI [] (p :: ps) = false := by
  simp [startsWithCI, startsWithL]

theorem versionMatch_some (note m : String) (h : versionMatch note = some m) :
    ∃ mark ∈ versionMarks, startsWithCI note.data mark.data = true ∧
      m = String.mk (note.data.take mark.length) := by
  unfold versionMatch at h
  cases hf : versionMarks.find? (fun mark => startsWithCI note.data mark.data) with
  | none => simp [hf] at h
  | some mark =>
    rw [hf] at h
    simp only [Option.map_some', Option.some.injEq] at h
    exact ⟨mark, List.mem_of_find?_eq_some hf, by simpa using List.find?_some hf, h.symm⟩

/-- A filed note starts with the letter of the alternative that matched, and its label
is that first character in upper case. -/
theorem filing_some (note k t : String) (h : filing note = some (k, t)) :
    ∃ c rest mark, note.data = c :: rest ∧ mark ∈ versionMarks ∧
      startsWithCI (c :: rest) mark.data = true ∧ k = String.mk [c.toUpper] := by
  unfold filing at h
  cases hv : versionMatch note with
  | none => simp [hv] at h
  | some m =>
    rw [hv] at h
    simp only [Option.map_some', Option.some.injEq, Prod.mk.injEq] at h
    obtain ⟨mark, hmem, hstart, hm⟩ := versionMatch_some note m hv
    have hlen : 2 ≤ mark.length := by
      simp only [versionMarks, List.mem_cons, List.mem_singleton, List.not_mem_nil,
        or_false] at hmem
      rcases hmem with rfl | rfl | rfl | rfl | rfl | rfl <;> decide
    cases hd : note.data with
    | nil =>
      rw [hd] at hstart
      simp only [versionMarks, List.mem_cons, List.mem_singleton, List.not_mem_nil,
        or_false] at hmem
      rcases hmem with rfl | rfl | rfl | rfl | rfl | rfl <;> simp [startsWithCI, startsWithL] at hstart
    | cons c rest =>
      refine ⟨c, rest, mark, rfl, hmem, hd ▸ hstart, ?_⟩
      rw [← h.1, hm, hd]
      obtain ⟨n, hn⟩ : ∃ n, mark.length = n + 1 := ⟨mark.length - 1, by omega⟩
      simp [toUpperCase, hn]

/-- A note that starts with `L:` or its lower-case form is filed under `L`, stripped of
these two characters and trimmed. -/
theorem filing_of_letterMark (L : Char) (hL : L = 'A' ∨ L = 'B' ∨ L = 'C') (note : String)
    (h : startsWithLetterMark L note = true) :
    filing note = some (String.mk [L], trim (String.mk (note.data.drop 2))) := by
  obtain ⟨data⟩ := note
  unfold startsWithLetterMark at h
  rcases data with _ | ⟨c, _ | ⟨d, rest⟩⟩
  · simp at h
  · simp at h
  · by_cases hd : d = ':'
    · subst hd
      simp only [Bool.or_eq_true, beq_iff_eq] at h
      have h2 : ∀ (x y : Char) (tail : List Char), (String.mk [x, y]).length ⊓
          (tail.length + 1 + 1) = 2 := by
        intro x y tail
        show min 2 (tail.length + 1 + 1) = 2
        omega
      rcases hL with rfl | rfl | rfl <;> rcases h with rfl | rfl <;>
        simp [filing, versionMatch, versionMarks, startsWithCI, startsWithL, List.find?,
          removeVersionMark, toUpperCase, show "A:".length = 2 from rfl,
          show "B:".length = 2 from rfl, show "C:".length = 2 from rfl] <;>
        rfl
    · simp [hd] at h

/-- A note is filed under `L` only if it starts with `L:` or its lower-case form. -/
theorem letterMark_of_filing (L : Char) (hL : L = 'A' ∨ L = 'B' ∨ L = 'C') (note t : String)
    (h : filing note = some (String.mk [L], t)) : startsWithLetterMark L note = true := by
  obtain ⟨c, rest, mark, hdata, hmem, hstart, hk⟩ := filing_some note _ t h
  have hc : c.toUpper = L := by
    have := congrArg String.data hk
    simp only [List.cons.injEq, and_true] at this
    exact this.symm
  simp only [versionMarks, List.mem_cons, List.mem_singleton, List.not_mem_nil,
    or_false] at hmem
  unfold startsWithLetterMark
  rw [hdata]
  rcases rest with _ | ⟨d, rest1⟩
  · rcases hmem with rfl | rfl | rfl | rfl | rfl | rfl <;>
      simp [startsWithCI, startsWithL] at hstart
  · have key : ∀ (p : Char) (ps : List Char),
        startsWithCI (c :: d :: rest1) (p :: ':' :: ps) = true →
        c.toLower = p.toLower ∧ d = ':' := by
      intro p ps hp
      rw [startsWithCI_cons, startsWithCI_cons] at hp
      simp only [Bool.and_eq_true, beq_iff_eq] at hp
      exact ⟨hp.1, toLower_eq_colon d hp.2.1⟩
    have hv : ∀ (ps : List Char), startsWithCI (c :: d :: rest1) ('V' :: ps) = true →
        c.toUpper = 'V' := by
      intro ps hp
      rw [startsWithCI_cons] at hp
      simp only [Bool.and_eq_true, beq_iff_eq] at hp
      rcases toLower_eq_v c hp.1 with rfl | rfl <;> rfl
    rcases hmem with rfl | rfl | rfl | rfl | rfl | rfl
    · obtain ⟨h1, rfl⟩ := key 'A' [] hstart
      rcases toLower_eq_a c h1 with rfl | rfl <;> rcases hL with rfl | rfl | rfl <;>
        first | rfl | (exfalso; revert hc; decide)
    · obtain ⟨h1, rfl⟩ := key 'B' [] hstart
      rcases toLower_eq_b c h1 with rfl | rfl <;> rcases hL with rfl | rfl | rfl <;>
        first | rfl | (exfalso; revert hc; decide)
    · obtain ⟨h1, rfl⟩ := key 'C' [] hstart
      rcases toLower_eq_c c h1 with rfl | rfl <;> rcases hL with rfl | rfl | rfl <;>
        first | rfl | (exfalso; revert hc; decide)
    · have := hv _ hstart
      rw [this] at hc
      rcases hL with rfl | rfl | rfl <;> (exfalso; revert hc; decide)
    · have := hv _ hstart
      rw [this] at hc
      rcases hL with rfl | rfl | rfl <;> (exfalso; revert hc; decide)
    · have := hv _ hstart
      rw [this] at hc
      rcases hL with rfl | rfl | rfl <;> (exfalso; revert hc; decide)

theorem notesUnder_cons (k key : String) (notes : List String)
    (rest : List (String × List String)) :
    notesUnder k ((key, notes) :: rest) = if key = k then some notes else notesUnder k rest := by
  unfold notesUnder
  rw [List.find?_cons]
  by_cases h : key = k
  · simp [h]
  · simp [h, beq_eq_false_iff_ne.mpr h]

theorem notesUnder_pushUnder (k version text : String)
    (vn : List (String × List String)) :
    (notesUnder k (pushUnder version text vn)).getD [] =
      (notesUnder k vn).getD [] ++ (if version = k then [text] else []) := by
  induction vn with
  | nil =>
    rw [pushUnder, notesUnder_cons]
    by_cases h : version = k <;> simp [notesUnder, h]
  | cons kv rest ih =>
    obtain ⟨key, notes⟩ := kv
    by_cases hkv : key = version
    · subst hkv
      simp only [pushUnder, beq_self_eq_true, if_true, notesUnder_cons]
      by_cases hk : key = k <;> simp [hk]
    · simp only [pushUnder, beq_iff_eq, hkv, if_false, notesUnder_cons]
      by_cases hk : key = k
      · have hne : ¬ version = k := fun h => hkv (hk.trans h.symm)
        simp [hk, hne]
      · simp only [hk, if_false]
        exact ih

theorem filedCount_pushUnder (version text : String) (vn : List (String × List String)) :
    filedCount (pushUnder version text vn) = filedCount vn + 1 := by
  induction vn with
  | nil => simp [pushUnder, filedCount]
  | cons kv rest ih =>
    obtain ⟨key, notes⟩ := kv
    unfold filedCount at ih
    by_cases hkv : key = version
    · simp [pushUnder, filedCount, hkv]; omega
    · simp only [pushUnder, beq_iff_eq, hkv, if_false, filedCount, List.map_cons,
        List.sum_cons, ih]
      omega

theorem foldl_classifyNote (allNotes : List String) (acc : Classified) :
    (∀ k, (notesUnder k (allNotes.foldl classifyNote acc).versionNotes).getD [] =
        (notesUnder k acc.versionNotes).getD [] ++
          allNotes.filterMap (fun note =>
            match filing note with
            | some (version, text) => if version = k then some text else none
            | none => none)) ∧
    (allNotes.foldl classifyNote acc).generalNotes =
      acc.generalNotes ++ allNotes.filter (fun note => (filing note).isNone) ∧
    filedCount (allNotes.foldl classifyNote acc).versionNotes =
      filedCount acc.versionNotes + (allNotes.filter (fun note => (filing note).isSome)).length := by
  induction allNotes generalizing acc with
  | nil => simp
  | cons note rest ih =>
    obtain ⟨ih1, ih2, ih3⟩ := ih (classifyNote acc note)
    rw [List.foldl_cons]
    refine ⟨fun k => ?_, ?_, ?_⟩
    · rw [ih1 k, classifyNote_eq]
      cases hf : filing note with
      | none => simp [List.filterMap_cons, hf]
      | some kt =>
        obtain ⟨version, text⟩ := kt
        by_cases hk : version = k <;>
          simp [List.filterMap_cons, hf, notesUnder_pushUnder, hk]
    · rw [ih2, classifyNote_eq]
      cases hf : filing note with
      | none => simp [List.filter_cons, hf]
      | some kt => simp [List.filter_cons, hf]
    · rw [ih3, classifyNote_eq]
      cases hf : filing note with
      | none => simp [List.filter_cons, hf]
      | some kt => simp [List.filter_cons, hf, filedCount_pushUnder]; omega

theorem filing_isNone (note : String) : (filing note).isNone = (versionMatch note).isNone := by
  unfold filing
  cases versionMatch note <;> rfl

theorem filing_isSome (note : String) : (filing note).isSome = (versionMatch note).isSome := by
  unfold filing
  cases versionMatch note <;> rfl

theorem mem_foldl_newSet (notes set : List String) (x : String) :
    x ∈ notes.foldl (fun set note => if set.contains note then set else set ++ [note]) set ↔
      x ∈ set ∨ x ∈ notes := by
  induction notes generalizing set with
  | nil => simp
  | cons n rest ih =>
    rw [List.foldl_cons, ih]
    by_cases hc : set.contains n = true
    · have hn : n ∈ set := by simpa using hc
      simp only [hc, if_true, List.mem_cons]
      constructor
      · rintro (h | h)
        · exact Or.inl h
        · exact Or.inr (Or.inr h)
      · rintro (h | h | h)
        · exact Or.inl h
        · exact Or.inl (h ▸ hn)
        · exact Or.inr h
    · simp only [hc, Bool.false_eq_true, if_false, List.mem_append, List.mem_singleton,
        List.mem_cons, List.not_mem_nil, or_false]
      constructor
      · rintro ((h | h) | h)
        · exact Or.inl h
        · exact Or.inr (Or.inl h)
        · exact Or.inr (Or.inr h)
      · rintro (h | h | h)
        · exact Or.inl (Or.inl h)
        · exact Or.inl (Or.inr h)
        · exact Or.inr h

theorem mem_newSet (notes : List String) (x : String) : x ∈ newSet notes ↔ x ∈ notes := by
  unfold newSet
  rw [mem_foldl_newSet]
  simp

theorem length_pos_iff_ne_empty (c : String) : c.length > 0 ↔ c ≠ "" := by
  obtain ⟨data⟩ := c
  cases data with
  | nil => simp
  | cons x xs =>
    constructor
    · intro _ h
      exact absurd (congrArg String.data h) (by simp)
    · intro _
      show (x :: xs).length > 0
      simp

/-- C6. For every list of raw notes and every label `L` among `A`, `B`, `C`: the texts
filed under `L` are exactly the notes that start with `L:` in either letter case, in
order, with these two characters removed and the rest trimmed; the general notes of the
classifier are exactly the notes with no version mark, so a marked note is kept out of
them; every text filed under a label comes from a marked note, so an unmarked note is
filed under no label; and the general notes the function returns are exactly the
non-empty cleaned forms of the unmarked notes. -/
theorem classifyNotes_files_by_mark (allNotes : List String) :
    (∀ L, L = 'A' ∨ L = 'B' ∨ L = 'C' →
      (notesUnder (String.mk [L]) (classifyNotes allNotes).versionNotes).getD [] =
        (allNotes.filter (startsWithLetterMark L)).map
          (fun note => trim (String.mk (note.data.drop 2)))) ∧
    (classifyNotes allNotes).generalNotes =
      allNotes.filter (fun note => (versionMatch note).isNone) ∧
    (∀ L, L = 'A' ∨ L = 'B' ∨ L = 'C' → ∀ note, startsWithLetterMark L note = true →
      note ∉ (classifyNotes allNotes).generalNotes) ∧
    filedCount (classifyNotes allNotes).versionNotes =
      (allNotes.filter (fun note => (versionMatch note).isSome)).length ∧
    (extractVersionNotes allNotes).versionNotes = (classifyNotes allNotes).versionNotes ∧
    (∀ c, c ∈ (extractVersionNotes allNotes).cleanedNotes ↔
      c ≠ "" ∧ ∃ note ∈ allNotes, versionMatch note = none ∧
        c = trim (collapseSpaces note)) := by
  obtain ⟨h1, h2, h3⟩ := foldl_classifyNote allNotes {}
  have hgen : (classifyNotes allNotes).generalNotes =
      allNotes.filter (fun note => (versionMatch note).isNone) := by
    unfold classifyNotes
    rw [h2]
    simp [filing_isNone]
  refine ⟨fun L hL => ?_, hgen, fun L hL note hmark hmem => ?_, ?_, rfl, fun c => ?_⟩
  · unfold classifyNotes
    rw [h1]
    simp only [notesUnder, List.find?_nil, Option.map_none', Option.getD_none, List.nil_append]
    clear h1 h2 h3 hgen
    induction allNotes with
    | nil => rfl
    | cons note rest ih =>
      rw [List.filterMap_cons, List.filter_cons]
      by_cases hm : startsWithLetterMark L note = true
      · rw [filing_of_letterMark L hL note hm]
        simp [hm, ih]
      · have hnone : (match filing note with
            | some (version, text) => if version = String.mk [L] then some text else none
            | none => none) = none := by
          cases hf : filing note with
          | none => rfl
          | some kt =>
            obtain ⟨version, text⟩ := kt
            by_cases hv : version = String.mk [L]
            · subst hv
              exact absurd (letterMark_of_filing L hL note text hf) hm
            · simp [hv]
        rw [hnone]
        simp [hm, ih]
  · rw [hgen, List.mem_filter] at hmem
    have := filing_of_letterMark L hL note hmark
    rw [← filing_isNone, this] at hmem
    simp at hmem
  · unfold classifyNotes
    rw [h3]
    simp [filedCount, filing_isSome]
  · simp only [extractVersionNotes, List.mem_filter, List.mem_map, mem_newSet, hgen,
      decide_eq_true_eq, length_pos_iff_ne_empty, Option.isNone_iff_eq_none]
    constructor
    · rintro ⟨⟨note, ⟨hmem, hnone⟩, rfl⟩, hne⟩
      exact ⟨hne, note, hmem, hnone, rfl⟩
    · rintro ⟨hne, note, hmem, hnone, rfl⟩
      exact ⟨⟨note, ⟨hmem, hnone⟩, rfl⟩, hne⟩

/-- C6 on the notes of the specification: `A: causes knockdown` is filed under `A` as
`causes knockdown`, and `General info` is the only general note. -/
theorem classifyNotes_files_by_mark_witness :
    (notesUnder "A" (classifyNotes ["A: causes knockdown", "General info"]).versionNotes).getD [] =
      ["causes knockdown"] ∧
    (classifyNotes ["A: causes knockdown", "General info"]).generalNotes = ["General info"] :=
  ⟨((classifyNotes_files_by_mark ["A: causes knockdown", "General info"]).1 'A'
      (Or.inl rfl)).trans (by decide),
   (classifyNotes_files_by_mark ["A: causes knockdown", "General info"]).2.1.trans (by decide)⟩

/-! ## C7: follow-up tables attach their rows to the parent -/

theorem grows_refl (g : MoveGraph) : Grows g g :=
  ⟨rfl, fun _ node h => ⟨[], by simpa using h⟩⟩

theorem grows_trans {g g1 g2 : MoveGraph} (h1 : Grows g g1) (h2 : Grows g1 g2) :
    Grows g g2 := by
  refine ⟨h2.1.trans h1.1, fun i node hi => ?_⟩
  obtain ⟨e1, he1⟩ := h1.2 i node hi
  obtain ⟨e2, he2⟩ := h2.2 i _ he1
  exact ⟨e1 ++ e2, by simpa [List.append_assoc] using he2⟩

theorem grows_length_le {g g1 : MoveGraph} (h : Grows g g1) :
    g.nodes.length ≤ g1.nodes.length := by
  by_contra hlt
  have hpos : g1.nodes.length < g.nodes.length := Nat.lt_of_not_le hlt
  obtain ⟨node, hnode⟩ : ∃ node, g.nodes.get? g1.nodes.length = some node := by
    rw [List.get?_eq_get hpos]; exact ⟨_, rfl⟩
  obtain ⟨extra, he⟩ := h.2 _ node hnode
  rw [List.get?_eq_none.mpr (Nat.le_refl _)] at he
  exact absurd he (by simp)

theorem attaches_refl (g : MoveGraph) : Attaches g g := by
  refine ⟨grows_refl g, fun i node hi hnode => ?_⟩
  rw [List.get?_eq_none.mpr hi] at hnode
  exact absurd hnode (by simp)

theorem attaches_trans {g g1 g2 : MoveGraph} (h1 : Attaches g g1) (h2 : Attaches g1 g2) :
    Attaches g g2 := by
  refine ⟨grows_trans h1.1 h2.1, fun i node hi hnode => ?_⟩
  by_cases hlt : g1.nodes.length ≤ i
  · exact h2.2 i node hlt hnode
  · have hi1 : i < g1.nodes.length := Nat.lt_of_not_le hlt
    obtain ⟨n1, hn1⟩ : ∃ n1, g1.nodes.get? i = some n1 := by
      rw [List.get?_eq_get hi1]; exact ⟨_, rfl⟩
    obtain ⟨q, pn, hq, hpn, hmem⟩ := h1.2 i n1 hi hn1
    obtain ⟨e, he⟩ := h2.1.2 i n1 hn1
    obtain ⟨e1, he1⟩ := h2.1.2 q pn hpn
    rw [hnode] at he
    have hnode_eq := Option.some.inj he
    refine ⟨q, _, ?_, he1, ?_⟩
    · rw [hnode_eq]; exact hq
    · exact List.mem_append_left _ hmem

theorem length_updateAt {α : Type} (f : α → α) (k : Nat) (xs : List α) :
    (updateAt f k xs).length = xs.length := by
  induction xs generalizing k with
  | nil => simp [updateAt]
  | cons x rest ih => cases k <;> simp [updateAt, ih]

theorem get?_updateAt {α : Type} (f : α → α) (k : Nat) (xs : List α) (i : Nat) :
    (updateAt f k xs).get? i = if i = k then (xs.get? i).map f else xs.get? i := by
  simp only [List.get?_eq_getElem?]
  induction xs generalizing k i with
  | nil => simp [updateAt]
  | cons x rest ih =>
    cases k with
    | zero => cases i <;> simp [updateAt]
    | succ k => cases i <;> simp [updateAt, ih]

theorem pushFollowUp_nodes (g : MoveGraph) (p : Nat) (node : MoveNode) :
    (g.pushFollowUp p node).nodes =
      updateAt (fun x => { x with followUps := x.followUps ++ [g.nodes.length] }) p g.nodes ++
        [node] := rfl

theorem pushFollowUp_length (g : MoveGraph) (p : Nat) (node : MoveNode) :
    (g.pushFollowUp p node).nodes.length = g.nodes.length + 1 := by
  simp [pushFollowUp_nodes, length_updateAt]

theorem pushFollowUp_get?_new (g : MoveGraph) (p : Nat) (node : MoveNode) :
    (g.pushFollowUp p node).nodes.get? g.nodes.length = some node := by
  rw [pushFollowUp_nodes, List.get?_eq_getElem?,
    List.getElem?_append_right (by simp [length_updateAt])]
  simp [length_updateAt]

theorem pushFollowUp_get?_old (g : MoveGraph) (p : Nat) (node : MoveNode) (i : Nat)
    (x : MoveNode) (hx : g.nodes.get? i = some x) :
    (g.pushFollowUp p node).nodes.get? i =
      some { x with followUps := x.followUps ++ (if i = p then [g.nodes.length] else []) } := by
  have hi : i < g.nodes.length := by
    by_contra h
    rw [List.get?_eq_none.mpr (Nat.le_of_not_lt h)] at hx
    exact absurd hx (by simp)
  rw [pushFollowUp_nodes, List.get?_eq_getElem?,
    List.getElem?_append_left (by simpa [length_updateAt] using hi),
    ← List.get?_eq_getElem?, get?_updateAt, hx]
  by_cases hip : i = p <;> simp [hip]

/-- Pushing a new follow-up whose `parentMove` is an existing move attaches it. -/
theorem pushFollowUp_attaches (g : MoveGraph) (p : Nat) (node : MoveNode)
    (hp : p < g.nodes.length) (hnode : node.parentMove = some p) :
    Attaches g (g.pushFollowUp p node) := by
  refine ⟨⟨rfl, fun i x hx => ⟨_, pushFollowUp_get?_old g p node i x hx⟩⟩, ?_⟩
  intro i x hi hx
  have hlen := pushFollowUp_length g p node
  have hilt : i < g.nodes.length + 1 := by
    by_contra h
    rw [List.get?_eq_none.mpr (by omega)] at hx
    exact absurd hx (by simp)
  have hieq : i = g.nodes.length := by omega
  subst hieq
  rw [pushFollowUp_get?_new] at hx
  have hxn := Option.some.inj hx
  obtain ⟨pn, hpn⟩ : ∃ pn, g.nodes.get? p = some pn := by
    rw [List.get?_eq_get hp]; exact ⟨_, rfl⟩
  refine ⟨p, _, hxn ▸ hnode, pushFollowUp_get?_old g p node p pn hpn, ?_⟩
  simp

theorem forEachO_attaches {α : Type} (step : MoveGraph → α → Option MoveGraph)
    (Inv : MoveGraph → Prop) (hinv : ∀ g g1, Inv g → Attaches g g1 → Inv g1) (xs : List α)
    (hstep : ∀ g g1 x, x ∈ xs → Inv g → step g x = some g1 → Attaches g g1) :
    ∀ g g1, Inv g → forEachO step xs g = some g1 → Attaches g g1 := by
  induction xs with
  | nil =>
    intro g g1 _ h
    simp only [forEachO, Option.some.injEq] at h
    exact h ▸ attaches_refl g
  | cons x rest ih =>
    intro g g1 hg h
    unfold forEachO at h
    cases hx : step g x with
    | none => simp [hx] at h
    | some g2 =>
      rw [hx] at h
      have h12 := hstep g g2 x (List.mem_cons_self _ _) hg hx
      exact attaches_trans h12 (ih (fun a b y hy => hstep a b y (List.mem_cons_of_mem _ hy))
        g2 g1 (hinv g g2 hg h12) h)

theorem valid_of_attaches (q : Nat) (g g1 : MoveGraph) (hq : q < g.nodes.length)
    (h : Attaches g g1) : q < g1.nodes.length :=
  Nat.lt_of_lt_of_le hq (grows_length_le h.1)

theorem relatedLoop_attaches (recur : Option Nat → Option Nat → MoveGraph → Option MoveGraph)
    (hrec : RecurAttaches recur) (name : String) (followUp : Nat) (page : Page)
    (g g1 : MoveGraph) (hf : followUp < g.nodes.length)
    (h : forEachO (relatedStep recur name followUp) page g = some g1) : Attaches g g1 := by
  refine forEachO_attaches _ (fun x => followUp < x.nodes.length)
    (fun a b => valid_of_attaches followUp a b) page ?_ g g1 hf h
  intro a b tbl _ ha hstep
  unfold relatedStep at hstep
  split at hstep
  · exact hrec _ _ _ _ ha hstep
  · simp only [Option.some.injEq] at hstep
    exact hstep ▸ attaches_refl a

theorem followUpMove_parent (row : FollowUpRow) (nextRow : Option FollowUpRow) (p : Nat) :
    (followUpMove row nextRow p).parentMove = some p := rfl

theorem rowStep_attaches (recur : Option Nat → Option Nat → MoveGraph → Option MoveGraph)
    (hrec : RecurAttaches recur) (page : Page) (t : PageTable) (p : Nat) (g g1 : MoveGraph)
    (ir : Nat × FollowUpRow) (hp : p < g.nodes.length)
    (h : rowStep recur page t p g ir = some g1) : Attaches g g1 := by
  unfold rowStep at h
  split at h
  · simp only [Option.some.injEq] at h
    exact h ▸ attaches_refl g
  · split at h
    · simp only [Option.some.injEq] at h
      exact h ▸ attaches_refl g
    · have hpush := pushFollowUp_attaches g p
        (followUpMove ir.2 (t.rows.get? (ir.1 + 1)) p) hp (followUpMove_parent _ _ _)
      exact attaches_trans hpush (relatedLoop_attaches recur hrec _ _ page _ g1
        (by rw [pushFollowUp_length]; exact Nat.lt_succ_self _) h)

theorem rowsLoop_attaches (recur : Option Nat → Option Nat → MoveGraph → Option MoveGraph)
    (hrec : RecurAttaches recur) (page : Page) (t : PageTable) (p : Nat)
    (rows : List (Nat × FollowUpRow)) (g g1 : MoveGraph) (hp : p < g.nodes.length)
    (h : forEachO (rowStep recur page t p) rows g = some g1) : Attaches g g1 :=
  forEachO_attaches _ (fun x => p < x.nodes.length) (fun a b => valid_of_attaches p a b) rows
    (fun a b ir _ ha hstep => rowStep_attaches recur hrec page t p a b ir ha hstep) g g1 hp h

/-- Whatever the depth bound, a call that returns has attached every move object it
created. -/
theorem processFollowUpTable_recurAttaches (depth : Nat) (page : Page) :
    RecurAttaches (processFollowUpTable depth page) := by
  induction depth with
  | zero =>
    intro tbl q g g1 _ h
    simp [processFollowUpTable] at h
  | succ d ih =>
    intro tbl q g g1 hq h
    unfold processFollowUpTable at h
    cases ht : tbl.bind page.get? with
    | none =>
      simp only [ht, Option.some.injEq] at h
      exact h ▸ attaches_refl g
    | some t =>
      simp only [ht] at h
      exact rowsLoop_attaches _ ih page t q _ g g1 hq h

/-- The follow-up built from a row is still in the graph after the rest of the loop, with
its data and its parent. -/
theorem rowsLoop_creates (recur : Option Nat → Option Nat → MoveGraph → Option MoveGraph)
    (hrec : RecurAttaches recur) (page : Page) (t : PageTable) (p : Nat)
    (rows : List (Nat × FollowUpRow)) :
    ∀ (g g1 : MoveGraph), p < g.nodes.length →
      forEachO (rowStep recur page t p) rows g = some g1 →
      ∀ ir ∈ rows, ir.2.tdCount ≠ 0 → followUpName ir.2 ≠ "" →
        ∃ i node, g.nodes.length ≤ i ∧ g1.nodes.get? i = some node ∧
          node.move = (followUpMove ir.2 (t.rows.get? (ir.1 + 1)) p).move ∧
          node.parentMove = some p := by
  induction rows with
  | nil => intro g g1 _ _ ir hir; exact absurd hir (List.not_mem_nil _)
  | cons x rest ih =>
    intro g g1 hp h ir hir htd hname
    unfold forEachO at h
    cases hx : rowStep recur page t p g x with
    | none => simp [hx] at h
    | some g2 =>
      rw [hx] at h
      have h12 := rowStep_attaches recur hrec page t p g g2 x hp hx
      have hp2 := valid_of_attaches p g g2 hp h12
      have h21 := rowsLoop_attaches recur hrec page t p rest g2 g1 hp2 h
      rcases List.mem_cons.mp hir with rfl | hir
      · have hx1 := hx
        unfold rowStep at hx1
        rw [if_neg (by simpa using htd), if_neg (by simpa using hname)] at hx1
        have hloop := relatedLoop_attaches recur hrec _ _ page _ g2
          (by rw [pushFollowUp_length]; exact Nat.lt_succ_self _) hx1
        obtain ⟨e1, he1⟩ := hloop.1.2 _ _ (pushFollowUp_get?_new g p _)
        obtain ⟨e2, he2⟩ := h21.1.2 _ _ he1
        exact ⟨g.nodes.length, _, Nat.le_refl _, he2, rfl, rfl⟩
      · obtain ⟨i, node, hi, hnode, hmove, hparent⟩ := ih g2 g1 hp2 h ir hir htd hname
        exact ⟨i, node, Nat.le_trans (grows_length_le h12.1) hi, hnode, hmove, hparent⟩

theorem processFollowUpTable_succ (depth : Nat) (page : Page) (table : Nat) (t : PageTable)
    (ht : page.get? table = some t) (p : Nat) (g : MoveGraph) :
    processFollowUpTable (depth + 1) page (some table) (some p) g =
      forEachO (rowStep (processFollowUpTable depth page) page t p) t.rows.enum g := by
  unfold processFollowUpTable
  rw [Option.some_bind, ht]

theorem relatedLoop_returns
    (recur : Option Nat → Option Nat → MoveGraph → Option MoveGraph) (name : String)
    (followUp : Nat) (tables : List PageTable)
    (h : ∀ otherTable ∈ tables, relatedTable name otherTable = true →
      ∀ g, ∃ g1, recur otherTable.next (some followUp) g = some g1)
    (g : MoveGraph) : ∃ g1, forEachO (relatedStep recur name followUp) tables g = some g1 := by
  induction tables generalizing g with
  | nil => exact ⟨g, rfl⟩
  | cons tbl rest ih =>
    have hx : ∃ g2, relatedStep recur name followUp g tbl = some g2 := by
      unfold relatedStep
      by_cases hr : relatedTable name tbl = true
      · rw [if_pos hr]
        exact h tbl (List.mem_cons_self _ _) hr g
      · rw [if_neg hr]
        exact ⟨g, rfl⟩
    obtain ⟨g2, hg2⟩ := hx
    obtain ⟨g1, hg1⟩ := ih (fun o ho => h o (List.mem_cons_of_mem _ ho)) g2
    exact ⟨g1, by simp only [forEachO, hg2, hg1]⟩

theorem rowsLoop_returns (recur : Option Nat → Option Nat → MoveGraph → Option MoveGraph)
    (page : Page) (t : PageTable) (p : Nat) (rows : List (Nat × FollowUpRow))
    (h : ∀ ir ∈ rows, ir.2.tdCount ≠ 0 → followUpName ir.2 ≠ "" →
      ∀ otherTable ∈ page, relatedTable (followUpName ir.2) otherTable = true →
        ∀ followUp g, ∃ g1, recur otherTable.next (some followUp) g = some g1)
    (g : MoveGraph) : ∃ g1, forEachO (rowStep recur page t p) rows g = some g1 := by
  induction rows generalizing g with
  | nil => exact ⟨g, rfl⟩
  | cons x rest ih =>
    have hx : ∃ g2, rowStep recur page t p g x = some g2 := by
      unfold rowStep
      by_cases htd : (x.2.tdCount == 0) = true
      · rw [if_pos htd]
        exact ⟨g, rfl⟩
      · rw [if_neg htd]
        by_cases hname : (followUpName x.2 == "") = true
        · rw [if_pos hname]
          exact ⟨g, rfl⟩
        · rw [if_neg hname]
          exact relatedLoop_returns recur _ _ page
            (fun o ho hr => h x (List.mem_cons_self _ _) (by simpa using htd)
              (by simpa using hname) o ho hr _) _
    obtain ⟨g2, hg2⟩ := hx
    obtain ⟨g1, hg1⟩ := ih (fun ir hir => h ir (List.mem_cons_of_mem _ hir)) g2
    exact ⟨g1, by simp only [forEachO, hg2, hg1]⟩

/-- On a ranked page the call returns as soon as the allowed depth exceeds the rank of
its table. -/
theorem processFollowUpTable_returns (page : Page) (rank : Nat → Nat)
    (hrank : RankedPage page rank) (depth : Nat) :
    ∀ (table parentMove : Option Nat) (g : MoveGraph), rankOf rank table < depth →
      ∃ g1, processFollowUpTable depth page table parentMove g = some g1 := by
  induction depth with
  | zero => intro table parentMove g h; exact absurd h (Nat.not_lt_zero _)
  | succ d ih =>
    intro table parentMove g hd
    cases table with
    | none => exact ⟨g, rfl⟩
    | some j =>
      cases ht : page.get? j with
      | none => exact ⟨g, by unfold processFollowUpTable; rw [Option.some_bind, ht]⟩
      | some t =>
        cases parentMove with
        | none => exact ⟨g, by unfold processFollowUpTable; rw [Option.some_bind, ht]⟩
        | some p =>
          rw [processFollowUpTable_succ d page j t ht]
          refine rowsLoop_returns _ page t p _ ?_ g
          intro ir hir htd hname other hother hrel followUp g2
          have hjt : (j, t) ∈ page.enum :=
            List.mk_mem_enum_iff_getElem?.mpr (by simpa using ht)
          have hlt := hrank (j, t) hjt ir.2 (mem_enum_snd _ _ hir) htd hname other hother hrel
          have hlt1 : rankOf rank other.next < rank j := hlt
          have hd1 : rank j < d + 1 := hd
          exact ih other.next (some followUp) g2 (by omega)

/-- The page `chainPage` runs down the ranks of `chainRank`. -/
theorem chainPage_ranked : RankedPage chainPage chainRank := by
  unfold RankedPage
  decide

/-- The follow-ups of a call that returns. Whatever the page and the allowed depth, a
call that returns leaves the section's top-level moves as they were, has given every
move object it created a `parentMove` and a place in the `followUps` of that parent, and
has built a follow-up of the call's parent from every row with cells and a name. -/
theorem processFollowUpTable_attached (page : Page) (table : Nat) (t : PageTable)
    (ht : page.get? table = some t) (p : Nat) (g : MoveGraph) (hp : p < g.nodes.length)
    (depth : Nat) (g1 : MoveGraph)
    (h : processFollowUpTable depth page (some table) (some p) g = some g1) :
    g1.sectionMoves = g.sectionMoves ∧
      (∀ i node, g.nodes.length ≤ i → g1.nodes.get? i = some node →
        ∃ q pn, node.parentMove = some q ∧ g1.nodes.get? q = some pn ∧ i ∈ pn.followUps) ∧
      (∀ k row, t.rows.get? k = some row → row.tdCount ≠ 0 → followUpName row ≠ "" →
        ∃ i node pn, g.nodes.length ≤ i ∧ g1.nodes.get? i = some node ∧
          node.move.name = followUpName row ∧
          node.move.input = some (followUpInput row) ∧
          (row.inputElement = none → node.move.input = some "") ∧
          node.parentMove = some p ∧ g1.nodes.get? p = some pn ∧ i ∈ pn.followUps) := by
  have hatt := processFollowUpTable_recurAttaches depth page (some table) p g g1 hp h
  refine ⟨hatt.1.1, hatt.2, ?_⟩
  intro k row hrow htd hname
  cases depth with
  | zero => simp [processFollowUpTable] at h
  | succ d =>
    rw [processFollowUpTable_succ d page table t ht] at h
    obtain ⟨i, node, hi, hnode, hmove, hparent⟩ :=
      rowsLoop_creates _ (processFollowUpTable_recurAttaches d page) page t p _ g g1 hp h
        (k, row) (List.mk_mem_enum_iff_getElem?.mpr (by simpa using hrow)) htd hname
    obtain ⟨q, pn, hq, hpn, hmem⟩ := hatt.2 i node hi hnode
    have hqp : q = p := by
      rw [hparent] at hq
      exact (Option.some.inj hq).symm
    subst hqp
    have hname1 : node.move.name = followUpName row := by rw [hmove]; rfl
    have hinput : node.move.input = some (followUpInput row) := by rw [hmove]; rfl
    refine ⟨i, node, pn, hi, hnode, hname1, hinput, ?_, hparent, hpn, hmem⟩
    intro hnone
    rw [hinput, followUpInput, hnone]

/-- C7. Let `table` be a follow-up table of a page on which the recursion of
`processFollowUpTable` runs down the ranks, and `p` a move of the graph. With an allowed
depth above the rank of the table the call returns; it leaves the section's top-level
moves as they were; every move object it creates has a `parentMove` and is in that
parent's `followUps`; and every row with cells and a name `n` has yielded a follow-up
with name `n`, the trimmed text of its input element as input (the empty string when the
row has no input element), `parentMove` equal to `p`, and a place in `p.followUps`. -/
theorem processFollowUpTable_attaches_rows (page : Page) (rank : Nat → Nat)
    (hrank : RankedPage page rank) (table : Nat) (t : PageTable)
    (ht : page.get? table = some t) (p : Nat) (g : MoveGraph) (hp : p < g.nodes.length)
    (depth : Nat) (hdepth : rank table < depth) :
    ∃ g1, processFollowUpTable depth page (some table) (some p) g = some g1 ∧
      g1.sectionMoves = g.sectionMoves ∧
      (∀ i node, g.nodes.length ≤ i → g1.nodes.get? i = some node →
        ∃ q pn, node.parentMove = some q ∧ g1.nodes.get? q = some pn ∧ i ∈ pn.followUps) ∧
      (∀ k row, t.rows.get? k = some row → row.tdCount ≠ 0 → followUpName row ≠ "" →
        ∃ i node pn, g.nodes.length ≤ i ∧ g1.nodes.get? i = some node ∧
          node.move.name = followUpName row ∧
          node.move.input = some (followUpInput row) ∧
          (row.inputElement = none → node.move.input = some "") ∧
          node.parentMove = some p ∧ g1.nodes.get? p = some pn ∧ i ∈ pn.followUps) := by
  obtain ⟨g1, hg1⟩ :=
    processFollowUpTable_returns page rank hrank depth (some table) (some p) g hdepth
  exact ⟨g1, hg1, processFollowUpTable_attached page table t ht p g hp depth g1 hg1⟩

/-- C7 on `chainPage`, where the row `→ Example` has a follow-up table of its own: the
page runs down the ranks of `chainRank`, and the call for the follow-up table of
`Example Move` with the allowed depth 2 returns with the properties of the claim. -/
theorem processFollowUpTable_attaches_rows_witness :
    RankedPage chainPage chainRank ∧
    ∃ g1, processFollowUpTable 2 chainPage (some 1) (some 0) parentGraph = some g1 ∧
      g1.sectionMoves = parentGraph.sectionMoves ∧
      (∀ i node, parentGraph.nodes.length ≤ i → g1.nodes.get? i = some node →
        ∃ q pn, node.parentMove = some q ∧ g1.nodes.get? q = some pn ∧ i ∈ pn.followUps) ∧
      (∀ k row,
        [({ tdCount := 0 } : FollowUpRow),
          { tdCount := 3, nameElement := some "→ Example" }].get? k = some row →
        row.tdCount ≠ 0 → followUpName row ≠ "" →
        ∃ i node pn, parentGraph.nodes.length ≤ i ∧ g1.nodes.get? i = some node ∧
          node.move.name = followUpName row ∧
          node.move.input = some (followUpInput row) ∧
          (row.inputElement = none → node.move.input = some "") ∧
          node.parentMove = some 0 ∧ g1.nodes.get? 0 = some pn ∧ i ∈ pn.followUps) :=
  ⟨chainPage_ranked,
    processFollowUpTable_attaches_rows chainPage chainRank chainPage_ranked 1 _ rfl 0
      parentGraph (by decide) 2 (by decide)⟩

/-- The page `chainPage`, run: `Example Move` gains the follow-up `→ Example`, which
gains the follow-up `→→ Finish` of the table after the heading that names it. With the
allowed depth 1 the call does not return. -/
theorem processFollowUpTable_chainPage :
    processFollowUpTable 2 chainPage (some 1) (some 0) parentGraph =
      some { sectionMoves := [0],
             nodes := [{ move := { name := "Example Move", input := some "236A" },
                         followUps := [1] },
                       { move := { name := "→ Example", input := some "", data := [[]] },
                         followUps := [2], parentMove := some 0 },
                       { move := { name := "→→ Finish", input := some "236A", data := [[]] },
                         parentMove := some 1 }] } ∧
    processFollowUpTable 1 chainPage (some 1) (some 0) parentGraph = none := by
  decide

/-- The page of the specification runs down the ranks of the constant rank 0: no
heading names one of its rows, and the call returns at depth 1. -/
theorem followUpPage_ranked : RankedPage followUpPage (fun _ => 0) := by
  unfold RankedPage
  decide

/-- The page of the specification, run: the parent gains two follow-ups, the row
`→ Example` and also the notes row below it, whose text is taken as a name. -/
theorem processFollowUpTable_followUpPage :
    processFollowUpTable 1 followUpPage (some 1) (some 0) parentGraph =
      some { sectionMoves := [0],
             nodes := [{ move := { name := "Example Move", input := some "236A" },
                         followUps := [1, 2] },
                       { move := { name := "→ Example", input := some "", data := [[]],
                                   notes := ["Knocks down."] },
                         parentMove := some 0 },
                       { move := { name := "Knocks down.", input := some "", data := [[]] },
                         parentMove := some 0 }] } := by
  decide

/-! ## C8: the substring tier -/

theorem slotsOf_from_pairwise (mlIndex : Nat) (movelist : MoveList) (k : Nat)
    (moves : List (Option Move)) :
    (∀ s ∈ (moves.enumFrom k).map (fun p => Slot.mk mlIndex movelist p.1 p.2), k ≤ s.idx) ∧
    ((moves.enumFrom k).map (fun p => Slot.mk mlIndex movelist p.1 p.2)).Pairwise
      (fun a b => a.ref ≠ b.ref) := by
  induction moves generalizing k with
  | nil => simp
  | cons mv rest ih =>
    obtain ⟨ihge, ihpw⟩ := ih (k + 1)
    simp only [List.enumFrom_cons, List.map_cons]
    constructor
    · intro s hs
      rcases List.mem_cons.mp hs with rfl | hs
      · exact Nat.le_refl _
      · exact Nat.le_of_succ_le (ihge s hs)
    · rw [List.pairwise_cons]
      refine ⟨fun s hs heq => ?_, ihpw⟩
      have := ihge s hs
      simp only [Slot.ref, List.cons.injEq, and_true, true_and] at heq
      omega

theorem slotsOf_mlIndex (mlIndex : Nat) (movelist : MoveList) :
    ∀ s ∈ slotsOf mlIndex movelist, s.mlIndex = mlIndex := by
  intro s hs
  simp only [slotsOf, List.mem_map] at hs
  obtain ⟨p, -, rfl⟩ := hs
  rfl

theorem allSlots_from_pairwise (k : Nat) (movelists : List MoveList) :
    (∀ s ∈ (movelists.enumFrom k).flatMap (fun p => slotsOf p.1 p.2), k ≤ s.mlIndex) ∧
    ((movelists.enumFrom k).flatMap (fun p => slotsOf p.1 p.2)).Pairwise
      (fun a b => a.ref ≠ b.ref) := by
  induction movelists generalizing k with
  | nil => simp
  | cons ml rest ih =>
    obtain ⟨ihge, ihpw⟩ := ih (k + 1)
    simp only [List.enumFrom_cons, List.flatMap_cons]
    constructor
    · intro s hs
      rcases List.mem_append.mp hs with hs | hs
      · exact Nat.le_of_eq (slotsOf_mlIndex k ml s hs).symm
      · exact Nat.le_of_succ_le (ihge s hs)
    · rw [List.pairwise_append]
      refine ⟨(slotsOf_from_pairwise k ml 0 _).2, ihpw, fun a ha b hb heq => ?_⟩
      have h1 := slotsOf_mlIndex k ml a ha
      have h2 := ihge b hb
      simp only [Slot.ref, List.cons.injEq, and_true] at heq
      omega

/-- Two positions of a record never hold the same move object. -/
theorem allSlots_pairwise (movelists : List MoveList) :
    (allSlots movelists).Pairwise (fun a b => a.ref ≠ b.ref) :=
  (allSlots_from_pairwise 0 movelists).2

theorem exactNameStep_eq (q : String) (acc : List MoveMatch) (s : Slot) :
    exactNameStep q acc s = acc ++ (exactNameHit q s).toList := by
  unfold exactNameStep exactNameHit
  cases s.move with
  | none => simp
  | some m =>
    dsimp only
    by_cases h1 : (isCostumeWithInput m && toLowerCase (m.input.getD "") == q) = true
    · simp [h1]
    · by_cases h2 : (isCostumeWithInput m && toLowerCase (inputBase (m.input.getD "")) == q) = true
      · simp [h1, h2]
      · by_cases h3 : (truthy m.moveName && toLowerCase (m.moveName.getD "") == q) = true
        · simp [h1, h2, h3]
        · simp [h1, h2, h3]

theorem foldl_exactNameStep (q : String) (slots : List Slot) (acc : List MoveMatch) :
    slots.foldl (exactNameStep q) acc = acc ++ slots.filterMap (exactNameHit q) :=
  foldl_append_hits _ _ (exactNameStep_eq q) slots acc

theorem substringStep_eq (q : String) (acc : List MoveMatch) (s : Slot)
    (h : alreadyIn acc s = false) :
    substringStep q acc s = acc ++ (substringHit q s).toList := by
  unfold substringStep substringHit
  cases s.move with
  | none => simp
  | some m =>
    dsimp only
    by_cases h1 : (isCostumeWithInput m && includes (toLowerCase (m.input.getD "")) q) = true
    · simp [h1, h]
    · by_cases h2 : (truthy m.moveName && includes (toLowerCase (m.moveName.getD "")) q) = true
      · simp [h1, h2, h]
      · by_cases h3 : (truthy m.input && includes (toLowerCase (m.input.getD "")) q) = true
        · simp [h1, h2, h3, h]
        · simp [h1, h2, h3]

theorem substringHit_ref (q : String) (s : Slot) (r : MoveMatch)
    (h : substringHit q s = some r) : r.ref = s.ref := by
  unfold substringHit at h
  cases hm : s.move with
  | none => simp [hm] at h
  | some m =>
    simp only [hm] at h
    split at h
    · simp only [Option.some.injEq] at h
      rw [← h]; rfl
    · simp at h

/-- Over positions that hold distinct objects, none of them among the results so far,
the identity check of the substring loop never fires. -/
theorem foldl_substringStep (q : String) (slots : List Slot) (acc : List MoveMatch)
    (hpw : slots.Pairwise (fun a b => a.ref ≠ b.ref))
    (hacc : ∀ r ∈ acc, ∀ s ∈ slots, r.ref ≠ s.ref) :
    slots.foldl (substringStep q) acc = acc ++ slots.filterMap (substringHit q) := by
  induction slots generalizing acc with
  | nil => simp
  | cons s rest ih =>
    rw [List.pairwise_cons] at hpw
    have hnot : alreadyIn acc s = false := by
      unfold alreadyIn
      rw [List.any_eq_false]
      intro r hr
      have := hacc r hr s (List.mem_cons_self _ _)
      simpa [Slot.ref] using this
    rw [List.foldl_cons, substringStep_eq q acc s hnot, ih _ hpw.2, List.filterMap_cons]
    · cases substringHit q s <;> simp
    · intro r hr t ht
      rcases List.mem_append.mp hr with hr | hr
      · exact hacc r hr t (List.mem_cons_of_mem _ ht)
      · cases hh : substringHit q s with
        | none => simp [hh] at hr
        | some e =>
          simp only [hh, Option.toList_some, List.mem_singleton] at hr
          rw [hr, substringHit_ref q s e hh]
          exact hpw.1 t ht

theorem includes_empty_left (t : String) (h : includes "" t = true) : t = "" := by
  obtain ⟨data⟩ := t
  cases data with
  | nil => rfl
  | cons c cs => simp [includes, includesL, startsWithL] at h

theorem toLowerCase_empty : toLowerCase "" = "" := rfl

theorem nodup_refs_filterMap (hit : Slot → Option MoveMatch)
    (href : ∀ s r, hit s = some r → r.ref = s.ref) (slots : List Slot)
    (hpw : slots.Pairwise (fun a b => a.ref ≠ b.ref)) :
    ((slots.filterMap hit).map (fun r => r.ref)).Nodup := by
  induction slots with
  | nil => simp
  | cons s rest ih =>
    rw [List.pairwise_cons] at hpw
    rw [List.filterMap_cons]
    cases hh : hit s with
    | none => exact ih hpw.2
    | some r =>
      simp only [List.map_cons, List.nodup_cons]
      refine ⟨fun hmem => ?_, ih hpw.2⟩
      rw [List.mem_map] at hmem
      obtain ⟨r1, hr1, heq⟩ := hmem
      rw [List.mem_filterMap] at hr1
      obtain ⟨t, ht, hhit⟩ := hr1
      have h1 := href s r hh
      have h2 := href t r1 hhit
      exact hpw.1 t ht (by rw [← h1, ← h2, heq])

/-- C8. For a character in the movelists format and a query that equals no move's input
and no move's name ignoring case and equals the input base of no Costume move,
`findMoveByNameOrInput` returns exactly the entries of the moves whose name or input
contains the query as a case-insensitive substring, in record order, and no move object
occurs twice in the result. -/
theorem findMoveByNameOrInput_substring (c : Character) (mls : List MoveList) (q : String)
    (hc : c.movelists = some mls)
    (hinput : ∀ s ∈ allSlots mls, ∀ m, s.move = some m → ∀ i, m.input = some i →
      toLowerCase i ≠ toLowerCase q)
    (hname : ∀ s ∈ allSlots mls, ∀ m, s.move = some m → ∀ n, m.moveName = some n →
      toLowerCase n ≠ toLowerCase q)
    (hcostume : ∀ s ∈ allSlots mls, ∀ m, s.move = some m → isCostumeWithInput m = true →
      toLowerCase (inputBase (m.input.getD "")) ≠ toLowerCase q) :
    findMoveByNameOrInput c q =
      (allSlots mls).filterMap (fun s =>
        match s.move with
        | some m => if containsQuery m q = true then some (s.entry m) else none
        | none => none) ∧
    ((findMoveByNameOrInput c q).map (fun r => r.ref)).Nodup := by
  have h1 : (allSlots mls).filterMap (exactInputHit (toLowerCase q)) = [] := by
    rw [List.filterMap_eq_nil_iff]
    intro s hs
    unfold exactInputHit
    cases hm : s.move with
    | none => rfl
    | some m =>
      cases hi : m.input with
      | none => simp [truthy, hi]
      | some i => simp [hi, hinput s hs m hm i hi]
  have h2 : (allSlots mls).filterMap (exactNameHit (toLowerCase q)) = [] := by
    rw [List.filterMap_eq_nil_iff]
    intro s hs
    unfold exactNameHit
    cases hm : s.move with
    | none => rfl
    | some m =>
      have hA : (isCostumeWithInput m && toLowerCase (m.input.getD "") == toLowerCase q) = false := by
        cases hi : m.input with
        | none => simp [isCostumeWithInput, truthy, hi]
        | some i => simp [hi, hinput s hs m hm i hi]
      have hB : (isCostumeWithInput m &&
          toLowerCase (inputBase (m.input.getD "")) == toLowerCase q) = false := by
        by_cases hcm : isCostumeWithInput m = true
        · simp [hcostume s hs m hm hcm]
        · simp [hcm]
      have hC : (truthy m.moveName && toLowerCase (m.moveName.getD "") == toLowerCase q) = false := by
        cases hn : m.moveName with
        | none => simp [truthy, hn]
        | some n => simp [hn, hname s hs m hm n hn]
      simp [hA, hB, hC]
  have h3 : ∀ s ∈ allSlots mls, substringHit (toLowerCase q) s =
      (match s.move with
       | some m => if containsQuery m q = true then some (s.entry m) else none
       | none => none) := by
    intro s hs
    unfold substringHit
    cases hm : s.move with
    | none => rfl
    | some m =>
      have hcond : ((isCostumeWithInput m &&
            includes (toLowerCase (m.input.getD "")) (toLowerCase q)) ||
          (truthy m.moveName && includes (toLowerCase (m.moveName.getD "")) (toLowerCase q)) ||
          (truthy m.input && includes (toLowerCase (m.input.getD "")) (toLowerCase q))) =
          containsQuery m q := by
        have hN : (truthy m.moveName &&
            includes (toLowerCase (m.moveName.getD "")) (toLowerCase q)) =
            (match m.moveName with
             | some n => includes (toLowerCase n) (toLowerCase q)
             | none => false) := by
          cases hn : m.moveName with
          | none => simp [truthy]
          | some n =>
            by_cases hne : n = ""
            · subst hne
              have : includes (toLowerCase "") (toLowerCase q) = false := by
                rw [Bool.eq_false_iff]
                intro hinc
                have := includes_empty_left _ hinc
                exact hname s hs m hm "" hn (by rw [this]; rfl)
              simp [truthy, this]
            · simp [truthy, hne]
        have hI : (truthy m.input &&
            includes (toLowerCase (m.input.getD "")) (toLowerCase q)) =
            (match m.input with
             | some i => includes (toLowerCase i) (toLowerCase q)
             | none => false) := by
          cases hi : m.input with
          | none => simp [truthy]
          | some i =>
            by_cases hne : i = ""
            · subst hne
              have : includes (toLowerCase "") (toLowerCase q) = false := by
                rw [Bool.eq_false_iff]
                intro hinc
                have := includes_empty_left _ hinc
                exact hinput s hs m hm "" hi (by rw [this]; rfl)
              simp [truthy, this]
            · simp [truthy, hne]
        have hcos : isCostumeWithInput m = true → truthy m.input = true := by
          intro h
          simp only [isCostumeWithInput, Bool.and_eq_true] at h
          exact h.2
        unfold containsQuery
        rw [← hN, ← hI]
        cases hci : isCostumeWithInput m
        · simp
        · rw [hcos hci]
          cases truthy m.moveName <;>
            cases includes (toLowerCase (m.input.getD "")) (toLowerCase q) <;>
            cases includes (toLowerCase (m.moveName.getD "")) (toLowerCase q) <;> rfl
      simp only [hcond]
  have hrun : findMoveByNameOrInput c q =
      (allSlots mls).filterMap (substringHit (toLowerCase q)) := by
    simp only [findMoveByNameOrInput, hc, foldl_exactInputStep, foldl_exactNameStep, h1, h2,
      List.nil_append, List.append_nil, List.length_nil, gt_iff_lt, Nat.lt_irrefl, if_false,
      ite_self]
    rw [foldl_substringStep _ _ _ (allSlots_pairwise mls) (by simp)]
    rfl
  constructor
  · rw [hrun]
    exact List.filterMap_congr h3
  · rw [hrun]
    exact nodup_refs_filterMap _ (substringHit_ref _) _ (allSlots_pairwise mls)

theorem allSlots_grabList :
    allSlots [grabList] =
      [Slot.mk 0 grabList 0 (some { moveName := some "Grab", input := some "AB" }),
       Slot.mk 0 grabList 1 (some { moveName := some "Cabbage", input := some "5A" })] := by
  decide

/-- C8 at `grabCharacter` and the query `a`, which both moves contain in their name and
in their input: each move is returned once. -/
theorem findMoveByNameOrInput_substring_witness :
    findMoveByNameOrInput grabCharacter "a" =
      (allSlots [grabList]).filterMap (fun s =>
        match s.move with
        | some m => if containsQuery m "a" = true then some (s.entry m) else none
        | none => none) ∧
    ((findMoveByNameOrInput grabCharacter "a").map (fun r => r.ref)).Nodup :=
  findMoveByNameOrInput_substring grabCharacter [grabList] "a" rfl
    (by
      intro s hs m hm i hi
      rw [allSlots_grabList] at hs
      simp only [List.mem_cons, List.mem_singleton, List.not_mem_nil, or_false] at hs
      rcases hs with rfl | rfl <;>
        (simp only [Option.some.injEq] at hm; subst hm
         simp only [Option.some.injEq] at hi; subst hi; decide))
    (by
      intro s hs m hm n hn
      rw [allSlots_grabList] at hs
      simp only [List.mem_cons, List.mem_singleton, List.not_mem_nil, or_false] at hs
      rcases hs with rfl | rfl <;>
        (simp only [Option.some.injEq] at hm; subst hm
         simp only [Option.some.injEq] at hn; subst hn; decide))
    (by
      intro s hs m hm hcm
      rw [allSlots_grabList] at hs
      simp only [List.mem_cons, List.mem_singleton, List.not_mem_nil, or_false] at hs
      rcases hs with rfl | rfl <;>
        (simp only [Option.some.injEq] at hm; subst hm; revert hcm; decide))

/-! ## C9: the empty query -/

/-- C9 fails on the code. For `grabCharacter` the empty query returns both moves of the
record, since every name contains the empty text. The query reaches the resolver: the
option `-0` is not empty, so `execute` goes on, splits it at the hyphen into the empty
name and the move-list id 0, and displays the move Grab for it. With a legacy record the
same resolver answers the empty query with the empty list. -/
theorem findMoveInAllMoveLists_empty_query_returns_moves :
    findMoveInAllMoveLists grabCharacter "" =
      Except.ok [(Slot.mk 0 grabList 0 none).entry
                   { moveName := some "Grab", input := some "AB" },
                 (Slot.mk 0 grabList 1 none).entry
                   { moveName := some "Cabbage", input := some "5A" }] ∧
    (parseMoveInput "-0").moveName = "" ∧
    executeSelect grabCharacter "-0" =
      Except.ok (some ((Slot.mk 0 grabList 0 none).entry
        { moveName := some "Grab", input := some "AB" })) ∧
    findMoveInAllMoveLists legacyCharacter "" = Except.ok [] := by
  decide

theorem includes_empty_right (s : String) : includes s "" = true := by
  obtain ⟨data⟩ := s
  cases data <;> simp [includes, includesL, startsWithL]

theorem handleNayukiMoves_empty (c : Character) : handleNayukiMoves c "" = Except.ok none := by
  unfold handleNayukiMoves
  split
  · rfl
  · have h1 : kickAlias (toLowerCase "") = false := by decide
    have h2 : stanceAlias (toLowerCase "") = false := by decide
    have h3 : rollingAlias (toLowerCase "") = false := by decide
    simp [aliasRule, h1, h2, h3]

theorem legacyNameIs_empty (m : Move) : legacyNameIs "" m = false := by
  unfold legacyNameIs
  cases hn : m.name with
  | none =>
    cases hm : m.moveName with
    | none => simp [truthy]
    | some y => by_cases hy : y = "" <;> simp [truthy, hy]
  | some x =>
    cases hm : m.moveName with
    | none => by_cases hx : x = "" <;> simp [truthy, hx]
    | some y => by_cases hx : x = "" <;> by_cases hy : y = "" <;> simp [truthy, hx, hy]

theorem findFrom_none (pred : Move → Bool) (hp : ∀ m, pred m = false) (k : Nat)
    (moves : List (Option Move)) (hnn : none ∉ moves) :
    findFrom pred k moves = Except.ok none := by
  induction moves generalizing k with
  | nil => rfl
  | cons mv rest ih =>
    cases mv with
    | none => exact absurd (List.mem_cons_self _ _) hnn
    | some m =>
      simp only [findFrom, hp m, Bool.false_eq_true, if_false]
      exact ih (k + 1) (fun h => hnn (List.mem_cons_of_mem _ h))

theorem forEachE_sections_empty (path : List Nat) (ml : ListRef) (id : Option IdValue)
    (secs : List (Nat × Section)) (results : List MoveMatch)
    (h : ∀ p ∈ secs, ∀ moves, p.2.moves = some moves → none ∉ moves) :
    forEachE (legacySectionStep "" path ml id) secs results = Except.ok results := by
  induction secs with
  | nil => rfl
  | cons p rest ih =>
    have hstep : legacySectionStep "" path ml id results p = Except.ok results := by
      unfold legacySectionStep
      cases hm : p.2.moves with
      | none => rfl
      | some moves =>
        simp only
        rw [findFrom_none _ legacyNameIs_empty 0 moves (h p (List.mem_cons_self _ _) moves hm)]
    simp only [forEachE, hstep]
    exact ih (fun q hq => h q (List.mem_cons_of_mem _ hq))

theorem forEachE_options_empty (opts : List (Nat × LegacyOption)) (results : List MoveMatch)
    (h : ∀ p ∈ opts, ∀ sections, p.2.sections = some sections →
      ∀ sec ∈ sections, ∀ moves, sec.moves = some moves → none ∉ moves) :
    forEachE (legacyOptionStep "") opts results = Except.ok results := by
  induction opts with
  | nil => rfl
  | cons p rest ih =>
    have hstep : legacyOptionStep "" results p = Except.ok results := by
      unfold legacyOptionStep
      cases hsec : p.2.sections with
      | none => rfl
      | some sections =>
        simp only
        exact forEachE_sections_empty _ _ _ _ _ (fun q hq moves hm =>
          h p (List.mem_cons_self _ _) sections hsec q.2 (mem_enum_snd _ _ hq) moves hm)
    simp only [forEachE, hstep]
    exact ih (fun q hq => h q (List.mem_cons_of_mem _ hq))

theorem findMoveByNameOrInput_empty (c : Character) (mls : List MoveList)
    (hc : c.movelists = some mls) :
    findMoveByNameOrInput c "" =
      if ((allSlots mls).filterMap (exactNameHit "")).length > 0
      then (allSlots mls).filterMap (exactNameHit "")
      else (allSlots mls).filterMap (substringHit "") := by
  have hnot : isInputNotation "" = false := by decide
  simp only [findMoveByNameOrInput, hc, hnot, toLowerCase_empty, Bool.false_eq_true, if_false,
    List.length_nil, gt_iff_lt, Nat.lt_irrefl, foldl_exactNameStep, List.nil_append]
  split
  · rfl
  · rename_i hlen
    have hnil : (allSlots mls).filterMap (exactNameHit "") = [] := by
      cases hN : (allSlots mls).filterMap (exactNameHit "") with
      | nil => rfl
      | cons x xs => rw [hN] at hlen; simp at hlen
    rw [hnil, foldl_substringStep _ _ _ (allSlots_pairwise mls) (by simp)]
    rfl

theorem substringHit_empty_eq_none (s : Slot) :
    substringHit "" s = none ↔
      ∀ m, s.move = some m → truthy m.moveName = false ∧ truthy m.input = false := by
  unfold substringHit
  cases hm : s.move with
  | none => simp
  | some m =>
    simp only [includes_empty_right, Bool.and_true, Option.some.injEq, forall_eq']
    cases h1 : truthy m.moveName <;> cases h2 : truthy m.input <;>
      simp [isCostumeWithInput, h1, h2]

theorem exactNameHit_of_unnamed (q : String) (s : Slot)
    (h : ∀ m, s.move = some m → truthy m.moveName = false ∧ truthy m.input = false) :
    exactNameHit q s = none := by
  unfold exactNameHit
  cases hm : s.move with
  | none => rfl
  | some m =>
    obtain ⟨h1, h2⟩ := h m hm
    simp [isCostumeWithInput, h1, h2]

/-- The records for which the empty query is answered with the empty list. For a
character in the movelists format these are the records in which no move of any
move-list has a non-empty `moveName` or a non-empty `input`; a legacy record (no
`movelists` array) without `null` entries in its move lists always gives the empty
list. -/
theorem findMove_empty_query (c : Character) :
    (∀ mls, c.movelists = some mls →
      (findMoveInAllMoveLists c "" = Except.ok [] ↔
        ∀ s ∈ allSlots mls, ∀ m, s.move = some m →
          truthy m.moveName = false ∧ truthy m.input = false)) ∧
    (c.movelists = none → NoNullMoves c → findMoveInAllMoveLists c "" = Except.ok []) := by
  constructor
  · intro mls hc
    rw [findMoveInAllMoveLists_movelists c mls "" hc (handleNayukiMoves_empty c),
      findMoveByNameOrInput_empty c mls hc]
    constructor
    · intro h
      have h' := Except.ok.inj h
      have hsub : (allSlots mls).filterMap (substringHit "") = [] := by
        split at h'
        · rename_i hlen
          rw [h'] at hlen
          simp at hlen
        · exact h'
      rw [List.filterMap_eq_nil_iff] at hsub
      intro s hs
      exact (substringHit_empty_eq_none s).mp (hsub s hs)
    · intro h
      have hN : (allSlots mls).filterMap (exactNameHit "") = [] := by
        rw [List.filterMap_eq_nil_iff]
        exact fun s hs => exactNameHit_of_unnamed "" s (h s hs)
      have hS : (allSlots mls).filterMap (substringHit "") = [] := by
        rw [List.filterMap_eq_nil_iff]
        exact fun s hs => (substringHit_empty_eq_none s).mpr (h s hs)
      simp [hN, hS]
  · intro hc hnn
    obtain ⟨hopt, hsec⟩ := hnn
    have hfrom : (match c.moveLists with
        | some { options := some options } =>
          forEachE (legacyOptionStep "") options.enum []
        | _ => Except.ok []) = Except.ok [] := by
      split
      · rename_i options hml
        exact forEachE_options_empty _ _ (fun p hp sections hs sec hsecm moves hm =>
          hopt _ options hml rfl p.2 (mem_enum_snd _ _ hp) sections hs sec hsecm moves hm)
      · rfl
    simp only [findMoveInAllMoveLists, handleNayukiMoves_empty, hc, hfrom]
    cases hs : c.sections with
    | none => rfl
    | some sections =>
      simp only
      exact forEachE_sections_empty _ _ _ _ _ (fun q hq moves hm =>
        hsec sections hs q.2 (mem_enum_snd _ _ hq) moves hm)

/-- The empty query on the legacy record `legacyCharacter`. -/
theorem findMove_empty_query_legacy :
    findMoveInAllMoveLists legacyCharacter "" = Except.ok [] :=
  (findMove_empty_query legacyCharacter).2 rfl
    (by
      constructor
      · intro lists options h
        exact absurd h (by simp [legacyCharacter])
      · intro sections hs sec hsec moves hm
        have hsections : sections = [legacySection] := (Option.some.inj hs).symm
        subst hsections
        rw [List.mem_singleton] at hsec
        subst hsec
        have hmoves : moves = [some { name := some "Jab", damage := some "200" }] :=
          (Option.some.inj hm).symm
        subst hmoves
        decide)

/-! ## C10: the alias rules read the first move-list without a guard -/

/-- C10 fails on the code. For a character named `Nayuki Minase (asleep)` the query
`kick` makes `findMoveInAllMoveLists` raise when `movelists` is empty, when the first
move-list has no `moves` field, when a `null` entry precedes the kick move, and when the
record is of a legacy shape; and the legacy lookup raises on a `null` entry of a
section. -/
theorem findMoveInAllMoveLists_raises :
    findMoveInAllMoveLists { name := some "Nayuki Minase (asleep)", movelists := some [] }
      "kick" = Except.error JSError.typeError ∧
    findMoveInAllMoveLists
      { name := some "Nayuki Minase (asleep)", movelists := some [{ name := some "Moves" }] }
      "kick" = Except.error JSError.typeError ∧
    findMoveInAllMoveLists
      { name := some "Nayuki Minase (asleep)",
        movelists := some [{ moves := some [none, some { moveName := some "Nayu-chan Kick",
                                                          input := some "623*" }] }] }
      "kick" = Except.error JSError.typeError ∧
    findMoveInAllMoveLists
      { name := some "Nayuki Minase (asleep)", sections := some [legacySection] }
      "kick" = Except.error JSError.typeError ∧
    findMoveInAllMoveLists
      { character := some "Legacy", sections := some [{ moves := some [none] }] }
      "Jab" = Except.error JSError.typeError := by
  decide

/-! ## C11: the exact-name tier -/

theorem exactNameHit_eq_exactMatch (q : String) (s : Slot) :
    exactNameHit (toLowerCase q) s =
      match s.move with
      | some m => if exactMatch m q = true then some (s.entry m) else none
      | none => none := by
  unfold exactNameHit exactMatch
  cases hm : s.move with
  | none => rfl
  | some m =>
    cases hn : m.moveName with
    | none =>
      by_cases h1 : isCostumeWithInput m = true <;>
        by_cases h2 : toLowerCase (m.input.getD "") = toLowerCase q <;>
        by_cases h3 : toLowerCase (inputBase (m.input.getD "")) = toLowerCase q <;>
        simp [truthy, hn, h1, h2, h3]
    | some n =>
      by_cases h1 : isCostumeWithInput m = true <;>
        by_cases h2 : toLowerCase (m.input.getD "") = toLowerCase q <;>
        by_cases h3 : toLowerCase (inputBase (m.input.getD "")) = toLowerCase q <;>
        by_cases h4 : n = "" <;>
        by_cases h5 : toLowerCase n = toLowerCase q <;>
        simp [truthy, hn, h1, h2, h3, h4, h5]

theorem slot_eq_of_ref_eq (slots : List Slot)
    (hpw : slots.Pairwise (fun a b => a.ref ≠ b.ref)) (a b : Slot)
    (ha : a ∈ slots) (hb : b ∈ slots) (h : a.ref = b.ref) : a = b := by
  induction slots with
  | nil => simp at ha
  | cons s rest ih =>
    rw [List.pairwise_cons] at hpw
    rcases List.mem_cons.mp ha with rfl | ha1
    · rcases List.mem_cons.mp hb with rfl | hb1
      · rfl
      · exact absurd h (hpw.1 b hb1)
    · rcases List.mem_cons.mp hb with rfl | hb1
      · exact absurd h.symm (hpw.1 a ha1)
      · exact ih hpw.2 ha1 hb1

theorem exactInputHit_nil (slots : List Slot) (q : String)
    (hinput : ∀ s ∈ slots, ∀ m, s.move = some m → ∀ i, m.input = some i →
      toLowerCase i ≠ toLowerCase q) :
    slots.filterMap (exactInputHit (toLowerCase q)) = [] := by
  rw [List.filterMap_eq_nil_iff]
  intro s hs
  unfold exactInputHit
  cases hm : s.move with
  | none => rfl
  | some m =>
    cases hi : m.input with
    | none => simp [truthy, hi]
    | some i => simp [hi, hinput s hs m hm i hi]

/-- C11. For a character in the movelists format and a query `q` such that no move's
input equals `q` ignoring case and some move's non-empty name equals `q` ignoring case,
`findMoveByNameOrInput` returns exactly the entries of the exact matches, in record
order: the result is not empty, the move of every entry is an exact match, and a move
that is not an exact match, such as one that only contains `q`, is not in the result. -/
theorem findMoveByNameOrInput_exact_name (c : Character) (mls : List MoveList) (q : String)
    (hc : c.movelists = some mls)
    (hinput : ∀ s ∈ allSlots mls, ∀ m, s.move = some m → ∀ i, m.input = some i →
      toLowerCase i ≠ toLowerCase q)
    (hname : ∃ s ∈ allSlots mls, ∃ m n, s.move = some m ∧ m.moveName = some n ∧ n ≠ "" ∧
      toLowerCase n = toLowerCase q) :
    findMoveByNameOrInput c q =
      (allSlots mls).filterMap (fun s =>
        match s.move with
        | some m => if exactMatch m q = true then some (s.entry m) else none
        | none => none) ∧
    findMoveByNameOrInput c q ≠ [] ∧
    (∀ r ∈ findMoveByNameOrInput c q, exactMatch r.move q = true) ∧
    (∀ s ∈ allSlots mls, ∀ m, s.move = some m → exactMatch m q = false →
      ∀ r ∈ findMoveByNameOrInput c q, r.ref ≠ s.ref) := by
  have h1 := exactInputHit_nil (allSlots mls) q hinput
  have hfun : exactNameHit (toLowerCase q) = fun s =>
      match s.move with
      | some m => if exactMatch m q = true then some (s.entry m) else none
      | none => none := funext (exactNameHit_eq_exactMatch q)
  have hmem : ∀ r, r ∈ (allSlots mls).filterMap (exactNameHit (toLowerCase q)) →
      ∃ s ∈ allSlots mls, ∃ m, s.move = some m ∧ exactMatch m q = true ∧ r = s.entry m := by
    intro r hr
    rw [List.mem_filterMap] at hr
    obtain ⟨s, hs, hhit⟩ := hr
    rw [exactNameHit_eq_exactMatch] at hhit
    cases hm : s.move with
    | none => simp [hm] at hhit
    | some m =>
      simp only [hm] at hhit
      by_cases he : exactMatch m q = true
      · rw [if_pos he] at hhit
        exact ⟨s, hs, m, hm, he, (Option.some.inj hhit).symm⟩
      · rw [if_neg he] at hhit
        exact absurd hhit (by simp)
  have hne : (allSlots mls).filterMap (exactNameHit (toLowerCase q)) ≠ [] := by
    obtain ⟨s, hs, m, n, hm, hn, hnn, hq⟩ := hname
    have hhit : exactNameHit (toLowerCase q) s = some (s.entry m) := by
      rw [exactNameHit_eq_exactMatch]
      simp [hm, exactMatch, hn, hnn, hq]
    intro hnil
    have : s.entry m ∈ (allSlots mls).filterMap (exactNameHit (toLowerCase q)) :=
      List.mem_filterMap.mpr ⟨s, hs, hhit⟩
    rw [hnil] at this
    simp at this
  have hres : findMoveByNameOrInput c q =
      (allSlots mls).filterMap (exactNameHit (toLowerCase q)) := by
    have hlen : 0 < ((allSlots mls).filterMap (exactNameHit (toLowerCase q))).length :=
      List.length_pos.mpr hne
    unfold findMoveByNameOrInput
    simp only [hc, foldl_exactInputStep, foldl_exactNameStep, h1, List.append_nil, ite_self,
      List.length_nil, gt_iff_lt, lt_self_iff_false, if_false, List.nil_append, hlen, if_true]
  refine ⟨by rw [hres, hfun], by rw [hres]; exact hne, ?_, ?_⟩
  · intro r hr
    rw [hres] at hr
    obtain ⟨s, _, m, _, he, rfl⟩ := hmem r hr
    exact he
  · intro s hs m hm he r hr href
    rw [hres] at hr
    obtain ⟨t, ht, m1, hm1, he1, rfl⟩ := hmem r hr
    have hts : t = s := slot_eq_of_ref_eq _ (allSlots_pairwise mls) t s ht hs href
    subst hts
    rw [hm] at hm1
    rw [Option.some.inj hm1] at he
    rw [he] at he1
    exact absurd he1 (by simp)

theorem allSlots_dashList :
    allSlots [dashList] =
      [⟨0, dashList, 0, some { moveName := some "Dash", input := some "66" }⟩,
       ⟨0, dashList, 1, some { moveName := some "Dash Attack", input := some "66A" }⟩] := by
  rfl

theorem findMoveByNameOrInput_exact_name_witness :
    findMoveByNameOrInput dashCharacter "dash" =
      (allSlots [dashList]).filterMap (fun s =>
        match s.move with
        | some m => if exactMatch m "dash" = true then some (s.entry m) else none
        | none => none) ∧
    findMoveByNameOrInput dashCharacter "dash" ≠ [] ∧
    (∀ r ∈ findMoveByNameOrInput dashCharacter "dash", exactMatch r.move "dash" = true) ∧
    (∀ s ∈ allSlots [dashList], ∀ m, s.move = some m → exactMatch m "dash" = false →
      ∀ r ∈ findMoveByNameOrInput dashCharacter "dash", r.ref ≠ s.ref) :=
  findMoveByNameOrInput_exact_name dashCharacter [dashList] "dash" rfl
    (by
      intro s hs m hm i hi
      rw [allSlots_dashList] at hs
      simp only [List.mem_cons, List.mem_singleton, List.not_mem_nil, or_false] at hs
      rcases hs with rfl | rfl <;>
        (simp only [Option.some.injEq] at hm; subst hm
         simp only [Option.some.injEq] at hi; subst hi; decide))
    ⟨⟨0, dashList, 0, some { moveName := some "Dash", input := some "66" }⟩,
      by rw [allSlots_dashList]; simp,
      { moveName := some "Dash", input := some "66" }, "Dash", rfl, rfl, by decide, by decide⟩

/-- The query `dash` returns the move Dash alone: the move Dash Attack, which contains
the query, is left out. -/
theorem findMoveByNameOrInput_dash :
    (findMoveByNameOrInput dashCharacter "dash").map (fun r => r.move.moveName) =
      [some "Dash"] := by
  decide

/-! ## C12: the kick alias reads the first move-list without a guard -/

theorem findFrom_first (pred : Move → Bool) (pre : List Move) (m : Move)
    (post : List (Option Move)) (hpre : ∀ x ∈ pre, pred x = false) (hm : pred m = true) :
    ∀ k, findFrom pred k (pre.map some ++ some m :: post) =
      Except.ok (some (k + pre.length, m)) := by
  induction pre with
  | nil =>
    intro k
    simp [findFrom, hm]
  | cons x xs ih =>
    intro k
    have hx : pred x = false := hpre x (List.mem_cons_self _ _)
    have := ih (fun y hy => hpre y (List.mem_cons_of_mem _ hy)) (k + 1)
    simp only [List.map_cons, List.cons_append, findFrom, hx, Bool.false_eq_true, if_false,
      List.length_cons]
    rw [show k + (xs.length + 1) = k + 1 + xs.length by omega]
    exact this

/-- When no `null` entry precedes it, the first move of move-list 0 with input `623*` or
name `Nayu-chan Kick` is the one result of every query the kick alias accepts. -/
theorem findMoveInAllMoveLists_kick (c : Character) (first : MoveList)
    (others : List MoveList) (pre : List Move) (m : Move) (post : List (Option Move))
    (q : String) (hname : c.name = some "Nayuki Minase (asleep)")
    (hml : c.movelists = some (first :: others))
    (hmoves : first.moves = some (pre.map some ++ some m :: post))
    (hpre : ∀ x ∈ pre, (x.input == some "623*" || x.moveName == some "Nayu-chan Kick") = false)
    (hm : (m.input == some "623*" || m.moveName == some "Nayu-chan Kick") = true)
    (hq : kickAlias (toLowerCase q) = true) :
    findMoveInAllMoveLists c q =
      Except.ok [{ ref := [0, pre.length], move := m, section_ := { name := some "Moves" },
                   moveList := ListRef.movelist first,
                   moveListId := some (IdValue.num 0) }] := by
  have hfind := findFrom_first
    (fun move => move.input == some "623*" || move.moveName == some "Nayu-chan Kick")
    pre m post hpre hm 0
  simp only [Nat.zero_add] at hfind
  simp [findMoveInAllMoveLists, handleNayukiMoves, hname, aliasRule, hq, findInFirstMoveList,
    hml, hmoves, hfind]

/-- C12 fails on the code. For the character named `Nayuki Minase (asleep)` whose first
move-list holds a `null` entry before the move Nayu-chan Kick with input `623*`, the
queries `623a`, `Nayu-chan` and `623*` make `findMoveInAllMoveLists` raise instead of
returning the kick move. -/
theorem findMoveInAllMoveLists_kick_raises :
    findMoveInAllMoveLists
      { name := some "Nayuki Minase (asleep)",
        movelists := some [{ name := some "Moves",
                             moves := some [none, some { moveName := some "Nayu-chan Kick",
                                                         input := some "623*" }] }] }
      "623a" = Except.error JSError.typeError ∧
    findMoveInAllMoveLists
      { name := some "Nayuki Minase (asleep)",
        movelists := some [{ name := some "Moves",
                             moves := some [none, some { moveName := some "Nayu-chan Kick",
                                                         input := some "623*" }] }] }
      "Nayu-chan" = Except.error JSError.typeError ∧
    findMoveInAllMoveLists
      { name := some "Nayuki Minase (asleep)",
        movelists := some [{ name := some "Moves",
                             moves := some [none, some { moveName := some "Nayu-chan Kick",
                                                         input := some "623*" }] }] }
      "623*" = Except.error JSError.typeError := by
  decide

/-! ## Splitting and joining: general facts -/

theorem splitL_ne_nil (sep : Char) (l : List Char) : splitL sep l ≠ [] := by
  cases l with
  | nil => simp [splitL]
  | cons c cs =>
    unfold splitL
    split
    · simp
    · split <;> simp

theorem splitL_no_sep (sep : Char) (a : List Char) (ha : sep ∉ a) : splitL sep a = [a] := by
  induction a with
  | nil => rfl
  | cons c cs ih =>
    have hc : c ≠ sep := fun h => ha (by simp [h])
    have hcs : sep ∉ cs := fun h => ha (List.mem_cons_of_mem _ h)
    simp [splitL, hc, ih hcs]

/-- Joining the parts of a split with the separator gives the text back. -/
theorem join_splitL (sep : Char) (l : List Char) :
    (join (String.mk [sep]) ((splitL sep l).map String.mk)).data = l := by
  induction l with
  | nil => rfl
  | cons c cs ih =>
    unfold splitL
    by_cases hc : c = sep
    · subst hc
      simp only [beq_self_eq_true, if_true, List.map_cons]
      cases hs : splitL c cs with
      | nil => exact absurd hs (splitL_ne_nil c cs)
      | cons part parts =>
        rw [hs] at ih
        simp only [List.map_cons, join] at ih ⊢
        simp only [String.data_append, ih]
        rfl
    · have hne : (c == sep) = false := by simpa using hc
      simp only [hne, Bool.false_eq_true, if_false]
      cases hs : splitL sep cs with
      | nil => exact absurd hs (splitL_ne_nil sep cs)
      | cons part parts =>
        rw [hs] at ih
        cases parts with
        | nil =>
          simp only [List.map_cons, List.map_nil, join] at ih ⊢
          rw [← ih]
        | cons y ys =>
          simp only [List.map_cons, join, String.data_append] at ih ⊢
          rw [← ih]
          rfl

theorem join_split (s : String) : join ":" (split s ':') = s := by
  apply String.ext
  exact join_splitL ':' s.data

theorem startsWithL_append (p rest : List Char) : startsWithL (p ++ rest) p = true := by
  induction p with
  | nil => cases rest <;> rfl
  | cons c cs ih => simp [startsWithL, ih]

theorem includesL_of_startsWithL (l p : List Char) (h : startsWithL l p = true) :
    includesL l p = true := by
  cases l with
  | nil => simpa [includesL] using h
  | cons a as => simp [includesL, h]

theorem includesL_singleton (c : Char) (l : List Char) (h : c ∈ l) :
    includesL l [c] = true := by
  induction l with
  | nil => simp at h
  | cons a as ih =>
    rcases List.mem_cons.mp h with rfl | hmem
    · simp [includesL, startsWithL]
    · simp [includesL, ih hmem]

theorem numberToString_no_hyphen (n : Nat) : '-' ∉ (numberToString n).data := by
  intro h
  exact (digit_not_mark '-' (decimalDigits_mem _ _ _ h)).1 rfl

/-! ## C13: the structured query is split at every hyphen -/

/-- For an identifier without a hyphen the structured query is read as the claim says. -/
theorem parseMoveInput_plain (s : String) (k v : Nat) (hs : '-' ∉ s.data) :
    parseMoveInput (s ++ "-" ++ numberToString k) =
      { moveName := s, moveListId := some (some (k : Int)), version := some 0 } ∧
    parseMoveInput (s ++ "-" ++ numberToString k ++ "-" ++ numberToString v) =
      { moveName := s, moveListId := some (some (k : Int)), version := some (v : Int) } := by
  have h1 : (s ++ "-" ++ numberToString k).data = s.data ++ '-' :: (numberToString k).data := by
    simp [String.data_append]
  have h2 : (s ++ "-" ++ numberToString k ++ "-" ++ numberToString v).data =
      s.data ++ '-' :: ((numberToString k).data ++ '-' :: (numberToString v).data) := by
    simp [String.data_append]
  have hk := parseInt_numberToString k 0 (Or.inl rfl)
  have hv := parseInt_numberToString v 0 (Or.inl rfl)
  constructor
  · have hin : includes (s ++ "-" ++ numberToString k) "-" = true := by
      unfold includes
      rw [h1]
      exact includesL_singleton '-' _ (by simp)
    have hsp : split (s ++ "-" ++ numberToString k) '-' = [s, numberToString k] := by
      unfold split
      rw [h1, splitL_append_sep _ _ _ hs, splitL_no_sep _ _ (numberToString_no_hyphen k)]
      rfl
    simp [parseMoveInput, hin, hsp, show_, hk]
  · have hin : includes (s ++ "-" ++ numberToString k ++ "-" ++ numberToString v) "-" = true := by
      unfold includes
      rw [h2]
      exact includesL_singleton '-' _ (by simp)
    have hsp : split (s ++ "-" ++ numberToString k ++ "-" ++ numberToString v) '-' =
        [s, numberToString k, numberToString v] := by
      unfold split
      rw [h2, splitL_append_sep _ _ _ hs, splitL_append_sep _ _ _ (numberToString_no_hyphen k),
        splitL_no_sep _ _ (numberToString_no_hyphen v)]
      rfl
    simp [parseMoveInput, hin, hsp, show_, hk, hv]

/-- C13 fails on the code. For the move named `Nayu-chan Kick` of move-list 0,
`autocomplete` offers the value `Nayu-chan Kick-0`; `execute` reads it as the move name
`Nayu` with a move-list id that is not a number, and reads `Nayu-chan Kick-0-1` as the
move name `Nayu`, no move-list id and version 0. -/
theorem parseMoveInput_hyphenated_name :
    moveValue { moveName := some "Nayu-chan Kick", input := some "623*" } 0 =
      some "Nayu-chan Kick-0" ∧
    parseMoveInput "Nayu-chan Kick-0" =
      { moveName := "Nayu", moveListId := some none, version := some 0 } ∧
    parseMoveInput "Nayu-chan Kick-0-1" =
      { moveName := "Nayu", moveListId := some none, version := some 0 } := by
  decide

/-! ## C14: the parent handler keeps the uniqueness suffix in the name -/

theorem split_parent_token (c l p rand : String) (now : Nat)
    (hc : ':' ∉ c.data) (hl : ':' ∉ l.data) :
    split (createUniqueId (parentBaseId c l p) now rand) ':' =
      "parent" :: c :: l :: split (p ++ ":" ++ numberToString now ++ ":" ++ rand) ':' := by
  have hdata : (createUniqueId (parentBaseId c l p) now rand).data =
      "parent".data ++ ':' :: (c.data ++ ':' :: (l.data ++ ':' ::
        (p ++ ":" ++ numberToString now ++ ":" ++ rand).data)) := by
    simp [createUniqueId, parentBaseId, String.data_append]
  unfold split
  rw [hdata, splitL_append_sep _ _ _ (by decide), splitL_append_sep _ _ _ hc,
    splitL_append_sep _ _ _ hl]
  rfl

/-- C14 fails on the code. For a character name `c` and a move-list id `l` without
`:`, the parent button handler decodes the token `createUniqueId("parent:c:l:p")` to
the name `p:timestamp:random`, which is never `p`. -/
theorem decodeParent_createUniqueId (c l p rand : String) (now : Nat)
    (hc : ':' ∉ c.data) (hl : ':' ∉ l.data) :
    decodeParent (createUniqueId (parentBaseId c l p) now rand) =
      { characterName := some c, moveListIdStr := some l, moveListId := parseInt l 10,
        parentMoveName := p ++ ":" ++ numberToString now ++ ":" ++ rand } ∧
    (decodeParent (createUniqueId (parentBaseId c l p) now rand)).parentMoveName ≠ p := by
  have hs := split_parent_token c l p rand now hc hl
  have hd : decodeParent (createUniqueId (parentBaseId c l p) now rand) =
      { characterName := some c, moveListIdStr := some l, moveListId := parseInt l 10,
        parentMoveName := p ++ ":" ++ numberToString now ++ ":" ++ rand } := by
    unfold decodeParent
    simp only [hs, List.get?_cons_succ, List.get?_cons_zero, show_, List.drop_succ_cons,
      List.drop_zero, join_split, Option.getD_some]
  refine ⟨hd, ?_⟩
  rw [hd]
  intro h
  have hlen := congrArg (fun s => s.data.length) h
  simp [String.data_append] at hlen

theorem decodeParent_createUniqueId_witness :
    decodeParent (createUniqueId (parentBaseId "Akane" "0" "Dash") 1700000000000 "k3x9qa") =
      { characterName := some "Akane", moveListIdStr := some "0",
        moveListId := parseInt "0" 10,
        parentMoveName := "Dash" ++ ":" ++ numberToString 1700000000000 ++ ":" ++ "k3x9qa" } ∧
    (decodeParent (createUniqueId (parentBaseId "Akane" "0" "Dash") 1700000000000
      "k3x9qa")).parentMoveName ≠ "Dash" :=
  decodeParent_createUniqueId "Akane" "0" "Dash" "k3x9qa" 1700000000000 (by decide) (by decide)

/-! ## C15: the dispatcher passes two of the four kinds of token -/

theorem dispatches_of_startsWith_character (rest : List Char) :
    dispatchesToButtonHandler (String.mk ("character:".data ++ rest)) = true := by
  have h : includes (String.mk ("character:".data ++ rest)) "character:" = true :=
    includesL_of_startsWithL _ _ (startsWithL_append _ _)
  unfold dispatchesToButtonHandler
  rw [h]
  rfl

theorem dispatches_of_startsWith_version (rest : List Char) :
    dispatchesToButtonHandler (String.mk ("version:".data ++ rest)) = true := by
  have h : includes (String.mk ("version:".data ++ rest)) "version:" = true :=
    includesL_of_startsWithL _ _ (startsWithL_append _ _)
  unfold dispatchesToButtonHandler
  rw [h]
  by_cases h1 : includes (String.mk ("version:".data ++ rest)) "character:" = true
  · rw [if_pos h1]
  · rw [if_neg h1]
    by_cases h2 : includes (String.mk ("version:".data ++ rest)) "swap_movelist:" = true
    · rw [if_pos h2]
    · rw [if_neg h2]
      rfl

/-- C15 fails on the code. The dispatcher of `start.js` passes every move-list token
and every version token to `buttonHandler`, and passes neither the follow-up token nor
the parent token that `execute` emits for the character `Akane` and move-list 0. -/
theorem dispatcher_drops_followup_and_parent :
    (∀ (c l m v rand : String) (now : Nat),
      dispatchesToButtonHandler (createUniqueId (characterBaseId c l m v) now rand) = true) ∧
    (∀ (c m rand : String) (l v now : Nat),
      dispatchesToButtonHandler (createUniqueId (versionBaseId c l m v) now rand) = true) ∧
    dispatchesToButtonHandler (createUniqueId (followupBaseId "Akane" "0" 0) 1700 "k3x9qa") =
      false ∧
    dispatchesToButtonHandler (createUniqueId (parentBaseId "Akane" "0" "Dash") 1700 "k3x9qa") =
      false := by
  refine ⟨?_, ?_, by decide, by decide⟩
  · intro c l m v rand now
    have h : createUniqueId (characterBaseId c l m v) now rand =
        String.mk ("character:".data ++ (c ++ ":" ++ l ++ ":" ++ m ++ ":" ++ v ++ ":" ++
          numberToString now ++ ":" ++ rand).data) := by
      apply String.ext
      simp [createUniqueId, characterBaseId, String.data_append]
    rw [h]
    exact dispatches_of_startsWith_character _
  · intro c m rand l v now
    have h : createUniqueId (versionBaseId c l m v) now rand =
        String.mk ("version:".data ++ (c ++ ":" ++ numberToString l ++ ":" ++ m ++ ":" ++
          numberToString v ++ ":" ++ numberToString now ++ ":" ++ rand).data) := by
      apply String.ext
      simp [createUniqueId, versionBaseId, String.data_append]
    rw [h]
    exact dispatches_of_startsWith_version _

/-! ## C16: the version token of an entry without a move-list id -/

theorem numberToString_injective (a b : Nat) (h : numberToString a = numberToString b) :
    a = b := by
  have ha := parseInt_numberToString a 10 (Or.inr rfl)
  have hb := parseInt_numberToString b 10 (Or.inr rfl)
  rw [h, hb] at ha
  exact_mod_cast (Option.some.inj ha).symm

theorem find?_congr_mem {α : Type} (p q : α → Bool) (l : List α)
    (h : ∀ x ∈ l, p x = q x) : l.find? p = l.find? q := by
  induction l with
  | nil => rfl
  | cons a rest ih =>
    simp only [List.find?_cons, h a (List.mem_cons_self _ _)]
    rw [ih (fun x hx => h x (List.mem_cons_of_mem _ hx))]

theorem versionIdMatches_num (n k : Nat) (x : MoveMatch)
    (hx : x.moveListId = some (IdValue.num k)) :
    versionIdMatches (some (n : Int)) (some (numberToString n)) x = decide (k = n) := by
  unfold versionIdMatches
  simp only [hx]
  by_cases h : k = n
  · subst h
    simp
  · have h1 : numberToString n ≠ numberToString k :=
      fun e => h (numberToString_injective _ _ e).symm
    simp [h, h1]

theorem executeIdMatches_num (n k : Nat) (x : MoveMatch)
    (hx : x.moveListId = some (IdValue.num k)) :
    executeIdMatches (some (n : Int)) x = decide (k = n) := by
  unfold executeIdMatches
  simp only [hx]
  by_cases h : k = n
  · subst h
    simp
  · simp [h]

/-- Among entries with numeric ids, the entry `execute` selects is the first entry with
its id, which is the entry the test of the version handler finds. -/
theorem selectDisplayed_find (results : List MoveMatch) (pid : Option (Option Int))
    (r : MoveMatch) (hnum : ∀ x ∈ results, ∃ n, x.moveListId = some (IdValue.num n))
    (hsel : selectDisplayed results pid = some r) :
    ∃ n, r.moveListId = some (IdValue.num n) ∧
      results.find? (versionIdMatches (some (n : Int)) (some (numberToString n))) =
        some r := by
  have hhead : results.head? = some r →
      ∃ n, r.moveListId = some (IdValue.num n) ∧
        results.find? (versionIdMatches (some (n : Int)) (some (numberToString n))) =
          some r := by
    intro hh
    cases results with
    | nil => simp at hh
    | cons a rest =>
      simp only [List.head?_cons, Option.some.injEq] at hh
      subst hh
      obtain ⟨n, hn⟩ := hnum a (List.mem_cons_self _ _)
      refine ⟨n, hn, ?_⟩
      simp [List.find?_cons, versionIdMatches_num n n a hn]
  unfold selectDisplayed at hsel
  cases pid with
  | none => exact hhead hsel
  | some id =>
    simp only at hsel
    cases hf : results.find? (executeIdMatches id) with
    | none =>
      rw [hf] at hsel
      exact hhead hsel
    | some r1 =>
      rw [hf] at hsel
      simp only [Option.some.injEq] at hsel
      subst hsel
      have hmem := List.mem_of_find?_eq_some hf
      have hp := List.find?_some hf
      obtain ⟨n, hn⟩ := hnum r1 hmem
      refine ⟨n, hn, ?_⟩
      cases id with
      | none => simp [executeIdMatches, hn] at hp
      | some k =>
        have hk : k = (n : Int) := by
          simp [executeIdMatches, hn] at hp
          exact hp.symm
        subst hk
        rw [← hf]
        apply find?_congr_mem
        intro x hx
        obtain ⟨m, hm⟩ := hnum x hx
        rw [versionIdMatches_num n m x hm, executeIdMatches_num n m x hm]

theorem printId_num (r : MoveMatch) (n : Nat) (h : r.moveListId = some (IdValue.num n)) :
    printId r = numberToString n := by
  simp [printId, h]

/-- What the version handler reads from the token of an entry with a numeric id. -/
theorem decodeVersion_versionBaseIdOf (cname q rand : String) (v now n : Nat) (r : MoveMatch)
    (hc : ':' ∉ cname.data) (hq : ':' ∉ q.data) (hn : r.moveListId = some (IdValue.num n)) :
    (decodeVersion (createUniqueId (versionBaseIdOf cname r q v) now rand)).moveName = some q ∧
    (decodeVersion (createUniqueId (versionBaseIdOf cname r q v) now rand)).moveListId =
      some (n : Int) ∧
    (decodeVersion (createUniqueId (versionBaseIdOf cname r q v) now rand)).moveListIdStr =
      some (numberToString n) := by
  have hbase : versionBaseIdOf cname r q v = versionBaseId cname n q v := by
    simp [versionBaseIdOf, versionBaseId, printId_num r n hn]
  obtain ⟨suffix, hs⟩ := split_version_token cname q rand n v now hc hq
  rw [hbase]
  unfold decodeVersion
  simp only [hs, List.get?_cons_succ, List.get?_cons_zero, show_, Option.getD_some,
    parseInt_numberToString n 10 (Or.inr rfl), and_self]

theorem versionHandlerSelect_find (c : Character) (req : VersionRequest) (q : String)
    (results : List MoveMatch) (r : MoveMatch)
    (hres : findMoveInAllMoveLists c q = Except.ok results)
    (hfind : results.find? (versionIdMatches req.moveListId req.moveListIdStr) = some r) :
    versionHandlerSelect c req q = Except.ok (some r) := by
  have hne : (results.length == 0) = false := by
    cases results with
    | nil => simp at hfind
    | cons a rest => simp
  unfold versionHandlerSelect
  simp only [hres, hne, Bool.false_eq_true, if_false, hfind]

theorem findInFirstMoveList_numeric (c : Character) (pred : Move → Bool) (r : MoveMatch)
    (h : findInFirstMoveList c pred = Except.ok (some r)) :
    r.moveListId = some (IdValue.num 0) := by
  unfold findInFirstMoveList at h
  split at h
  · simp at h
  · simp at h
  · split at h
    · simp at h
    · split at h
      · simp at h
      · simp at h
      · simp only [Except.ok.injEq, Option.some.injEq] at h
        rw [← h]

theorem aliasRule_numeric (c : Character) (test : Bool) (pred : Move → Bool)
    (next : Except JSError (Option MoveMatch)) (r : MoveMatch)
    (hnext : next = Except.ok (some r) → r.moveListId = some (IdValue.num 0))
    (h : aliasRule c test pred next = Except.ok (some r)) :
    r.moveListId = some (IdValue.num 0) := by
  unfold aliasRule at h
  split at h
  · cases hf : findInFirstMoveList c pred with
    | error e => simp [hf] at h
    | ok o =>
      cases o with
      | none =>
        simp only [hf] at h
        exact hnext h
      | some r1 =>
        simp only [hf, Except.ok.injEq, Option.some.injEq] at h
        subst h
        exact findInFirstMoveList_numeric c pred r1 hf
  · exact hnext h

theorem handleNayukiMoves_numeric (c : Character) (q : String) (r : MoveMatch)
    (h : handleNayukiMoves c q = Except.ok (some r)) :
    r.moveListId = some (IdValue.num 0) := by
  unfold handleNayukiMoves at h
  split at h
  · simp at h
  · exact aliasRule_numeric _ _ _ _ r
      (aliasRule_numeric _ _ _ _ r
        (aliasRule_numeric _ _ _ _ r (fun hn => by simp at hn))) h

theorem foldl_numeric (step : List MoveMatch → Slot → List MoveMatch)
    (hstep : ∀ acc s, (∀ x ∈ acc, ∃ n, x.moveListId = some (IdValue.num n)) →
      ∀ x ∈ step acc s, ∃ n, x.moveListId = some (IdValue.num n))
    (slots : List Slot) :
    ∀ acc, (∀ x ∈ acc, ∃ n, x.moveListId = some (IdValue.num n)) →
      ∀ x ∈ slots.foldl step acc, ∃ n, x.moveListId = some (IdValue.num n) := by
  induction slots with
  | nil => intro acc h; simpa using h
  | cons s rest ih =>
    intro acc h
    rw [List.foldl_cons]
    exact ih _ (hstep acc s h)

theorem append_entry_numeric (acc : List MoveMatch) (s : Slot) (m : Move)
    (h : ∀ x ∈ acc, ∃ n, x.moveListId = some (IdValue.num n)) :
    ∀ x ∈ acc ++ [s.entry m], ∃ n, x.moveListId = some (IdValue.num n) := by
  intro x hx
  rcases List.mem_append.mp hx with hx | hx
  · exact h x hx
  · simp only [List.mem_singleton] at hx
    subst hx
    exact ⟨s.mlIndex, rfl⟩

theorem exactInputStep_numeric (q : String) (acc : List MoveMatch) (s : Slot)
    (h : ∀ x ∈ acc, ∃ n, x.moveListId = some (IdValue.num n)) :
    ∀ x ∈ exactInputStep q acc s, ∃ n, x.moveListId = some (IdValue.num n) := by
  unfold exactInputStep
  split
  · exact h
  · split
    · exact append_entry_numeric acc s _ h
    · exact h

theorem exactNameStep_numeric (q : String) (acc : List MoveMatch) (s : Slot)
    (h : ∀ x ∈ acc, ∃ n, x.moveListId = some (IdValue.num n)) :
    ∀ x ∈ exactNameStep q acc s, ∃ n, x.moveListId = some (IdValue.num n) := by
  unfold exactNameStep
  split
  · exact h
  · split
    · exact append_entry_numeric acc s _ h
    · split
      · exact append_entry_numeric acc s _ h
      · split
        · exact append_entry_numeric acc s _ h
        · exact h

theorem substringStep_numeric (q : String) (acc : List MoveMatch) (s : Slot)
    (h : ∀ x ∈ acc, ∃ n, x.moveListId = some (IdValue.num n)) :
    ∀ x ∈ substringStep q acc s, ∃ n, x.moveListId = some (IdValue.num n) := by
  unfold substringStep
  split
  · exact h
  · split
    · split
      · exact append_entry_numeric acc s _ h
      · exact h
    · split
      · split
        · exact append_entry_numeric acc s _ h
        · exact h
      · split
        · split
          · exact append_entry_numeric acc s _ h
          · exact h
        · exact h

theorem findMoveByNameOrInput_numeric (c : Character) (q : String) :
    ∀ x ∈ findMoveByNameOrInput c q, ∃ n, x.moveListId = some (IdValue.num n) := by
  have hnil : ∀ x ∈ ([] : List MoveMatch), ∃ n, x.moveListId = some (IdValue.num n) := by
    simp
  unfold findMoveByNameOrInput
  cases c.movelists with
  | none => exact hnil
  | some mls =>
    have h1 : ∀ x ∈ (if isInputNotation q = true then
        (allSlots mls).foldl (exactInputStep (toLowerCase q)) [] else []),
        ∃ n, x.moveListId = some (IdValue.num n) := by
      split
      · exact foldl_numeric _ (exactInputStep_numeric _) _ _ hnil
      · exact hnil
    have h2 := foldl_numeric _ (exactNameStep_numeric (toLowerCase q)) (allSlots mls) _ h1
    have h3 := foldl_numeric _ (substringStep_numeric (toLowerCase q)) (allSlots mls) _ h2
    simp only
    generalize (if isInputNotation q = true then
      (allSlots mls).foldl (exactInputStep (toLowerCase q)) [] else []) = byInput at h1 h2 h3 ⊢
    split
    · exact h1
    · split
      · exact h2
      · exact h3

/-- In the movelists format every resolver entry carries a numeric move-list id. -/
theorem findMoveInAllMoveLists_numeric (c : Character) (mls : List MoveList) (q : String)
    (results : List MoveMatch) (hc : c.movelists = some mls)
    (hres : findMoveInAllMoveLists c q = Except.ok results) :
    ∀ x ∈ results, ∃ n, x.moveListId = some (IdValue.num n) := by
  unfold findMoveInAllMoveLists at hres
  cases hn : handleNayukiMoves c q with
  | error e => simp [hn] at hres
  | ok o =>
    cases o with
    | some r =>
      simp only [hn, Except.ok.injEq] at hres
      subst hres
      intro x hx
      simp only [List.mem_singleton] at hx
      subst hx
      exact ⟨0, handleNayukiMoves_numeric c q x hn⟩
    | none =>
      simp only [hn, hc, Except.ok.injEq] at hres
      subst hres
      exact findMoveByNameOrInput_numeric c q

/-- The entry `execute` displays is the entry the test of the version handler finds
among the resolver results, when these carry numeric ids. -/
theorem executeSelect_find (c : Character) (moveInput : String) (results : List MoveMatch)
    (r : MoveMatch)
    (hres : findMoveInAllMoveLists c (parseMoveInput moveInput).moveName = Except.ok results)
    (hnum : ∀ x ∈ results, ∃ n, x.moveListId = some (IdValue.num n))
    (hsel : executeSelect c moveInput = Except.ok (some r)) :
    ∃ n, r.moveListId = some (IdValue.num n) ∧
      results.find? (versionIdMatches (some (n : Int)) (some (numberToString n))) =
        some r := by
  unfold executeSelect at hsel
  simp only [hres] at hsel
  by_cases hcond : (c.name == some "Nayuki Minase (asleep)"
      && kickAlias (toLowerCase (parseMoveInput moveInput).moveName)) = true
  · rw [if_pos hcond] at hsel
    cases hd : findInFirstMoveList c
        (fun move => move.input == some "623*" || move.moveName == some "Nayu-chan Kick") with
    | error e => simp [hd] at hsel
    | ok o =>
      cases o with
      | none =>
        simp only [hd, Except.ok.injEq] at hsel
        exact selectDisplayed_find results _ r hnum hsel
      | some md =>
        simp only [hd, Except.ok.injEq, Option.some.injEq] at hsel
        subst hsel
        simp only [Bool.and_eq_true, beq_iff_eq] at hcond
        have hn : handleNayukiMoves c (parseMoveInput moveInput).moveName =
            Except.ok (some md) := by
          simp [handleNayukiMoves, hcond.1, aliasRule, hcond.2, hd]
        have hr : results = [md] := by
          simp only [findMoveInAllMoveLists, hn, Except.ok.injEq] at hres
          exact hres.symm
        subst hr
        obtain ⟨n, hnn⟩ := hnum md (List.mem_singleton.mpr rfl)
        exact ⟨n, hnn, by simp [List.find?_cons, versionIdMatches_num n n md hnn]⟩
  · rw [if_neg hcond] at hsel
    simp only [Except.ok.injEq] at hsel
    exact selectDisplayed_find results _ r hnum hsel

/-- C16 fails on the code. For the legacy record with direct sections the entry that
`execute` displays for the query `Jab` has the move-list id `null` and two versions, so
version buttons are emitted; the version handler decodes the token to the move name `Jab`
and the move-list id text `null`, resolves the move again and finds no entry for it. -/
theorem version_token_null_id :
    executeSelect versionedCharacter "Jab" = Except.ok (some versionedJabEntry) ∧
    (createMoveEmbed versionedCharacter versionedJab versionedSection none 0).map
      (fun r => (r.hasVersions, r.versionCount)) = Except.ok (true, 2) ∧
    versionBaseIdOf "Legacy" versionedJabEntry "Jab" 1 = "version:Legacy:null:Jab:1" ∧
    (decodeVersion (createUniqueId (versionBaseIdOf "Legacy" versionedJabEntry "Jab" 1)
      1700 "k3x9qa")).moveName = some "Jab" ∧
    (decodeVersion (createUniqueId (versionBaseIdOf "Legacy" versionedJabEntry "Jab" 1)
      1700 "k3x9qa")).moveListIdStr = some "null" ∧
    findMoveInAllMoveLists versionedCharacter "Jab" = Except.ok [versionedJabEntry] ∧
    versionHandlerSelect versionedCharacter
      (decodeVersion (createUniqueId (versionBaseIdOf "Legacy" versionedJabEntry "Jab" 1)
        1700 "k3x9qa")) "Jab" = Except.ok none := by
  decide

/-- The token is colon-delimited: for the record with the moves `a` and `a:b`, the token
of the entry displayed for the query `a:b` is decoded to the name `a` and selects the
other move. -/
theorem version_token_colon_name :
    (executeSelect colonCharacter "a:b").map (Option.map (fun r => r.ref)) =
      Except.ok (some [0, 1]) ∧
    (decodeVersion (createUniqueId (versionBaseId "Test" 0 "a:b" 0) 1700 "k3x9qa")).moveName =
      some "a" ∧
    (versionHandlerSelect colonCharacter
      (decodeVersion (createUniqueId (versionBaseId "Test" 0 "a:b" 0) 1700 "k3x9qa"))
      "a").map (Option.map (fun r => r.ref)) = Except.ok (some [0, 0]) := by
  decide

/-- Where the resolver entries for the parsed move name carry numeric move-list ids, as
in the movelists format, and the character name and the move name hold no `:`, the
version handler decodes the token emitted with the id of the displayed entry `r` and the
move name to this name and selects the same entry `r`. -/
theorem version_token_reselects (c : Character) (cname moveInput rand : String)
    (v now : Nat) (results : List MoveMatch) (r : MoveMatch)
    (hc : ':' ∉ cname.data) (hq : ':' ∉ (parseMoveInput moveInput).moveName.data)
    (hres : findMoveInAllMoveLists c (parseMoveInput moveInput).moveName = Except.ok results)
    (hnum : ∀ x ∈ results, ∃ n, x.moveListId = some (IdValue.num n))
    (hsel : executeSelect c moveInput = Except.ok (some r)) :
    (decodeVersion (createUniqueId
      (versionBaseIdOf cname r (parseMoveInput moveInput).moveName v) now rand)).moveName =
      some (parseMoveInput moveInput).moveName ∧
    versionHandlerSelect c
      (decodeVersion (createUniqueId
        (versionBaseIdOf cname r (parseMoveInput moveInput).moveName v) now rand))
      (parseMoveInput moveInput).moveName = Except.ok (some r) := by
  obtain ⟨n, hn, hfind⟩ := executeSelect_find c moveInput results r hres hnum hsel
  obtain ⟨h1, h2, h3⟩ := decodeVersion_versionBaseIdOf cname
    (parseMoveInput moveInput).moveName rand v now n r hc hq hn
  refine ⟨h1, ?_⟩
  apply versionHandlerSelect_find c _ _ results r hres
  rw [h2, h3]
  exact hfind

theorem version_token_reselects_witness :
    (decodeVersion (createUniqueId
      (versionBaseIdOf "Test"
        alternateDash
        (parseMoveInput "Dash-1").moveName 2) 1700000000000 "k3x9qa")).moveName =
      some (parseMoveInput "Dash-1").moveName ∧
    versionHandlerSelect twoListCharacter
      (decodeVersion (createUniqueId
        (versionBaseIdOf "Test"
          alternateDash
          (parseMoveInput "Dash-1").moveName 2) 1700000000000 "k3x9qa"))
      (parseMoveInput "Dash-1").moveName =
      Except.ok (some alternateDash) :=
  version_token_reselects twoListCharacter "Test" "Dash-1" "k3x9qa" 2 1700000000000
    (findMoveByNameOrInput twoListCharacter "Dash") _ (by decide) (by decide) (by decide)
    (findMoveInAllMoveLists_numeric twoListCharacter _ "Dash" _ rfl (by decide))
    (by decide)

/-! ## C17: the cache holds the first record of every name key -/

theorem loadFile_skip (st : LoadState) (f : Character)
    (h : characterKey f = "" ∨ characterKey f ∈ st.loadedCharacters) : loadFile st f = st := by
  unfold loadFile
  rcases h with h | h
  · simp [h]
  · simp [h]

theorem loadFile_add (st : LoadState) (f : Character)
    (h1 : characterKey f ≠ "") (h2 : characterKey f ∉ st.loadedCharacters) :
    loadFile st f =
      { loadedCharacters := st.loadedCharacters ++ [characterKey f]
        allCharacterData := st.allCharacterData ++ [f] } := by
  unfold loadFile
  simp [h1, h2]

/-- What a run of the loading loop adds to the cache. -/
theorem loadFromDir_adds (files : List Character) :
    ∀ st : LoadState, st.loadedCharacters = st.allCharacterData.map characterKey →
      ∃ new, (loadFromDir st files).allCharacterData = st.allCharacterData ++ new ∧
        (new.map characterKey).Nodup ∧
        (∀ d ∈ new, characterKey d ≠ "" ∧ characterKey d ∉ st.loadedCharacters ∧
          ∃ pre post, files = pre ++ d :: post ∧
            ∀ f ∈ pre, characterKey f ≠ characterKey d) ∧
        (∀ f ∈ files, characterKey f ≠ "" →
          characterKey f ∈ st.loadedCharacters ∨ characterKey f ∈ new.map characterKey) := by
  induction files with
  | nil =>
    intro st _
    exact ⟨[], by simp [loadFromDir], List.nodup_nil, by simp, by simp⟩
  | cons f fs ih =>
    intro st hinv
    by_cases hskip : characterKey f = "" ∨ characterKey f ∈ st.loadedCharacters
    · obtain ⟨new, hall, hnd, hnew, hcov⟩ := ih st hinv
      refine ⟨new, ?_, hnd, ?_, ?_⟩
      · simpa [loadFromDir, loadFile_skip st f hskip] using hall
      · intro d hd
        obtain ⟨hne, hnl, pre, post, hfs, hpre⟩ := hnew d hd
        refine ⟨hne, hnl, f :: pre, post, by simp [hfs], ?_⟩
        intro g hg
        rcases List.mem_cons.mp hg with rfl | hg
        · rcases hskip with h | h
          · rw [h]; exact fun e => hne e.symm
          · exact fun e => hnl (e ▸ h)
        · exact hpre g hg
      · intro g hg hgne
        rcases List.mem_cons.mp hg with rfl | hg
        · rcases hskip with h | h
          · exact absurd h hgne
          · exact Or.inl h
        · exact hcov g hg hgne
    · have h1 : characterKey f ≠ "" := fun h => hskip (Or.inl h)
      have h2 : characterKey f ∉ st.loadedCharacters := fun h => hskip (Or.inr h)
      have hst := loadFile_add st f h1 h2
      obtain ⟨new, hall, hnd, hnew, hcov⟩ := ih (loadFile st f) (by simp [hst, hinv])
      refine ⟨f :: new, ?_, ?_, ?_, ?_⟩
      · have : loadFromDir st (f :: fs) = loadFromDir (loadFile st f) fs := rfl
        rw [this, hall, hst]
        simp
      · rw [List.map_cons, List.nodup_cons]
        refine ⟨?_, hnd⟩
        intro hmem
        obtain ⟨d, hd, hkey⟩ := List.mem_map.mp hmem
        have := (hnew d hd).2.1
        rw [hst] at this
        exact this (by simp [hkey])
      · intro d hd
        rcases List.mem_cons.mp hd with rfl | hd
        · exact ⟨h1, h2, [], fs, rfl, by simp⟩
        · obtain ⟨hne, hnl, pre, post, hfs, hpre⟩ := hnew d hd
          rw [hst] at hnl
          refine ⟨hne, fun h => hnl (by simp [h]), f :: pre, post, by simp [hfs], ?_⟩
          intro g hg
          rcases List.mem_cons.mp hg with rfl | hg
          · exact fun e => hnl (by simp [e])
          · exact hpre g hg
      · intro g hg hgne
        rcases List.mem_cons.mp hg with rfl | hg
        · exact Or.inr (by simp)
        · rcases hcov g hg hgne with h | h
          · rw [hst] at h
            rcases List.mem_append.mp h with h | h
            · exact Or.inl h
            · exact Or.inr (by simp at h; simp [h])
          · exact Or.inr (by simp at h ⊢; exact Or.inr h)

/-- C17. For every list of parsed files of the main directory and of the test
directory, loaded in this order, the cache holds no two records with the same name key,
every cached record has a non-empty key and is the first file in load order with its
key, and every non-empty key of a file is the key of a cached record. -/
theorem loadCharacterData_first_wins (mainFiles testFiles : List Character) :
    ((loadCharacterData mainFiles testFiles).map characterKey).Nodup ∧
    (∀ d ∈ loadCharacterData mainFiles testFiles,
      characterKey d ≠ "" ∧
      ∃ pre post, mainFiles ++ testFiles = pre ++ d :: post ∧
        ∀ f ∈ pre, characterKey f ≠ characterKey d) ∧
    (∀ f ∈ mainFiles ++ testFiles, characterKey f ≠ "" →
      ∃ d ∈ loadCharacterData mainFiles testFiles, characterKey d = characterKey f) := by
  have hfold : loadCharacterData mainFiles testFiles =
      (loadFromDir {} (mainFiles ++ testFiles)).allCharacterData := by
    simp [loadCharacterData, loadFromDir, List.foldl_append]
  obtain ⟨new, hall, hnd, hnew, hcov⟩ := loadFromDir_adds (mainFiles ++ testFiles) {} rfl
  have hcache : loadCharacterData mainFiles testFiles = new := by
    rw [hfold, hall]
    rfl
  rw [hcache]
  refine ⟨hnd, ?_, ?_⟩
  · intro d hd
    obtain ⟨hne, _, hfirst⟩ := hnew d hd
    exact ⟨hne, hfirst⟩
  · intro f hf hfne
    rcases hcov f hf hfne with h | h
    · simp at h
    · obtain ⟨d, hd, hkey⟩ := List.mem_map.mp h
      exact ⟨d, hd, hkey⟩

/-- Three files of the main directory and two of the test directory: the second file
has the key of the first, the third has no name, and the first test file has the key of
the first again. -/
theorem loadCharacterData_sample :
    loadCharacterData
      [{ name := some "Akane" }, { character := some "AKANE", name := some "Other" }, {}]
      [{ name := some "akane" }, { name := some "Mio" }] =
      [{ name := some "Akane" }, { name := some "Mio" }] := by
  decide

/-! ## C18: a move with a sequence input can become its own parent -/

theorem updateAt_append_length {α : Type} (f : α → α) (xs : List α) (x : α) :
    updateAt f xs.length (xs ++ [x]) = xs ++ [f x] := by
  induction xs with
  | nil => rfl
  | cons y rest ih => simp [updateAt, ih]

theorem startsWithL_splitL_head (sep : Char) (l : List Char) :
    ∃ part rest, splitL sep l = part :: rest ∧ startsWithL l part = true := by
  induction l with
  | nil => exact ⟨[], [], rfl, rfl⟩
  | cons c cs ih =>
    obtain ⟨part, rest, hs, hp⟩ := ih
    by_cases hc : c = sep
    · subst hc
      exact ⟨[], splitL c cs, by simp [splitL], rfl⟩
    · refine ⟨c :: part, rest, by simp [splitL, hc, hs], ?_⟩
      simp [startsWithL, hp]

theorem startsWith_first_part (s : String) (sep : Char) :
    startsWith s (((split s sep).get? 0).getD "") = true := by
  obtain ⟨part, rest, hs, hp⟩ := startsWithL_splitL_head sep s.data
  simp [split, startsWith, hs, hp]

/-- A move whose input contains `~` and that is the only move of the section is found
by the search for its own parent. -/
theorem attachSequence_self (nodes : List MoveNode) (node : MoveNode) (i : String)
    (hin : node.move.input = some i) (hne : i ≠ "") (htilde : includes i "~" = true) :
    attachSequence true false nodes.length
      { nodes := nodes ++ [node], sectionMoves := [nodes.length] } =
      { nodes := nodes ++ [{ node with followUps := node.followUps ++ [nodes.length],
                                       parentMove := some nodes.length }],
        sectionMoves := [] } := by
  have hget : (nodes ++ [node]).get? nodes.length = some node := by
    simp
  have htruthy : truthy (some i) = true := by
    simp [truthy, hne]
  have hstart : inputStartsWith { nodes := nodes ++ [node], sectionMoves := [nodes.length] }
      (((split i '~').get? 0).getD "") nodes.length = true := by
    unfold inputStartsWith
    simp only [hget, hin, Option.getD_some, startsWith_first_part, Bool.and_true, htruthy,
      Bool.or_true]
  have hfilter : [nodes.length].filter (fun m => m != nodes.length) = [] := by
    simp
  unfold attachSequence
  simp only [hget, Option.some_bind, hin, Option.getD_some, htilde, Bool.and_true, htruthy,
    if_true, findPossibleParent, hstart, Bool.not_false, updateAt_append_length, hfilter]

/-- In an empty section every move table that is not a follow-up by its name and has
no sibling after it, and whose input contains `~`, leaves its move as its own parent
and as a member of its own follow-ups, outside the section. -/
theorem sequence_move_own_parent (depth : Nat) (page : Page) (t : MoveTable)
    (currentMove : Option Nat) (isFollowUp : Bool) (g : MoveGraph) (i : String)
    (hhead : includes (trim t.bigText) "Follow-ups" = false) (hbig : 0 < t.bigCount)
    (hname : isNewFollowUpName (trim t.firstBig) = false) (hsib : t.siblings = [])
    (hsec : g.sectionMoves = []) (hinput : tableInput t = some i) (hne : i ≠ "")
    (htilde : includes i "~" = true) :
    processTable depth page t true currentMove isFollowUp g =
      some { nodes := g.nodes ++ [{ move := (tableMove t none).move,
                                    followUps := [g.nodes.length],
                                    parentMove := some g.nodes.length }],
             sectionMoves := [] } := by
  have hin : (tableMove t none).move.input = some i := hinput
  have hself := attachSequence_self g.nodes (tableMove t none) i hin hne htilde
  unfold processTable
  simp only [hhead, Bool.false_eq_true, if_false, hbig, gt_iff_lt, if_true, hname, hsib,
    List.take_nil, forEachO, hsec, List.nil_append, hself]
  rfl

/-- C18 fails on the code. In an empty section the table of the move `Rolling Attack`
with input `41236*~236A` leaves a move that is its own `parentMove`, is a member of its
own `followUps` and is no longer a move of the section; the same happens after a move
whose input does not match. After a move with input `41236` the move is attached to
that move. -/
theorem processTable_self_parent :
    processTable 1 [] sequenceTable true none false {} =
      some { nodes := [{ move := { name := "Rolling Attack", input := some "41236~236A" },
                         followUps := [0], parentMove := some 0 }],
             sectionMoves := [] } ∧
    (processTable 1 [] sequenceTable true none false {}).map MoveGraph.selfLinked =
      some true ∧
    processTable 1 [] sequenceTable true (some 0) false stanceGraph =
      some { nodes := [{ move := { name := "Stance", input := some "214" } },
                       { move := { name := "Rolling Attack", input := some "41236~236A" },
                         followUps := [1], parentMove := some 1 }],
             sectionMoves := [0] } ∧
    processTable 1 [] sequenceTable true (some 0) false rollingGraph =
      some { nodes := [{ move := { name := "Rolling", input := some "41236" },
                         followUps := [1] },
                       { move := { name := "Rolling Attack", input := some "41236~236A" },
                         parentMove := some 0 }],
             sectionMoves := [0] } := by
  refine ⟨?_, ?_, ?_, ?_⟩
  · decide
  · decide
  · decide
  · decide

/-! ## C19: the follow-ups are not written to the character file -/

/-- C19 fails on the code. No move written by `botFormatOutput` has a field
`followUps` or `parentMove`, whatever the graph; for the section with the move
`Example Move` and its follow-up, the one move written is `Example Move`, and the
follow-up is not written; and the move `Rolling Attack`, which `processTable` attaches to
the move `Rolling` and removes from the section, is not written either. -/
theorem botFormatSection_drops_followUps :
    (∀ (g : MoveGraph) (m : Move), m ∈ botFormatSection g →
      m.followUps = none ∧ m.parentMove = none) ∧
    (attachedGraph.nodes.map (fun node => node.followUps)) = [[1], []] ∧
    (botFormatSection attachedGraph).map (fun m => (m.moveName, m.input, m.followUps)) =
      [(some "Example Move", some "236A", none)] ∧
    (processTable 1 [] sequenceTable true (some 0) false rollingGraph).map
      (fun g => (botFormatSection g).map (fun m => m.moveName)) = some [some "Rolling"] := by
  refine ⟨?_, by decide, by decide, by decide⟩
  intro g m hm
  unfold botFormatSection at hm
  rw [List.mem_filterMap] at hm
  obtain ⟨i, _, hi⟩ := hm
  cases hn : g.nodes.get? i with
  | none =>
    rw [hn] at hi
    exact absurd hi (by simp)
  | some node =>
    rw [hn] at hi
    simp only [Option.map_some', Option.some.injEq] at hi
    subst hi
    exact ⟨rfl, rfl⟩

/-! ## C20: a note that begins with the word Version is filed under V -/

theorem toUpper_V : Char.toUpper 'V' = 'V' := by decide

theorem versionMatch_word (L : Char) (hL : L = 'A' ∨ L = 'B' ∨ L = 'C') (t : String) :
    versionMatch (String.mk ("Version ".data ++ L :: ':' :: ' ' :: t.data)) =
      some (String.mk ("Version ".data ++ [L, ':'])) := by
  rcases hL with h | h | h <;> subst h <;>
    simp [versionMatch, versionMarks, startsWithCI, startsWithL, List.find?] <;> rfl

theorem classifyNotes_word (L : Char) (hL : L = 'A' ∨ L = 'B' ∨ L = 'C') (t : String) :
    classifyNotes [String.mk ("Version ".data ++ L :: ':' :: ' ' :: t.data)] =
      { versionNotes := [("V", [trim (String.mk (' ' :: t.data))])], generalNotes := [] } := by
  have hm := versionMatch_word L hL t
  simp only [classifyNotes, List.foldl, classifyNote, removeVersionMark, hm]
  rcases hL with h | h | h <;> subst h <;> rfl

/-- C20 fails on the code. For every text `t`, the classifier files the notes
`Version A: t`, `Version B: t` and `Version C: t` under the label `V`, the first
character of the matched text, and nothing under the labels `A`, `B` and `C`. -/
theorem classifyNotes_version_word_under_V (t : String) :
    classifyNotes ["Version A: " ++ t] =
      { versionNotes := [("V", [trim (" " ++ t)])], generalNotes := [] } ∧
    classifyNotes ["Version B: " ++ t] =
      { versionNotes := [("V", [trim (" " ++ t)])], generalNotes := [] } ∧
    classifyNotes ["Version C: " ++ t] =
      { versionNotes := [("V", [trim (" " ++ t)])], generalNotes := [] } ∧
    notesUnder "A" (classifyNotes ["Version A: " ++ t]).versionNotes = none ∧
    notesUnder "B" (classifyNotes ["Version B: " ++ t]).versionNotes = none ∧
    notesUnder "C" (classifyNotes ["Version C: " ++ t]).versionNotes = none := by
  have hA := classifyNotes_word 'A' (Or.inl rfl) t
  have hB := classifyNotes_word 'B' (Or.inr (Or.inl rfl)) t
  have hC := classifyNotes_word 'C' (Or.inr (Or.inr rfl)) t
  have eA : "Version A: " ++ t = String.mk ("Version ".data ++ 'A' :: ':' :: ' ' :: t.data) := by
    apply String.ext; simp
  have eB : "Version B: " ++ t = String.mk ("Version ".data ++ 'B' :: ':' :: ' ' :: t.data) := by
    apply String.ext; simp
  have eC : "Version C: " ++ t = String.mk ("Version ".data ++ 'C' :: ':' :: ' ' :: t.data) := by
    apply String.ext; simp
  have eT : " " ++ t = String.mk (' ' :: t.data) := by
    apply String.ext; simp
  rw [eA, eB, eC, eT, hA, hB, hC]
  refine ⟨rfl, rfl, rfl, ?_, ?_, ?_⟩ <;> simp [notesUnder, List.find?]

/-! ## C21: general notes are de-duplicated before they are cleaned -/

theorem nodup_foldl_newSet (notes set : List String) (h : set.Nodup) :
    (notes.foldl (fun set note => if set.contains note then set else set ++ [note])
      set).Nodup := by
  induction notes generalizing set with
  | nil => simpa using h
  | cons n rest ih =>
    rw [List.foldl_cons]
    apply ih
    by_cases hc : set.contains n = true
    · simp only [hc, if_true]
      exact h
    · simp only [hc, Bool.false_eq_true, if_false]
      have hn : n ∉ set := by simpa using hc
      rw [List.nodup_append]
      refine ⟨h, List.nodup_singleton n, ?_⟩
      intro a ha hb
      simp only [List.mem_singleton] at hb
      subst hb
      exact hn ha

theorem newSet_nodup (notes : List String) : (newSet notes).Nodup :=
  nodup_foldl_newSet notes [] List.nodup_nil

/-- When the cleaning changes no general note, the returned notes hold no string
twice. -/
theorem cleanedNotes_nodup_of_clean (allNotes : List String)
    (h : ∀ n ∈ allNotes, trim (collapseSpaces n) = n) :
    (extractVersionNotes allNotes).cleanedNotes.Nodup := by
  have hgen : ∀ n ∈ newSet (classifyNotes allNotes).generalNotes, n ∈ allNotes := by
    intro n hn
    rw [mem_newSet] at hn
    have h2 := (foldl_classifyNote allNotes {}).2.1
    unfold classifyNotes at hn
    rw [h2] at hn
    simp only [List.nil_append, List.mem_filter] at hn
    exact hn.1
  have hmap : (newSet (classifyNotes allNotes).generalNotes).map
      (fun note => trim (collapseSpaces note)) = newSet (classifyNotes allNotes).generalNotes := by
    conv => rhs; rw [← List.map_id (newSet (classifyNotes allNotes).generalNotes)]
    apply List.map_congr_left
    intro n hn
    exact h n (hgen n hn)
  unfold extractVersionNotes
  simp only [hmap]
  exact (newSet_nodup _).filter _

/-- C21 fails on the code. The notes `Knocks  down`, with two spaces, and `Knocks down`
are two members of the set; the cleaning, which comes after, makes them equal, and the
returned notes hold `Knocks down` twice. -/
theorem cleanedNotes_twice :
    (extractVersionNotes ["Knocks  down", "Knocks down"]).cleanedNotes =
      ["Knocks down", "Knocks down"] ∧
    ¬ (extractVersionNotes ["Knocks  down", "Knocks down"]).cleanedNotes.Nodup := by
  constructor
  · decide
  · decide

/-! ## C22: the rows of a data table -/

theorem foldl_dataRowStep (rest : List TableRow) :
    ∀ (k : Nat) (acc : DataTable), 1 ≤ k →
      (rest.enumFrom k).foldl dataRowStep acc =
        { headers := acc.headers,
          rows := acc.rows ++
            (rest.filter (fun r => !isNotesRow r)).map (rowData acc.headers),
          notes := acc.notes ++
            ((rest.filter isNotesRow).map (fun r => trim r.text)).filter
              (fun n => n != "") } := by
  induction rest with
  | nil =>
    intro k acc _
    simp
  | cons r rs ih =>
    intro k acc hk
    have hk0 : (k == 0) = false := by
      rw [beq_eq_false_iff_ne]
      omega
    rw [List.enumFrom_cons, List.foldl_cons, ih (k + 1) _ (by omega)]
    unfold dataRowStep
    by_cases hn : isNotesRow r = true
    · by_cases ht : (trim r.text != "") = true
      · simp [hn, ht, List.filter_cons]
      · simp [hn, ht, List.filter_cons]
    · simp [hn, hk0, List.filter_cons]

/-- C22, as stated, fails. In `wideCellTable` the third row contains a cell whose
colspan is 5, after a first cell without colspan, and is emitted as a data row; and its
second cell, under the empty header, is keyed `col1` although the header row has two
cells. -/
theorem processDataTable_counterexample :
    (processDataTable wideCellTable).rows =
      [[("Damage", "500"), ("col1", "7")], [("Damage", "a"), ("col1", "wide")]] ∧
    (processDataTable wideCellTable).notes = ["Only one.", "Notes here. x"] ∧
    (processDataTable wideCellTable).headers = ["Damage", ""] := by
  decide

/-- C22, amended. For every table, a row is a notes row when it has exactly one cell or
when the colspan of its first `td` is read as a number of at least 5. The data rows are
the rows after the first that are not notes rows, one data row each, in document order,
built from the headers of the first row (none when the first row is a notes row); the
notes are the non-empty trimmed texts of the notes rows, in order; and the key of the
cell at position `idx` is the header at that position when there is one that is not
empty, and `col` followed by `idx` otherwise. -/
theorem processDataTable_rows (table : List TableRow) :
    (processDataTable table).rows =
      (table.tail.filter (fun r => !isNotesRow r)).map (rowData (headersOf table)) ∧
    (processDataTable table).notes =
      ((table.filter isNotesRow).map (fun r => trim r.text)).filter (fun n => n != "") ∧
    (processDataTable table).headers = headersOf table ∧
    (∀ (headers : List String) (idx : Nat) (h : String), headers.get? idx = some h →
      h ≠ "" → headerKey headers idx = h) ∧
    (∀ (headers : List String) (idx : Nat), headers.length ≤ idx →
      headerKey headers idx = "col" ++ numberToString idx) ∧
    (∀ (headers : List String) (idx : Nat), headers.get? idx = some "" →
      headerKey headers idx = "col" ++ numberToString idx) := by
  refine ⟨?_, ?_, ?_, ?_, ?_, ?_⟩
  · cases table with
    | nil => rfl
    | cons r rs =>
      unfold processDataTable
      rw [List.enum, List.enumFrom_cons, List.foldl_cons, foldl_dataRowStep rs 1 _ (by omega)]
      unfold dataRowStep headersOf
      by_cases hn : isNotesRow r = true
      · by_cases ht : (trim r.text != "") = true <;> simp [hn, ht]
      · simp [hn]
  · cases table with
    | nil => rfl
    | cons r rs =>
      unfold processDataTable
      rw [List.enum, List.enumFrom_cons, List.foldl_cons, foldl_dataRowStep rs 1 _ (by omega)]
      unfold dataRowStep
      by_cases hn : isNotesRow r = true
      · by_cases ht : (trim r.text != "") = true <;> simp [hn, ht, List.filter_cons]
      · simp [hn, List.filter_cons]
  · cases table with
    | nil => rfl
    | cons r rs =>
      unfold processDataTable
      rw [List.enum, List.enumFrom_cons, List.foldl_cons, foldl_dataRowStep rs 1 _ (by omega)]
      unfold dataRowStep headersOf
      by_cases hn : isNotesRow r = true
      · by_cases ht : (trim r.text != "") = true <;> simp [hn, ht]
      · simp [hn]
  · intro headers idx h hget hne
    unfold headerKey
    rw [hget]
    simp [truthy, hne]
  · intro headers idx hlen
    have hget : headers.get? idx = none := by
      rw [List.get?_eq_none]
      exact hlen
    unfold headerKey
    rw [hget]
    simp [truthy]
  · intro headers idx hget
    unfold headerKey
    rw [hget]
    simp [truthy]

/-! ## C23: the star is removed from the input before the variations are derived -/

/-- A move whose stored input contains `*` or `/`, with one data row and no per-version
notes, is written with the three variations `A`, `B` and `C`, each with the damage and
the frame data of the row. -/
theorem botFormatMove_default_variations (move : RawMove) (row : Row)
    (hsig : inputSignalsVersions move = true) (hdata : move.data = [row])
    (hvn : move.versionNotes = []) :
    (botFormatMove move).variations = some (["A", "B", "C"].map (defaultVariation move)) ∧
    ∀ v ∈ ["A", "B", "C"].map (defaultVariation move),
      v.damage = some (orEmpty (lookup "Damage" row)) ∧
      v.framedata = some (frameDataOf (some row)) := by
  constructor
  · simp [botFormatMove, moveVariations, hsig, hdata, hvn]
  · intro v hv
    simp only [List.map_cons, List.map_nil, List.mem_cons, List.mem_singleton,
      List.not_mem_nil, or_false] at hv
    rcases hv with rfl | rfl | rfl <;> simp [defaultVariation, hdata, cell]

/-- A move whose stored input contains neither `*` nor `/`, with at most one data row
and no per-version notes, is written without variations. -/
theorem botFormatMove_no_variations (move : RawMove)
    (hsig : inputSignalsVersions move = false) (hdata : move.data.length ≤ 1)
    (hvn : move.versionNotes = []) :
    (botFormatMove move).variations = none := by
  have h1 : ¬ (1 < move.data.length) := by omega
  simp [botFormatMove, moveVariations, hsig, hvn, h1]

/-- C23 fails on the code. For the table of a move with the input `236*`, one data row
and no notes, both walks store the input `236`, and the move is written without
variations; with the input `236*/214*` the stored input is `236/214*` and the move is
written with the variations `A`, `B` and `C`. -/
theorem botFormatOutput_star_input :
    (tableMove starTable none).move.input = some "236" ∧
    (headerTableMove starTable).move.input = some "236" ∧
    (botFormatMove (tableMove starTable none).move).variations = none ∧
    (botFormatMove (headerTableMove starTable).move).variations = none ∧
    (walkPage 1 [] none 0 [] starElements).map
      (fun st => (botFormatOutput st).map
        (fun ml => (ml.moves.getD []).map (fun m => m.bind (fun x => x.variations)))) =
      some [[none]] ∧
    (walkPage 1 [] (some ["Normal"]) 0 [] starElements).map
      (fun st => (botFormatOutput st).map
        (fun ml => (ml.moves.getD []).map (fun m => m.bind (fun x => x.variations)))) =
      some [[none]] ∧
    (tableMove slashTable none).move.input = some "236/214*" ∧
    ((botFormatMove (tableMove slashTable none).move).variations.getD []).map
      (fun v => (v.version, v.damage)) =
      [(some "A", some "500"), (some "B", some "500"), (some "C", some "500")] := by
  refine ⟨by decide, by decide, by decide, by decide, by decide, by decide, by decide,
    by decide⟩

/-! ## C24: rendering assigns `move.currentImage` -/

/-- C24, as stated, fails. For version 0 of a move with an image and a variation the
call returns, and the field `currentImage`, absent before the call, holds the image of
the move after it; for version 1 it holds the image of the variation. -/
theorem createMoveEmbed_currentImage_counterexample :
    picturedMove.currentImage = none ∧
    (createMoveEmbed grabCharacter picturedMove {} none 0).map
      (fun r => r.move.currentImage) =
        Except.ok (some "https://wiki.gbl.gg/images/base.png") ∧
    (createMoveEmbed grabCharacter picturedMove {} none 1).map
      (fun r => r.move.currentImage) =
        Except.ok (some "https://wiki.gbl.gg/images/a.png") := by
  decide

/-- A relative image address is refused: for the move of `picturedMove` with the
address `/base.png` the call raises at `setImage`. -/
theorem createMoveEmbed_relative_image :
    createMoveEmbed grabCharacter { picturedMove with image := some "/base.png" } {} none 0 =
      Except.error JSError.validationError := by
  decide

/-- The move object after the version-dependent part. -/
theorem versionView_move (e : Embed) (move : Move) (version : Int) (w : VersionView)
    (hw : versionView e move version = Except.ok w) :
    w.move = { move with currentImage := currentImageAfter move version } := by
  unfold versionView at hw
  split at hw
  · rename_i v vs hv
    by_cases h0 : version = 0
    · have hcur : currentImageAfter move version = move.image := by
        simp [currentImageAfter, hv, h0]
      simp only [h0, if_true, bind_ok] at hw
      obtain ⟨e1, _, hw1⟩ := hw
      rw [hcur]
      cases hw1
      rfl
    · simp only [h0, if_false] at hw
      cases hi : index (v :: vs) (version - 1) with
      | none =>
        have hcur : currentImageAfter move version = move.currentImage := by
          simp [currentImageAfter, hv, h0, hi]
        simp only [hi, Except.ok.injEq] at hw
        rw [hcur, ← hw]
      | some cv =>
        simp only [hi, bind_ok] at hw
        obtain ⟨e1, _, hw1⟩ := hw
        by_cases hc : truthy cv.image = true
        · have hcur : currentImageAfter move version = cv.image := by
            simp [currentImageAfter, hv, h0, hi, hc]
          rw [hcur]
          cases hw1
          simp [hc]
        · have hcur : currentImageAfter move version = move.currentImage := by
            simp [currentImageAfter, hv, h0, hi, hc]
          rw [hcur]
          cases hw1
          simp [hc]
  · rename_i hnot
    have hcur : currentImageAfter move version = move.currentImage := by
      unfold currentImageAfter
      split
      · rename_i v vs hv
        exact absurd hv (hnot v vs)
      · rfl
    rw [hcur]
    split at hw
    · simp only [bind_ok] at hw
      obtain ⟨e3, _, hw1⟩ := hw
      cases hw1
      rfl
    · simp only [bind_ok] at hw
      obtain ⟨e3, _, hw1⟩ := hw
      cases hw1
      rfl

/-- C24, amended. Whenever `createMoveEmbed` returns, every field of the move object
other than `currentImage` has the value it had before the call, and `currentImage`
holds the image of the move for version 0 of a move with variations, the image of the
variation shown when that has one, and its former value otherwise. -/
theorem createMoveEmbed_changes_currentImage_only (c : Character) (move : Move)
    (sec : Section) (mln : Option String) (version : Int) (r : MoveEmbed)
    (h : createMoveEmbed c move sec mln version = Except.ok r) :
    r.move = { move with currentImage := currentImageAfter move version } := by
  obtain ⟨e, w, _, hw, hr⟩ := (createMoveEmbed_ok c move sec mln version r).mp h
  rw [(finishEmbed_ok c move version w r hr).2.2.2.2.2]
  exact versionView_move e move version w hw

/-- C24, amended, at version 0 of `picturedMove`: the call returns, and the move object
it leaves differs from the one it was given in `currentImage` alone. -/
theorem createMoveEmbed_changes_currentImage_only_witness :
    createMoveEmbed grabCharacter picturedMove {} none 0 = Except.ok picturedResult ∧
    picturedResult.move =
      { picturedMove with currentImage := currentImageAfter picturedMove 0 } :=
  ⟨by decide,
    createMoveEmbed_changes_currentImage_only grabCharacter picturedMove {} none 0
      picturedResult (by decide)⟩

/-! ## C25: the input-notation test reads the query in its own letter case -/

/-- Two queries that are equal ignoring letter case and on which the input-notation test
agrees return the same list. -/
theorem findMoveByNameOrInput_same_case (c : Character) (q q2 : String)
    (hlow : toLowerCase q = toLowerCase q2)
    (hgate : isInputNotation q = isInputNotation q2) :
    findMoveByNameOrInput c q = findMoveByNameOrInput c q2 := by
  unfold findMoveByNameOrInput
  rw [hlow, hgate]

/-- C25 fails on the code. The queries `j.a` and `J.A` differ only in letter case; the
first passes the input-notation test and returns the move with input `j.A` alone, the
second does not pass it and returns both moves whose input contains `j.a`. -/
theorem findMoveByNameOrInput_case_of_jump :
    toLowerCase "j.a" = toLowerCase "J.A" ∧
    isInputNotation "j.a" = true ∧ isInputNotation "J.A" = false ∧
    (findMoveByNameOrInput jumpCharacter "j.a").map (fun r => r.move.input) =
      [some "j.A"] ∧
    (findMoveByNameOrInput jumpCharacter "J.A").map (fun r => r.move.input) =
      [some "j.A", some "j.AB"] := by
  decide

/-! ## C26: an arrow move after a top-level move -/

/-- In the header-based walk a table with an arrow name, met while a move is the
current move, adds its move to the follow-ups of that move and leaves the sections as
they are. -/
theorem headerTable_arrow (depth : Nat) (page : Page) (t : MoveTable) (st : WalkState)
    (parent : Nat) (hhead : includes (trim t.bigText) "Follow-ups" = false)
    (hbig : 0 < t.bigCount) (hname : startsWith (trim t.firstBig) "→" = true)
    (hcur : st.currentMove = some parent) (hsec : ∀ i, st.currentSection = some i →
      i < st.sections.length) :
    ∃ st1, headerTable depth page t st = some st1 ∧ st1.sections = st.sections ∧
      st1.nodes = updateAt (fun p => { p with followUps := p.followUps ++ [st.nodes.length] })
        parent st.nodes ++ [headerTableMove t] ∧
      st1.currentMove = some parent ∧ st1.isFollowUp = true := by
  have hsections : (st.withGraph (st.graph.pushFollowUp parent (headerTableMove t))).sections =
      st.sections := by
    unfold WalkState.withGraph WalkState.graph MoveGraph.pushFollowUp
    cases hc : st.currentSection with
    | none => rfl
    | some i =>
      have hi := hsec i hc
      simp only [Option.some_bind]
      apply List.ext_get?
      intro k
      rw [get?_updateAt]
      by_cases hk : k = i
      · subst hk
        cases hg : st.sections.get? k with
        | none => simp [hg]
        | some s => simp [hg]
      · simp [hk]
  unfold headerTable
  simp only [hhead, Bool.false_eq_true, if_false, hbig, gt_iff_lt, if_true, hname, Bool.not_true,
    Bool.false_and, hcur]
  refine ⟨_, rfl, hsections, ?_, rfl, rfl⟩
  simp [WalkState.withGraph, WalkState.graph, MoveGraph.pushFollowUp]

/-- With no current move, as the toggle-based walk calls it, `processTable` adds the
move of a table with an arrow name and no sibling to the moves of the section. -/
theorem processTable_arrow_no_current (depth : Nat) (page : Page) (t : MoveTable)
    (isFollowUp : Bool) (g : MoveGraph)
    (hhead : includes (trim t.bigText) "Follow-ups" = false) (hbig : 0 < t.bigCount)
    (hname : startsWith (trim t.firstBig) "→" = true) (hsib : t.siblings = []) :
    processTable depth page t true none isFollowUp g =
      some { nodes := g.nodes ++ [tableMove t none],
             sectionMoves := g.sectionMoves ++ [g.nodes.length] } := by
  have hnew : isNewFollowUpName (trim t.firstBig) = true := by
    simp [isNewFollowUpName, hname]
  unfold processTable
  simp only [hhead, Bool.false_eq_true, if_false, hbig, gt_iff_lt, if_true, hnew, hsib,
    List.take_nil, forEachO, Bool.not_true, Bool.false_and, ite_self]
  unfold attachSequence
  simp only [Bool.not_true, Bool.false_eq_true, if_false]
  split
  · split <;> rfl
  · rfl

/-- The toggle-based walk never has a current move: after every element `currentMove`
is `null` and `isFollowUp` is false. -/
theorem toggleStep_no_current (depth : Nat) (page : Page) (movelistHeaders : List String)
    (st st1 : WalkState) (el : PageElement) (hcur : st.currentMove = none)
    (hfu : st.isFollowUp = false) (h : toggleStep depth page movelistHeaders st el = some st1) :
    st1.currentMove = none ∧ st1.isFollowUp = false := by
  cases el with
  | heading raw =>
    simp only [toggleStep, Option.some.injEq] at h
    subst h
    by_cases ht : (trim raw == "") = true <;> simp [toggleHeading, ht, hcur, hfu]
  | table t =>
    simp only [toggleStep, Option.map_eq_some'] at h
    obtain ⟨g, _, hg⟩ := h
    subst hg
    exact ⟨hcur, hfu⟩

/-- C26 fails on the code. For a section heading followed by the table of the move
`Rolling` and the table of the move `→ Slash`, the header-based walk adds the arrow move
to the follow-ups of `Rolling` and leaves `Rolling` as the one move of the section; the
toggle-based walk adds the arrow move to the moves of the section and leaves the
follow-ups of `Rolling` empty, and both moves are written as top-level moves. -/
theorem walkPage_arrow_move :
    (walkPage 1 arrowPage none 0 [] arrowElements).map
      (fun st => (st.sections, st.nodes.map (fun node => node.followUps))) =
      some ([{ name := "Specials", moves := [0] }], [[1], []]) ∧
    (walkPage 1 arrowPage (some ["Normal", "Alternate"]) 0 [] arrowElements).map
      (fun st => (st.sections, st.nodes.map (fun node => node.followUps))) =
      some ([{ name := "Specials", moves := [0, 1] }], [[], []]) ∧
    (walkPage 1 arrowPage (some ["Normal", "Alternate"]) 0 [] arrowElements).map
      (fun st => (botFormatOutput st).map
        (fun ml => (ml.moves.getD []).map (fun m => m.bind (fun x => x.moveName)))) =
      some [[some "Rolling", some "→ Slash"]] := by
  refine ⟨by decide, by decide, by decide⟩

/-! ## C27: a notes row with text becomes a follow-up -/

/-- C27 fails on the code. The follow-up table of `followUpPage` has one follow-up row,
`→ Example`, and below it a notes row with the text `Knocks down.`; the parent gains two
follow-ups, the second one named after the text of the notes row, which is also the note
of the first. When the notes row holds a list only, the parent gains one follow-up. -/
theorem processFollowUpTable_notes_row :
    (processFollowUpTable 1 followUpPage (some 1) (some 0) parentGraph).map
      (fun g => g.nodes.map (fun node => node.followUps)) = some [[1, 2], [], []] ∧
    (processFollowUpTable 1 followUpPage (some 1) (some 0) parentGraph).map
      (fun g => g.nodes.map (fun node => node.move.name)) =
      some ["Example Move", "→ Example", "Knocks down."] ∧
    (processFollowUpTable 1 followUpPage (some 1) (some 0) parentGraph).map
      (fun g => g.nodes.map (fun node => node.move.notes)) =
      some [[], ["Knocks down."], []] ∧
    (processFollowUpTable 1 bulletsPage (some 1) (some 0) parentGraph).map
      (fun g => g.nodes.map (fun node => node.followUps)) = some [[1], []] := by
  refine ⟨by decide, by decide, by decide, by decide⟩

/-! ## C28: a version from 1 on shows a variation -/

theorem fieldsNamed_variationFields (e e1 : Embed) (v : Variation) (n : String)
    (h : variationFields e v = Except.ok e1) :
    fieldsNamed n e1 =
      fieldsNamed n e ++
      (if truthy v.damage = true ∧ "Damage" = n then [{ name := "Damage", value := v.damage }]
       else []) ++
      (match v.framedata with
       | some fd =>
         if frameDataText fd ≠ "" ∧ "Frame Data" = n then
           [{ name := "Frame Data", value := some (frameDataText fd) }]
         else []
       | none => []) ++
      (match v.notes with
       | some x =>
         if x ≠ "" ∧ "Notes" = n then [{ name := "Notes", value := some (truncateText x 1000) }]
         else []
       | none => []) := by
  unfold variationFields at h
  simp only [bind_ok] at h
  obtain ⟨a, ha, b, hb, hc⟩ := h
  have fa : fieldsNamed n a = fieldsNamed n e ++
      (if truthy v.damage = true ∧ "Damage" = n then [{ name := "Damage", value := v.damage }]
       else []) := by
    by_cases hd : truthy v.damage = true
    · rw [if_pos hd] at ha
      rw [fieldsNamed_addFields _ _ n _ _ ha]
      by_cases hn : "Damage" = n <;> simp [hd, hn]
    · rw [if_neg hd] at ha
      cases ha
      simp [hd]
  have fb : fieldsNamed n b = fieldsNamed n a ++
      (match v.framedata with
       | some fd => if frameDataText fd ≠ "" ∧ "Frame Data" = n
                    then [{ name := "Frame Data", value := some (frameDataText fd) }] else []
       | none => []) := by
    cases hf : v.framedata with
    | none =>
      simp only [hf, Except.ok.injEq] at hb
      subst hb
      simp
    | some fd =>
      simp only [hf] at hb
      exact fieldsNamed_addFrameData _ _ n _ hb
  have fc : fieldsNamed n e1 = fieldsNamed n b ++
      (match v.notes with
       | some x =>
         if x ≠ "" ∧ "Notes" = n then [{ name := "Notes", value := some (truncateText x 1000) }]
         else []
       | none => []) := by
    cases hnotes : v.notes with
    | none =>
      simp only [hnotes, Except.ok.injEq] at hc
      subst hc
      simp
    | some x =>
      simp only [hnotes] at hc
      by_cases hx : x = ""
      · simp only [hx, bne_self_eq_false, Bool.false_eq_true, if_false, Except.ok.injEq] at hc
        subst hc
        simp [hx]
      · rw [if_pos (by simpa using hx)] at hc
        rw [fieldsNamed_addFields _ _ n _ _ hc]
        by_cases hn : "Notes" = n <;> simp [hx, hn]
  rw [fc, fb, fa]

theorem index_pred (vars : List Variation) (k : Nat) (hk : 1 ≤ k) :
    index vars ((k : Int) - 1) = vars.get? (k - 1) := by
  unfold index
  have h1 : ¬ ((k : Int) - 1 < 0) := by omega
  have h2 : ((k : Int) - 1).toNat = k - 1 := by omega
  rw [if_neg h1, h2]

/-- The version-dependent part for a move with variations and a version other than 0
that names a variation. -/
theorem versionView_of_variation (e : Embed) (move : Move) (vars : List Variation)
    (k : Nat) (cv : Variation) (hv : move.variations = some vars) (hk : 1 ≤ k)
    (hcv : vars.get? (k - 1) = some cv) :
    versionView e move (k : Int) =
      (variationFields e cv).bind (fun e1 =>
        Except.ok { embed := e1, hasVersions := true, versionCount := vars.length + 1,
                    versionLabels :=
                      "Base Move" :: vars.map (fun w => (orElse w.version (some "")).getD ""),
                    isBaseMove := false,
                    move := if truthy cv.image
                      then { move with currentImage := cv.image } else move }) := by
  cases vars with
  | nil => simp at hcv
  | cons v vs =>
    have hne : ¬ ((k : Int) = 0) := by omega
    have hidx := index_pred (v :: vs) k hk
    rw [hcv] at hidx
    unfold versionView
    simp only [hv, hne, if_false, hidx]

/-- The counts and labels the function reports for a move with variations, whatever
the version, when it returns. -/
theorem versionView_labels (e : Embed) (move : Move) (v : Variation) (vs : List Variation)
    (version : Int) (w : VersionView) (hv : move.variations = some (v :: vs))
    (hw : versionView e move version = Except.ok w) :
    w.versionCount = (v :: vs).length + 1 ∧
      w.versionLabels =
        "Base Move" :: (v :: vs).map (fun x => (orElse x.version (some "")).getD "") := by
  unfold versionView at hw
  simp only [hv] at hw
  by_cases h0 : version = 0
  · simp only [h0, if_true, bind_ok] at hw
    obtain ⟨e1, _, hw1⟩ := hw
    cases hw1
    exact ⟨rfl, rfl⟩
  · simp only [h0, if_false] at hw
    cases hi : index (v :: vs) (version - 1) with
    | none =>
      simp only [hi, Except.ok.injEq] at hw
      subst hw
      exact ⟨rfl, rfl⟩
    | some cv =>
      simp only [hi, bind_ok] at hw
      obtain ⟨e1, _, hw1⟩ := hw
      cases hw1
      exact ⟨rfl, rfl⟩

/-- A version whose remainder by 4 is negative has no colour in the colour map, and the
call raises: `setColor` refuses `undefined`. -/
theorem createMoveEmbed_negative_remainder (c : Character) (move : Move) (sec : Section)
    (mln : Option String) (version : Int) (hneg : Int.tmod version 4 < 0) :
    createMoveEmbed c move sec mln version = Except.error JSError.validationError := by
  have hcol : colorOf version = none := by
    unfold colorOf
    split <;> first | omega | rfl
  unfold createMoveEmbed headerEmbed
  cases ht : Embed.setTitle {} (show_ (orElse c.character c.name) ++ " - " ++
      show_ (orElse move.name move.moveName)) with
  | error err =>
    unfold Embed.setTitle at ht
    split at ht
    · cases ht
    · cases ht
      rfl
  | ok e0 =>
    simp [Except.bind, Embed.setColor, hcol, colorPredicate]

/-- C28. For a move with the variations `vars`, a version index `k` from 1 to the number
of variations and the variation `cv` at position `k - 1`, every call of
`createMoveEmbed` with version `k` that returns reports `isBaseMove = false` and has as
`Damage`, `Frame Data` and `Notes` fields exactly those built from `cv`; and for every
version index a call that returns reports the number of variations plus one as
`versionCount` and `Base Move` followed by the version labels of the variations, in
order, as `versionLabels` (a variation without label gives the empty text). -/
theorem createMoveEmbed_version_k (c : Character) (move : Move) (sec : Section)
    (mln : Option String) (vars : List Variation) (k : Nat) (cv : Variation)
    (hv : move.variations = some vars) (hk : 1 ≤ k) (hcv : vars.get? (k - 1) = some cv) :
    (∀ r, createMoveEmbed c move sec mln (k : Int) = Except.ok r →
      r.isBaseMove = false ∧
      fieldsNamed "Damage" r.embed =
        (if truthy cv.damage = true then [{ name := "Damage", value := cv.damage }] else []) ∧
      fieldsNamed "Frame Data" r.embed =
        (match cv.framedata with
         | some fd =>
           if frameDataText fd ≠ "" then
             [{ name := "Frame Data", value := some (frameDataText fd) }]
           else []
         | none => []) ∧
      fieldsNamed "Notes" r.embed =
        (match cv.notes with
         | some x =>
           if x ≠ "" then [{ name := "Notes", value := some (truncateText x 1000) }] else []
         | none => [])) ∧
    ∀ (version : Int) (r : MoveEmbed),
      createMoveEmbed c move sec mln version = Except.ok r →
      r.versionCount = vars.length + 1 ∧
      r.versionLabels =
        "Base Move" :: vars.map (fun w => (orElse w.version (some "")).getD "") := by
  constructor
  · intro r h
    obtain ⟨e, w, he, hw, hr⟩ := (createMoveEmbed_ok c move sec mln (k : Int) r).mp h
    rw [versionView_of_variation e move vars k cv hv hk hcv, bind_ok] at hw
    obtain ⟨e1, he1, hw1⟩ := hw
    have hfin := finishEmbed_ok c move (k : Int) w r hr
    have hwe : w.embed = e1 := by cases hw1; rfl
    have hbase : r.isBaseMove = false := by rw [hfin.2.2.2.2.1]; cases hw1; rfl
    have hnamed : ∀ n, "Input" ≠ n → "Follow-ups" ≠ n → fieldsNamed n r.embed =
        [] ++
        (if truthy cv.damage = true ∧ "Damage" = n
         then [{ name := "Damage", value := cv.damage }] else []) ++
        (match cv.framedata with
         | some fd =>
           if frameDataText fd ≠ "" ∧ "Frame Data" = n then
             [{ name := "Frame Data", value := some (frameDataText fd) }]
           else []
         | none => []) ++
        (match cv.notes with
         | some x =>
           if x ≠ "" ∧ "Notes" = n
           then [{ name := "Notes", value := some (truncateText x 1000) }] else []
         | none => []) := by
      intro n h1 h2
      rw [fieldsNamed_finishEmbed c move (k : Int) w r hr n h2, hwe,
        fieldsNamed_variationFields e e1 cv n he1,
        fieldsNamed_headerEmbed c move mln (k : Int) e he n h1]
    refine ⟨hbase, ?_, ?_, ?_⟩
    · rw [hnamed _ (by decide) (by decide)]
      cases cv.framedata <;> cases cv.notes <;> simp
    · rw [hnamed _ (by decide) (by decide)]
      cases cv.framedata <;> cases cv.notes <;> simp
    · rw [hnamed _ (by decide) (by decide)]
      cases cv.framedata <;> cases cv.notes <;> simp
  · intro version r h
    obtain ⟨e, w, _, hw, hr⟩ := (createMoveEmbed_ok c move sec mln version r).mp h
    have hfin := finishEmbed_ok c move version w r hr
    cases vars with
    | nil => simp at hcv
    | cons v vs =>
      have hl := versionView_labels e move v vs version w hv hw
      exact ⟨hfin.2.2.1.trans hl.1, hfin.2.2.2.1.trans hl.2⟩

/-- C28 at `variedMove`: the call for version 1 returns and shows the damage 700, the
frame data and the note of the variation `A`; the call for version 2 returns and reports
three versions with the labels `Base Move`, `A` and `B`. -/
theorem createMoveEmbed_version_k_witness :
    createMoveEmbed grabCharacter variedMove {} none ((1 : Nat) : Int) =
      Except.ok variedResultA ∧
    (variedResultA.isBaseMove = false ∧
      fieldsNamed "Damage" variedResultA.embed =
        (if truthy (some "700") = true then [{ name := "Damage", value := some "700" }]
         else []) ∧
      fieldsNamed "Frame Data" variedResultA.embed =
        (if frameDataText [("startup", "9")] ≠ "" then
           [{ name := "Frame Data", value := some (frameDataText [("startup", "9")]) }]
         else []) ∧
      fieldsNamed "Notes" variedResultA.embed =
        (if "A note" ≠ "" then [{ name := "Notes", value := some (truncateText "A note" 1000) }]
         else [])) ∧
    createMoveEmbed grabCharacter variedMove {} none 2 = Except.ok variedResultB ∧
    (variedResultB.versionCount = 2 + 1 ∧
      variedResultB.versionLabels = ["Base Move", "A", "B"]) :=
  ⟨by decide,
    (createMoveEmbed_version_k grabCharacter variedMove {} none
      [{ version := some "A", damage := some "700", framedata := some [("startup", "9")],
         notes := some "A note" },
       { version := some "B", damage := some "900" }] 1
      { version := some "A", damage := some "700", framedata := some [("startup", "9")],
        notes := some "A note" } rfl (by decide) rfl).1 variedResultA (by decide),
    by decide,
    (createMoveEmbed_version_k grabCharacter variedMove {} none
      [{ version := some "A", damage := some "700", framedata := some [("startup", "9")],
         notes := some "A note" },
       { version := some "B", damage := some "900" }] 1
      { version := some "A", damage := some "700", framedata := some [("startup", "9")],
        notes := some "A note" } rfl (by decide) rfl).2 2 variedResultB (by decide)⟩

/-- The embed of version 1 of `variedMove` shows the data of its variation `A`. -/
theorem createMoveEmbed_variedMove_A :
    (createMoveEmbed grabCharacter variedMove {} none 1).map
      (fun r => (r.embed.fields, r.isBaseMove)) =
      Except.ok ([{ name := "Input", value := some "236*" },
                  { name := "Damage", value := some "700" },
                  { name := "Frame Data", value := some "**startup**: 9\n" },
                  { name := "Notes", value := some "A note" }], false) := by
  decide

/-- Version -1 of `variedMove`: the call raises. -/
theorem createMoveEmbed_variedMove_negative :
    createMoveEmbed grabCharacter variedMove {} none (-1) =
      Except.error JSError.validationError := by
  decide

/-! ## C29: a heading that names a row of the table after it -/

/-- C29 fails on the code. On `loopPage` the call for the follow-up table does not
return, whatever the parent and the graph: the follow-up of the row sends the same table
through the function again, at every depth of the recursion. -/
theorem processFollowUpTable_loops (depth : Nat) :
    ∀ (parentMove : Nat) (g : MoveGraph),
      processFollowUpTable depth loopPage (some 1) (some parentMove) g = none := by
  induction depth with
  | zero =>
    intro parentMove g
    rfl
  | succ d ih =>
    intro parentMove g
    rw [processFollowUpTable_succ d loopPage 1 _ rfl parentMove g]
    have hrel : relatedTable (followUpName { tdCount := 3, nameElement := some "→ Example" })
        { big := "→ Example Follow-up", next := some 1 } = true := by
      decide
    simp only [List.enum, List.enumFrom, forEachO, rowStep, beq_self_eq_true, if_true]
    have hname : (followUpName { tdCount := 3, nameElement := some "→ Example" } == "") =
        false := by
      decide
    simp only [hname, Bool.false_eq_true, if_false, loopPage, forEachO, relatedStep, hrel,
      if_true]
    have h3 : ((3 : Nat) == 0) = false := by decide
    simp only [h3, Bool.false_eq_true, if_false, hname, forEachO, relatedStep, hrel, if_true]
    rw [show ([{ big := "→ Example Follow-up", next := some 1 },
        { rows := [{ tdCount := 0 }, { tdCount := 3, nameElement := some "→ Example" }] }] :
        Page) = loopPage from rfl]
    rw [ih]

/-! ## C30: every entry names its place in the record -/

theorem mem_slotsOf (k : Nat) (ml : MoveList) (s : Slot) (hs : s ∈ slotsOf k ml) :
    s.mlIndex = k ∧ s.movelist = ml ∧
      ∃ moves, ml.moves = some moves ∧ moves.get? s.idx = some s.move := by
  simp only [slotsOf, List.mem_map] at hs
  obtain ⟨p, hp, rfl⟩ := hs
  refine ⟨rfl, rfl, ?_⟩
  cases hm : ml.moves with
  | none => simp [hm] at hp
  | some moves =>
    refine ⟨moves, rfl, ?_⟩
    rw [hm] at hp
    obtain ⟨i, x⟩ := p
    have := List.mk_mem_enum_iff_getElem?.mp hp
    simpa [List.get?_eq_getElem?] using this

theorem mem_allSlots (mls : List MoveList) (s : Slot) (hs : s ∈ allSlots mls) :
    mls.get? s.mlIndex = some s.movelist ∧
      ∃ moves, s.movelist.moves = some moves ∧ moves.get? s.idx = some s.move := by
  simp only [allSlots, List.mem_flatMap] at hs
  obtain ⟨p, hp, hsp⟩ := hs
  obtain ⟨h1, h2, h3⟩ := mem_slotsOf p.1 p.2 s hsp
  obtain ⟨i, ml⟩ := p
  have hget := List.mk_mem_enum_iff_getElem?.mp hp
  simp only at h1 h2 h3
  subst h1 h2
  exact ⟨by simpa [List.get?_eq_getElem?] using hget, h3⟩

theorem slotsOf_from_sorted (mlIndex : Nat) (movelist : MoveList) (k : Nat)
    (moves : List (Option Move)) :
    (∀ s ∈ (moves.enumFrom k).map (fun p => Slot.mk mlIndex movelist p.1 p.2), k ≤ s.idx) ∧
    ((moves.enumFrom k).map (fun p => Slot.mk mlIndex movelist p.1 p.2)).Pairwise
      (fun a b => refBefore a.ref b.ref) := by
  induction moves generalizing k with
  | nil => simp
  | cons mv rest ih =>
    obtain ⟨ihge, ihpw⟩ := ih (k + 1)
    simp only [List.enumFrom_cons, List.map_cons]
    constructor
    · intro s hs
      rcases List.mem_cons.mp hs with rfl | hs
      · exact Nat.le_refl _
      · exact Nat.le_of_succ_le (ihge s hs)
    · rw [List.pairwise_cons]
      refine ⟨fun s hs => ?_, ihpw⟩
      have hge := ihge s hs
      have hml : s.mlIndex = mlIndex := by
        simp only [List.mem_map] at hs
        obtain ⟨p, -, rfl⟩ := hs
        rfl
      exact ⟨mlIndex, k, s.mlIndex, s.idx, rfl, rfl, Or.inr ⟨hml.symm, by omega⟩⟩

theorem allSlots_from_sorted (k : Nat) (movelists : List MoveList) :
    (∀ s ∈ (movelists.enumFrom k).flatMap (fun p => slotsOf p.1 p.2), k ≤ s.mlIndex) ∧
    ((movelists.enumFrom k).flatMap (fun p => slotsOf p.1 p.2)).Pairwise
      (fun a b => refBefore a.ref b.ref) := by
  induction movelists generalizing k with
  | nil => simp
  | cons ml rest ih =>
    obtain ⟨ihge, ihpw⟩ := ih (k + 1)
    simp only [List.enumFrom_cons, List.flatMap_cons]
    constructor
    · intro s hs
      rcases List.mem_append.mp hs with hs | hs
      · exact Nat.le_of_eq (slotsOf_mlIndex k ml s hs).symm
      · exact Nat.le_of_succ_le (ihge s hs)
    · rw [List.pairwise_append]
      refine ⟨(slotsOf_from_sorted k ml 0 _).2, ihpw, fun a ha b hb => ?_⟩
      have h1 := slotsOf_mlIndex k ml a ha
      have h2 := ihge b hb
      exact ⟨a.mlIndex, a.idx, b.mlIndex, b.idx, rfl, rfl, Or.inl (by omega)⟩

/-- The positions are visited move-list by move-list, each in the order of its moves. -/
theorem allSlots_sorted (movelists : List MoveList) :
    (allSlots movelists).Pairwise (fun a b => refBefore a.ref b.ref) :=
  (allSlots_from_sorted 0 movelists).2

theorem entryOf_slot (mls : List MoveList) (s : Slot) (m : Move) (hs : s ∈ allSlots mls)
    (hm : s.move = some m) : EntryOf mls (s.entry m) := by
  obtain ⟨h1, moves, h2, h3⟩ := mem_allSlots mls s hs
  exact ⟨s.mlIndex, s.movelist, moves, s.idx, rfl, rfl, h1, rfl, h2, by rw [h3, hm]; rfl⟩

/-- The entries that a tier collects over the positions name their places and are in
the order of the positions. -/
theorem filterMap_hits_entries (mls : List MoveList) (hit : Slot → Option MoveMatch)
    (hhit : ∀ s r, hit s = some r → ∃ m, s.move = some m ∧ r = s.entry m) :
    (∀ r ∈ (allSlots mls).filterMap hit, EntryOf mls r) ∧
    ((allSlots mls).filterMap hit).Pairwise (fun a b => refBefore a.ref b.ref) := by
  constructor
  · intro r hr
    rw [List.mem_filterMap] at hr
    obtain ⟨s, hs, hsr⟩ := hr
    obtain ⟨m, hm, rfl⟩ := hhit s r hsr
    exact entryOf_slot mls s m hs hm
  · apply List.Pairwise.filterMap hit _ (allSlots_sorted mls)
    intro a a1 hab b hb b1 hb1
    obtain ⟨m, _, rfl⟩ := hhit a b hb
    obtain ⟨m1, _, rfl⟩ := hhit a1 b1 hb1
    exact hab

theorem exactInputHit_entry (q : String) (s : Slot) (r : MoveMatch)
    (h : exactInputHit q s = some r) : ∃ m, s.move = some m ∧ r = s.entry m := by
  unfold exactInputHit at h
  cases hm : s.move with
  | none => simp [hm] at h
  | some m =>
    simp only [hm] at h
    split at h
    · exact ⟨m, rfl, (Option.some.inj h).symm⟩
    · simp at h

theorem exactNameHit_entry (q : String) (s : Slot) (r : MoveMatch)
    (h : exactNameHit q s = some r) : ∃ m, s.move = some m ∧ r = s.entry m := by
  unfold exactNameHit at h
  cases hm : s.move with
  | none => simp [hm] at h
  | some m =>
    simp only [hm] at h
    split at h
    · exact ⟨m, rfl, (Option.some.inj h).symm⟩
    · simp at h

theorem substringHit_entry (q : String) (s : Slot) (r : MoveMatch)
    (h : substringHit q s = some r) : ∃ m, s.move = some m ∧ r = s.entry m := by
  unfold substringHit at h
  cases hm : s.move with
  | none => simp [hm] at h
  | some m =>
    simp only [hm] at h
    split at h
    · exact ⟨m, rfl, (Option.some.inj h).symm⟩
    · simp at h

/-- The result of the general resolver is what one of its three tiers collects over the
positions of the record. -/
theorem findMoveByNameOrInput_tier (c : Character) (mls : List MoveList) (q : String)
    (hc : c.movelists = some mls) :
    ∃ hit : Slot → Option MoveMatch,
      (∀ s r, hit s = some r → ∃ m, s.move = some m ∧ r = s.entry m) ∧
      findMoveByNameOrInput c q = (allSlots mls).filterMap hit := by
  unfold findMoveByNameOrInput
  simp only [hc, foldl_exactInputStep, List.nil_append]
  by_cases h1 : (if isInputNotation q = true then
      (allSlots mls).filterMap (exactInputHit (toLowerCase q)) else []).length > 0
  · rw [if_pos h1]
    by_cases hn : isInputNotation q = true
    · simp only [hn, if_true]
      exact ⟨_, exactInputHit_entry _, rfl⟩
    · simp [hn] at h1
  · rw [if_neg h1]
    have hnil : (if isInputNotation q = true then
        (allSlots mls).filterMap (exactInputHit (toLowerCase q)) else []) = [] := by
      apply List.eq_nil_of_length_eq_zero
      omega
    rw [hnil]
    simp only [foldl_exactNameStep, List.nil_append]
    by_cases h2 : ((allSlots mls).filterMap (exactNameHit (toLowerCase q))).length > 0
    · rw [if_pos h2]
      exact ⟨_, exactNameHit_entry _, rfl⟩
    · rw [if_neg h2]
      have hnil2 : (allSlots mls).filterMap (exactNameHit (toLowerCase q)) = [] := by
        apply List.eq_nil_of_length_eq_zero
        omega
      rw [hnil2, foldl_substringStep _ _ _ (allSlots_pairwise mls) (by simp), List.nil_append]
      exact ⟨_, substringHit_entry _, rfl⟩

theorem findFrom_get (pred : Move → Bool) (moves : List (Option Move)) :
    ∀ (k i : Nat) (m : Move), findFrom pred k moves = Except.ok (some (i, m)) →
      ∃ j, i = k + j ∧ moves.get? j = some (some m) := by
  induction moves with
  | nil =>
    intro k i m h
    simp [findFrom] at h
  | cons x rest ih =>
    intro k i m h
    cases x with
    | none => simp [findFrom] at h
    | some mv =>
      simp only [findFrom] at h
      by_cases hp : pred mv = true
      · simp only [hp, if_true, Except.ok.injEq, Option.some.injEq, Prod.mk.injEq] at h
        obtain ⟨rfl, rfl⟩ := h
        exact ⟨0, rfl, rfl⟩
      · simp only [hp, Bool.false_eq_true, if_false] at h
        obtain ⟨j, hj, hget⟩ := ih (k + 1) i m h
        exact ⟨j + 1, by omega, by simpa using hget⟩

theorem findInFirstMoveList_entry (c : Character) (mls : List MoveList) (pred : Move → Bool)
    (r : MoveMatch) (hc : c.movelists = some mls)
    (h : findInFirstMoveList c pred = Except.ok (some r)) : EntryOf mls r := by
  unfold findInFirstMoveList at h
  rw [hc] at h
  cases mls with
  | nil => simp at h
  | cons first others =>
    simp only at h
    cases hm : first.moves with
    | none => simp [hm] at h
    | some allMoves =>
      simp only [hm] at h
      cases hf : findFrom pred 0 allMoves with
      | error e => simp [hf] at h
      | ok o =>
        cases o with
        | none => simp [hf] at h
        | some im =>
          obtain ⟨i, m⟩ := im
          simp only [hf, Except.ok.injEq, Option.some.injEq] at h
          subst h
          obtain ⟨j, hj, hget⟩ := findFrom_get pred allMoves 0 i m hf
          have hij : i = j := by omega
          subst hij
          exact ⟨0, first, allMoves, i, rfl, rfl, rfl, rfl, hm, hget⟩

theorem aliasRule_entry (c : Character) (mls : List MoveList) (test : Bool)
    (pred : Move → Bool) (next : Except JSError (Option MoveMatch)) (r : MoveMatch)
    (hc : c.movelists = some mls) (hnext : next = Except.ok (some r) → EntryOf mls r)
    (h : aliasRule c test pred next = Except.ok (some r)) : EntryOf mls r := by
  unfold aliasRule at h
  split at h
  · cases hf : findInFirstMoveList c pred with
    | error e => simp [hf] at h
    | ok o =>
      cases o with
      | none =>
        simp only [hf] at h
        exact hnext h
      | some r1 =>
        simp only [hf, Except.ok.injEq, Option.some.injEq] at h
        subst h
        exact findInFirstMoveList_entry c mls pred r1 hc hf
  · exact hnext h

theorem handleNayukiMoves_entry (c : Character) (mls : List MoveList) (q : String)
    (r : MoveMatch) (hc : c.movelists = some mls)
    (h : handleNayukiMoves c q = Except.ok (some r)) : EntryOf mls r := by
  unfold handleNayukiMoves at h
  split at h
  · simp at h
  · exact aliasRule_entry c mls _ _ _ r hc
      (aliasRule_entry c mls _ _ _ r hc
        (aliasRule_entry c mls _ _ _ r hc (fun hn => by simp at hn))) h

/-- C30. For a character in the movelists format and a query on which
`findMoveInAllMoveLists` returns, every entry has a number `k` as `moveListId`, its
`moveList` is `character.movelists[k]` and its `move` is an entry of the moves of that
move-list; and of two entries the earlier one lies in an earlier move-list or earlier in
the same move-list. The function returns whenever the alias rules of the sleeping
Nayuki do not raise. -/
theorem findMoveInAllMoveLists_entries (c : Character) (mls : List MoveList) (q : String)
    (results : List MoveMatch) (hc : c.movelists = some mls)
    (hres : findMoveInAllMoveLists c q = Except.ok results) :
    (∀ r ∈ results, EntryOf mls r) ∧
    results.Pairwise (fun a b => refBefore a.ref b.ref) := by
  unfold findMoveInAllMoveLists at hres
  cases hn : handleNayukiMoves c q with
  | error e => simp [hn] at hres
  | ok o =>
    cases o with
    | some r =>
      simp only [hn, Except.ok.injEq] at hres
      subst hres
      refine ⟨?_, List.pairwise_singleton _ _⟩
      intro x hx
      simp only [List.mem_singleton] at hx
      subst hx
      exact handleNayukiMoves_entry c mls q x hc hn
    | none =>
      simp only [hn, hc, Except.ok.injEq] at hres
      subst hres
      obtain ⟨hit, hhit, heq⟩ := findMoveByNameOrInput_tier c mls q hc
      rw [heq]
      exact filterMap_hits_entries mls hit hhit

theorem findMoveInAllMoveLists_entries_witness :
    (∀ r ∈ findMoveByNameOrInput twoListCharacter "Dash", EntryOf [normalList, alternateList] r) ∧
    (findMoveByNameOrInput twoListCharacter "Dash").Pairwise
      (fun a b => refBefore a.ref b.ref) :=
  findMoveInAllMoveLists_entries twoListCharacter [normalList, alternateList] "Dash"
    (findMoveByNameOrInput twoListCharacter "Dash") rfl (by decide)

/-- The query `Dash` on the character with two move-lists returns the move of the first
move-list, then the move of the second. -/
theorem findMoveInAllMoveLists_twoLists :
    (findMoveInAllMoveLists twoListCharacter "Dash").map
      (fun rs => rs.map (fun r => (r.ref, r.moveListId))) =
      Except.ok [([0, 0], some (IdValue.num 0)), ([1, 0], some (IdValue.num 1))] := by
  decide

end EFZ
